import Mathlib

/-!
# exp-isa: assembler and interrupt-driven simulator

A shallow embedding of `assembler.c` (two-pass assembler) and
`simulator-interrupt.c` (fetch / decode / execute / timer / interrupt cycle),
followed by theorems about label resolution, the instruction encoding, the
stack and interrupt discipline, and three end-to-end programs.

Conventions of the embedding.

* A C string is the list of the characters that precede its terminating NUL;
  `cAt s i` is `s[i]`, and gives the NUL at `i = strlen s`.
* `int` values that the source computes with (indices, `-1` sentinels,
  addresses) are `Int`; `uint8_t`, `uint32_t`, `uint64_t` values are `Nat`
  reduced explicitly where the source converts; `int8_t` and `int32_t` values
  are `Int` wrapped explicitly where the source converts.
* `exit(EXIT_FAILURE)` is `Except.error` carrying what was printed; a write past
  the end of one of the fixed tables is `Fatal.overrun`.
* `parse_sti` has no `return` on the paths where it succeeds, and its callers
  compare its result with `-1`. Where the last call made on such a path returned
  `-1`, the outcome of `parse` is `Fatal.indeterminate`; elsewhere the comparison
  is taken to fail.
-/

namespace ExpIsa

/-! ## Characters and C strings -/

/-- The `isspace` of the C locale: space, and the control characters 9 to 13. -/
def isspace (c : Char) : Bool :=
  c.toNat == 32 || (9 ≤ c.toNat && c.toNat ≤ 13)

/-- The `isdigit` of the C locale. -/
def isdigit (c : Char) : Bool :=
  48 ≤ c.toNat && c.toNat ≤ 57

/-- The `isalnum` of the C locale: a digit or an ASCII letter. -/
def isalnum (c : Char) : Bool :=
  isdigit c || (65 ≤ c.toNat && c.toNat ≤ 90) || (97 ≤ c.toNat && c.toNat ≤ 122)

/-- The terminating character of a C string. -/
def NUL : Char := Char.ofNat 0

/-- The line feed that ends a line delivered by `getline`. -/
def LF : Char := Char.ofNat 10

/-- The character `s[i]` of a C string; the terminator at `i = strlen s`. -/
def cAt (s : List Char) (i : Nat) : Char := s.getD i NUL

/-- A character buffer read as a C string: its content up to the first NUL. -/
def cstr (buf : List Char) : List Char := buf.takeWhile (fun c => c != NUL)

/-- The loop `while (p(line[i])) i++` for a character class `p` that rejects NUL. -/
def skip_while (p : Char → Bool) (line : List Char) (i : Nat) : Nat :=
  i + ((line.drop i).takeWhile p).length

/-- Scan of `str` for the first character satisfying `p`; the argument `i` is the index of
the head of the list. The result is `-1` when there is none. -/
def scan_from (p : Char → Bool) : List Char → Nat → Int
  | [], _ => -1
  | c :: cs, i => if p c then (i : Int) else scan_from p cs (i + 1)

/-- Source `first_char(str, i, c)`. -/
def first_char (str : List Char) (i : Nat) (c : Char) : Int :=
  scan_from (fun x => x == c) (str.drop i) i

/-- Source `first_whitespace(str, i)`. -/
def first_whitespace (str : List Char) (i : Nat) : Int :=
  scan_from isspace (str.drop i) i

/-- Source `first_non_whitespace(str, i)`. -/
def first_non_whitespace (str : List Char) (i : Nat) : Int :=
  scan_from (fun x => !isspace x) (str.drop i) i

/-- Source `remove_whitespace(line)`: each whitespace character met is deleted by shifting
the tail of the string one place to the left. -/
def remove_whitespace (line : List Char) : List Char :=
  line.filter (fun c => !isspace c)

/-- The loop `while (isspace(line[n - 1])) n--`. For the lines it is run on, `line[0]` is
neither whitespace nor the start of a comment, so index `-1` is never read; the
model stops at `0`. -/
def rtrim_idx (line : List Char) : Nat → Nat
  | 0 => 0
  | n + 1 => if isspace (cAt line n) then rtrim_idx line n else n + 1

/-- Index where the code part of a line ends: the first `;` or else the end of the string,
moved left over trailing whitespace. Shared by `is_symbol` and `parse`. -/
def code_end (line : List Char) : Nat :=
  let c := first_char line 0 ';'
  rtrim_idx line (if c = -1 then line.length else c.toNat)

/-! ## Integer conversions -/

/-- Conversion to `uint8_t`. -/
def toU8 (i : Int) : Nat := (i % 256).toNat

/-- Conversion to `int8_t` (two's complement wrap). -/
def toI8 (i : Int) : Int := (i + 128) % 256 - 128

/-- Conversion to `uint32_t`. -/
def toU32 (i : Int) : Nat := (i % 4294967296).toNat

/-- Conversion to `int32_t` (two's complement wrap). -/
def toI32 (i : Int) : Int := (i + 2147483648) % 4294967296 - 2147483648

/-- The digit loop of `strtol` in base 10: accumulate while digits last. -/
def strtol_digits : List Char → Nat → Nat
  | [], acc => acc
  | c :: cs, acc => if isdigit c then strtol_digits cs (10 * acc + (c.toNat - 48)) else acc

/-- `LONG_MAX` of the LP64 target. -/
def LONG_MAX : Int := 9223372036854775807

/-- `LONG_MIN` of the LP64 target. -/
def LONG_MIN : Int := -9223372036854775808

/-- The C library `strtol(s, NULL, 10)`: leading whitespace, an optional sign, then digits;
`0` when there is no digit; clamped to the range of `long`. -/
def strtol (s : List Char) : Int :=
  let t := s.dropWhile isspace
  if t.head? = some '-' then max LONG_MIN (-(strtol_digits (t.drop 1) 0 : Int))
  else if t.head? = some '+' then min LONG_MAX (strtol_digits (t.drop 1) 0 : Int)
  else min LONG_MAX (strtol_digits t 0 : Int)

/-! ## The assembler (`assembler.c`) -/

/-- `MAX_ASSEMBLY_SIZE`. -/
def MAX_ASSEMBLY_SIZE : Nat := 2048

/-- `MAX_ASSEMBLY_LENGTH`. -/
def MAX_ASSEMBLY_LENGTH : Nat := 128

/-- `MAX_LABEL_SIZE`. -/
def MAX_LABEL_SIZE : Nat := 1024

/-- `MAX_LABEL_LENGTH`. -/
def MAX_LABEL_LENGTH : Nat := 30

/-- Ways in which the assembler stops: the three messages followed by `exit(EXIT_FAILURE)`,
and a write past the end of a fixed table (undefined behaviour in C). The last one is not a
stop but an outcome that the source does not fix: `parse` has compared with `-1` the result of
a `parse_sti` that reached its closing brace without a `return`, right after the last call
in it had returned `-1`; whether the syntax error is reported then depends on the build. -/
inductive Fatal where
  | label_too_long (text : List Char)
  | label_invalid (text : List Char)
  | syntax_error (idx : Int)
  | overrun
  | indeterminate
  deriving DecidableEq, Repr

/-- The four bytes `bin[0..3]` written for one code line. -/
structure Bin4 where
  b0 : Nat
  b1 : Nat
  b2 : Nat
  b3 : Nat
  deriving DecidableEq, Repr

/-- The globals of the assembler: `code` (with `code_size` its length), the parallel arrays
`label` / `label_address` (with `label_size` their length), and the local `address` of `main`
that `handle_line` receives by pointer. -/
structure Asm where
  code : List (List Char)
  label : List (List Char × Int)
  address : Int
  deriving DecidableEq, Repr

/-- The state before the first line is read. -/
def Asm.init : Asm := ⟨[], [], 0⟩

/-- Source `is_symbol(line)`: `0` when the line is not a label, otherwise the index of the
closing `:`; fatal when the label is too long or has a character that is neither
alphanumeric nor `_`. The text carried by the error is what the message prints. -/
def is_symbol (line : List Char) : Except Fatal Int :=
  let i := (first_non_whitespace line 0).toNat
  if cAt line i = '.' then .ok 0
  else
    let code_end_idx := code_end line - 1
    if cAt line code_end_idx = ':' then
      if (code_end_idx : Int) - i > MAX_LABEL_LENGTH then
        .error (.label_too_long ((line.take code_end_idx).drop i))
      else
        let bad := scan_from (fun c => !isalnum c && c != '_') ((line.take code_end_idx).drop i) i
        if bad = -1 then .ok code_end_idx
        else .error (.label_invalid ((line.take code_end_idx).drop bad.toNat))
    else .ok 0

/-- Source `handle_line(line, p_address)`. The `strncpy` stores the label without a
terminator; the `strcpy` stores the line from its first non-whitespace character. -/
def handle_line (st : Asm) (line : List Char) : Except Fatal Asm :=
  let i := first_non_whitespace line 0
  if i = -1 ∨ cAt line i.toNat = ';' then .ok st
  else
    match is_symbol line with
    | .error e => .error e
    | .ok s_index =>
      if s_index ≠ 0 then
        let name := (line.drop i.toNat).take (s_index - i).toNat
        if st.label.length ≥ MAX_LABEL_SIZE
            ∨ (st.label.length + 1 = MAX_LABEL_SIZE ∧ name.length = MAX_LABEL_LENGTH) then
          .error .overrun
        else .ok { st with label := st.label ++ [(name, st.address)] }
      else
        let text := line.drop i.toNat
        if st.code.length ≥ MAX_ASSEMBLY_SIZE ∨ text.length ≥ MAX_ASSEMBLY_LENGTH then
          .error .overrun
        else .ok { st with address := st.address + 1, code := st.code ++ [text] }

/-- Phase 1 of `main`: `handle_line` on every line that `getline` delivers, each read as a
C string. -/
def pass1 : List (List Char) → Asm → Except Fatal Asm
  | [], st => .ok st
  | l :: ls, st =>
    match handle_line st (cstr l) with
    | .error e => .error e
    | .ok st1 => pass1 ls st1

/-- The C string read at the first entry of the label table. Entries are 30 bytes wide and
zero before they are written, so a stored name shorter than 30 characters is
terminated, and one of exactly 30 characters runs on into the next entry. -/
def label_cstr : List (List Char × Int) → List Char
  | [] => []
  | (n, _) :: rest => if n.length < MAX_LABEL_LENGTH then n else n ++ label_cstr rest

/-- Source `parse_label(lab)`: address of the first entry that compares equal, or `-1`. -/
def parse_label : List (List Char × Int) → List Char → Int
  | [], _ => -1
  | (n, a) :: rest, lab =>
    if lab = label_cstr ((n, a) :: rest) then a else parse_label rest lab

/-- Source `parse_reg(r, l)`; the result is a `uint8_t`, so the `-1` of the source is 255. -/
def parse_reg (r : List Char) (l : Int) : Nat :=
  if l = 2 ∧ cAt r 0 = 's' ∧ cAt r 1 = 'p' then 64
  else if cAt r 0 ≠ 'R' ∨ l > 3 ∨ l < 2 then 255
  else
    let s := if l = 2 then cstr [cAt r 1] else cstr [cAt r 1, cAt r 2]
    let reg_n := strtol s
    if reg_n < 0 ∨ reg_n > 63 then 255 else reg_n.toNat

/-- Source `parse_imm(r)`: the `long` forced into an `int8_t`. -/
def parse_imm (r : List Char) : Int := toI8 (strtol r)

/-- Source `parse_sti(line, p_sreg, p_treg, p_imm)`. The three flags say which pointers are
not `NULL`. `none` is the explicit `return -1`. On every other path the source reaches the
closing brace of the function without a `return`, so the value that its callers compare with
`-1` is indeterminate: it is what the build happens to leave in the return register. The
result records, first, whether the last call made on that path (`parse_reg` for a register,
whose `return -1` is the marker 255, or `parse_imm`) returned `-1`, and then the values
stored through the pointers (a component whose pointer is `NULL` is reported as `0` and is
never read). -/
def parse_sti (line : List Char) (p_sreg p_treg p_imm : Bool) :
    Option (Bool × Nat × Nat × Int) :=
  match p_sreg, p_treg, p_imm with
  | true, true, true =>
    let first_comma_sep_idx := first_char line 0 ','
    if first_comma_sep_idx = -1 then none
    else
      let second_comma_sep_idx := first_char line (first_comma_sep_idx + 1).toNat ','
      if second_comma_sep_idx = -1 then none
      else
        let imm := parse_imm (line.drop (second_comma_sep_idx + 1).toNat)
        some (imm == -1, parse_reg line first_comma_sep_idx,
              parse_reg (line.drop (first_comma_sep_idx + 1).toNat)
                (second_comma_sep_idx - first_comma_sep_idx - 1), imm)
  | false, true, true =>
    let first_comma_sep_idx := first_char line 0 ','
    if first_comma_sep_idx = -1 then none
    else
      let imm := parse_imm (line.drop (first_comma_sep_idx + 1).toNat)
      some (imm == -1, 0, parse_reg line first_comma_sep_idx, imm)
  | true, false, false =>
    let sreg := parse_reg line line.length
    some (sreg == 255, sreg, 0, 0)
  | true, true, false =>
    let first_comma_sep_idx := first_char line 0 ','
    if first_comma_sep_idx = -1 then none
    else
      let treg := parse_reg (line.drop (first_comma_sep_idx + 1).toNat)
        (line.length - first_comma_sep_idx - 1)
      some (treg == 255, parse_reg line first_comma_sep_idx, treg, 0)
  | false, true, false =>
    let treg := parse_reg line line.length
    some (treg == 255, 0, treg, 0)
  | _, _, _ => some (false, 0, 0, 0)

/-- Source `throw_syntax_error(idx)`. -/
def throw_syntax_error {α : Type} (idx : Int) : Except Fatal α := .error (.syntax_error idx)

/-- The opcodes of the shared `enum`. -/
@[match_pattern] def OP_HALT : Nat := 0x00
/-- Opcode of `nop`. -/
@[match_pattern] def OP_NOP : Nat := 0x01
/-- Opcode of `addi`. -/
@[match_pattern] def OP_ADDI : Nat := 0x02
/-- Opcode of `move_reg`. -/
@[match_pattern] def OP_MOVEREG : Nat := 0x03
/-- Opcode of `movei`. -/
@[match_pattern] def OP_MOVEI : Nat := 0x04
/-- Opcode of `lw`. -/
@[match_pattern] def OP_LW : Nat := 0x05
/-- Opcode of `sw`. -/
@[match_pattern] def OP_SW : Nat := 0x06
/-- Opcode of `blez`. -/
@[match_pattern] def OP_BLEZ : Nat := 0x07
/-- Opcode of `la`. -/
@[match_pattern] def OP_LA : Nat := 0x08
/-- Opcode of `push`. -/
@[match_pattern] def OP_PUSH : Nat := 0x09
/-- Opcode of `pop`. -/
@[match_pattern] def OP_POP : Nat := 0x0a
/-- Opcode of `add`. -/
@[match_pattern] def OP_ADD : Nat := 0x0b
/-- Opcode of `jmp`. -/
@[match_pattern] def OP_JMP : Nat := 0x0c
/-- Opcode of `iret`. -/
@[match_pattern] def OP_IRET : Nat := 0x10
/-- Opcode of `put`. -/
@[match_pattern] def OP_PUT : Nat := 0x11

/-- The `.word` branch of `parse`. -/
def parse_word (line : List Char) (idx : Int) : Except Fatal Bin4 :=
  if (line.drop 1).take 4 = ['w', 'o', 'r', 'd'] then
    if isspace (cAt line 5) then
      let word_begin_idx := skip_while isspace line 6
      if cAt line word_begin_idx ≠ '-' ∧ ¬ isdigit (cAt line word_begin_idx) then
        throw_syntax_error idx
      else
        let word_end_idx := skip_while isdigit line (word_begin_idx + 1)
        if ¬ isspace (cAt line word_end_idx) ∧ cAt line word_end_idx ≠ ';' then
          throw_syntax_error idx
        else
          let last_idx := first_non_whitespace line word_end_idx
          if last_idx = -1 ∨ cAt line last_idx.toNat = NUL ∨ cAt line last_idx.toNat = ';' then
            let value := toU32 (strtol ((line.take word_end_idx).drop word_begin_idx))
            .ok ⟨value % 256, value / 256 % 256, value / 65536 % 256, value / 16777216 % 256⟩
          else throw_syntax_error idx
    else throw_syntax_error idx
  else throw_syntax_error idx

/-- The test `if (parse_sti(...) == -1) throw_syntax_error(idx);` of `parse` and the bytes
written after it. After the explicit `return -1` the syntax error is reported. When
`parse_sti` has reached its end without a `return`, the test reads an indeterminate value:
if the last call in `parse_sti` returned `-1`, builds differ on whether the error is reported
(the outcome is `Fatal.indeterminate`); otherwise no `-1` has been produced and the test is
taken to fail, so the bytes are written. -/
def emit_sti (r : Option (Bool × Nat × Nat × Int)) (idx : Int) (f : Nat × Nat × Int → Bin4) :
    Except Fatal Bin4 :=
  match r with
  | none => throw_syntax_error idx
  | some (true, _) => .error .indeterminate
  | some (false, v) => .ok (f v)

/-- The second `switch` of `parse`, on `op_end_idx`: `op` is the text before the first
whitespace (what the `strncmp` calls compare), `ops` the operand text
`line + op_end_idx + 1` after `remove_whitespace`. -/
def parse_operands (labels : List (List Char × Int)) (op_end_idx : Int) (op ops : List Char)
    (idx : Int) : Except Fatal Bin4 :=
  if op_end_idx = 2 then
    if op = ['l', 'w'] then
      emit_sti (parse_sti ops true true true) idx
        (fun v => ⟨toU8 v.2.2, v.2.1, v.1, OP_LW⟩)
    else if op = ['s', 'w'] then
      emit_sti (parse_sti ops true true true) idx
        (fun v => ⟨toU8 v.2.2, v.2.1, v.1, OP_SW⟩)
    else if op = ['l', 'a'] then
      let comma_sep_idx := first_char ops 0 ','
      if comma_sep_idx = -1 then throw_syntax_error idx
      else
        let addr := parse_label labels (ops.drop (comma_sep_idx + 1).toNat)
        if addr = -1 then throw_syntax_error idx
        else
          let imm := toI8 (addr - idx - 1)
          let treg := parse_reg ops comma_sep_idx
          .ok ⟨toU8 imm, treg, 0, OP_LA⟩
    else throw_syntax_error idx
  else if op_end_idx = 3 then
    if op = ['j', 'm', 'p'] then
      let addr := parse_label labels ops
      if addr = -1 then throw_syntax_error idx
      else .ok ⟨toU8 (toI8 (addr - idx - 1)), 0, 0, OP_JMP⟩
    else if op = ['p', 'o', 'p'] then
      emit_sti (parse_sti ops false true false) idx (fun v => ⟨0, v.2.1, 0, OP_POP⟩)
    else if op = ['p', 'u', 't'] then
      emit_sti (parse_sti ops true false false) idx (fun v => ⟨0, 0, v.1, OP_PUT⟩)
    else if op = ['a', 'd', 'd'] then
      emit_sti (parse_sti ops true true false) idx (fun v => ⟨0, v.2.1, v.1, OP_ADD⟩)
    else throw_syntax_error idx
  else if op_end_idx = 4 then
    if op = ['p', 'u', 's', 'h'] then
      emit_sti (parse_sti ops true false false) idx (fun v => ⟨0, 0, v.1, OP_PUSH⟩)
    else if op = ['b', 'l', 'e', 'z'] then
      let comma_sep_idx := first_char ops 0 ','
      if comma_sep_idx = -1 then throw_syntax_error idx
      else
        let addr := parse_label labels (ops.drop (comma_sep_idx + 1).toNat)
        if addr = -1 then throw_syntax_error idx
        else
          let imm := toI8 (addr - idx - 1)
          let sreg := parse_reg ops comma_sep_idx
          .ok ⟨toU8 imm, 0, sreg, OP_BLEZ⟩
    else if op = ['a', 'd', 'd', 'i'] then
      emit_sti (parse_sti ops true true true) idx
        (fun v => ⟨toU8 v.2.2, v.2.1, v.1, OP_ADDI⟩)
    else throw_syntax_error idx
  else if op_end_idx = 5 then
    if op = ['m', 'o', 'v', 'e', 'i'] then
      emit_sti (parse_sti ops false true true) idx
        (fun v => ⟨toU8 v.2.2, v.2.1, 0, OP_MOVEI⟩)
    else throw_syntax_error idx
  else if op_end_idx = 8 then
    if op = ['m', 'o', 'v', 'e', '_', 'r', 'e', 'g'] then
      emit_sti (parse_sti ops true true false) idx
        (fun v => ⟨0, v.2.1, v.1, OP_MOVEREG⟩)
    else throw_syntax_error idx
  else throw_syntax_error idx

/-- The instruction branch of `parse`, after the comment and the trailing whitespace have been
cut off (`line[code_end_idx] = 0`): the first `switch`, on the length of what is left, then
the split at the first whitespace and the second `switch`. -/
def parse_op (labels : List (List Char × Int)) (line : List Char) (idx : Int) :
    Except Fatal Bin4 :=
  if line.length = 3 then
    if line = ['N', 'O', 'P'] then .ok ⟨0, 0, 0, OP_NOP⟩ else throw_syntax_error idx
  else if line.length = 4 then
    if line = ['h', 'a', 'l', 't'] then .ok ⟨0, 0, 0, OP_HALT⟩
    else if line = ['i', 'r', 'e', 't'] then .ok ⟨0, 0, 0, OP_IRET⟩
    else throw_syntax_error idx
  else
    let op_end_idx := first_whitespace line 0
    parse_operands labels op_end_idx (line.take op_end_idx.toNat)
      (remove_whitespace (line.drop (op_end_idx + 1).toNat)) idx

/-- Source `parse(line, idx, bin)`: the four bytes written to `bin`, or the fatal error. -/
def parse (labels : List (List Char × Int)) (line : List Char) (idx : Int) :
    Except Fatal Bin4 :=
  if cAt line 0 = '.' then parse_word line idx
  else parse_op labels (line.take (code_end line)) idx

/-- Phase 2 of `main`: `parse` on `code[code_index]` for `code_index = start, start + 1, ...`,
stopping at the first fatal error; the result is the content of `bin`. -/
def pass2 (labels : List (List Char × Int)) : List (List Char) → Nat → Except Fatal (List Nat)
  | [], _ => .ok []
  | l :: ls, code_index =>
    match parse labels l code_index with
    | .error e => .error e
    | .ok w =>
      match pass2 labels ls (code_index + 1) with
      | .error e => .error e
      | .ok bs => .ok (w.b0 :: w.b1 :: w.b2 :: w.b3 :: bs)

/-- Both phases of `main` on the lines of a source file: the bytes of `bin[0 .. 4 * code_size)`
that the final `fwrite` is given. -/
def assemble (src : List (List Char)) : Except Fatal (List Nat) :=
  match pass1 src Asm.init with
  | .error e => .error e
  | .ok st => pass2 st.label st.code 0

/-! ## The simulator (`simulator-interrupt.c`) -/

/-- `MAX_MEM_SIZE`: the number of 32-bit words of memory. -/
def MAX_MEM_SIZE : Nat := 128

/-- `PSR_INT_EN`. -/
def PSR_INT_EN : Nat := 0x1

/-- `PSR_INT_PEND`. -/
def PSR_INT_PEND : Nat := 0x2

/-- The `COMPUTER` of the source, flattened: the control registers `PC`, `IR`, `PSR`
(`uint32_t`), the registers `R[0..64]` (`int32_t`, `R[64]` being `SP`), `counter`
(`uint64_t`), the words `memory.addr[0..127]` (`uint32_t`), and, as `out`, the characters the
execution has written to the standard output. -/
structure COMPUTER where
  PC : Nat
  IR : Nat
  PSR : Nat
  R : Nat → Int
  counter : Nat
  mem : Nat → Nat
  out : List Char

/-- The macro `SP`: register 64. -/
def COMPUTER.SP (cp : COMPUTER) : Int := cp.R 64

/-- Which `return -1` ended a cycle. -/
inductive Exit where
  | halt
  | invalid_opcode
  | fetch_fault
  deriving DecidableEq, Repr

/-- Result of one phase of the cycle: `next` is `return 0`, `stop` is `return -1`, and
`undefined` is an access outside `R[0..64]` or `memory.addr[0..127]`. -/
inductive Step where
  | next (cp : COMPUTER)
  | stop (why : Exit) (cp : COMPUTER)
  | undefined

/-- Assignment `R[i] = v`. -/
def setR (R : Nat → Int) (i : Nat) (v : Int) : Nat → Int :=
  fun j => if j = i then v else R j

/-- Assignment `memory.addr[a] = v`. -/
def setM (mem : Nat → Nat) (a : Nat) (v : Nat) : Nat → Nat :=
  fun j => if j = a then v else mem j

/-- The statement `PC++` on a `uint32_t`. -/
def incPC (pc : Nat) : Nat := (pc + 1) % 4294967296

/-- Source `fetch(cp)`. -/
def fetch (cp : COMPUTER) : Step :=
  if cp.PC ≥ MAX_MEM_SIZE then .stop .fetch_fault cp
  else .next { cp with IR := cp.mem cp.PC }

/-- Source `decode(instr, ...)` on the little-endian target: opcode, sreg, treg and the
immediate. The source casts the low byte to a pointer and assigns that to the `int8_t`;
the conversion keeps the low eight bits, so the value is the low byte read as signed. -/
def decode (instr : Nat) : Nat × Nat × Nat × Int :=
  (instr / 16777216 % 256, instr / 65536 % 256, instr / 256 % 256, toI8 (instr % 256))

/-- Source `execute(cp, p_opcode, p_sreg, p_treg, p_imm)`. Signed arithmetic wraps in two's
complement. -/
def execute (cp : COMPUTER) (opcode sreg treg : Nat) (imm : Int) : Step :=
  match opcode with
  | OP_HALT => .stop .halt cp
  | OP_NOP => .next cp
  | OP_ADDI =>
    if sreg ≤ 64 ∧ treg ≤ 64 then
      .next { cp with R := setR cp.R treg (toI32 (cp.R sreg + imm)), PC := incPC cp.PC }
    else .undefined
  | OP_MOVEREG =>
    if sreg ≤ 64 ∧ treg ≤ 64 then
      .next { cp with R := setR cp.R treg (cp.R sreg), PC := incPC cp.PC }
    else .undefined
  | OP_MOVEI =>
    if treg ≤ 64 then .next { cp with R := setR cp.R treg imm, PC := incPC cp.PC }
    else .undefined
  | OP_LW =>
    if sreg ≤ 64 ∧ treg ≤ 64 ∧ 0 ≤ cp.R sreg + imm ∧ cp.R sreg + imm < MAX_MEM_SIZE then
      .next { cp with R := setR cp.R treg (toI32 (cp.mem (cp.R sreg + imm).toNat)),
                      PC := incPC cp.PC }
    else .undefined
  | OP_SW =>
    if sreg ≤ 64 ∧ treg ≤ 64 ∧ 0 ≤ cp.R sreg + imm ∧ cp.R sreg + imm < MAX_MEM_SIZE then
      .next { cp with mem := setM cp.mem (cp.R sreg + imm).toNat (toU32 (cp.R treg)),
                      PC := incPC cp.PC }
    else .undefined
  | OP_BLEZ =>
    if sreg ≤ 64 then
      if cp.R sreg ≤ 0 then .next { cp with PC := toU32 (cp.PC + (1 + imm)) }
      else .next { cp with PC := incPC cp.PC }
    else .undefined
  | OP_LA =>
    if treg ≤ 64 then
      .next { cp with R := setR cp.R treg (toI32 (toU32 (cp.PC + 1 + imm))), PC := incPC cp.PC }
    else .undefined
  | OP_ADD =>
    if sreg ≤ 64 ∧ treg ≤ 64 then
      .next { cp with R := setR cp.R treg (toI32 (cp.R sreg + cp.R treg)), PC := incPC cp.PC }
    else .undefined
  | OP_JMP => .next { cp with PC := toU32 (cp.PC + (1 + imm)) }
  | OP_PUSH =>
    let R1 := setR cp.R 64 (toI32 (cp.R 64 - 1))
    if sreg ≤ 64 ∧ 0 ≤ R1 64 ∧ R1 64 < MAX_MEM_SIZE then
      .next { cp with R := R1, mem := setM cp.mem (R1 64).toNat (toU32 (R1 sreg)),
                      PC := incPC cp.PC }
    else .undefined
  | OP_POP =>
    if treg ≤ 64 ∧ 0 ≤ cp.R 64 ∧ cp.R 64 < MAX_MEM_SIZE then
      let R1 := setR cp.R treg (toI32 (cp.mem (cp.R 64).toNat))
      .next { cp with R := setR R1 64 (toI32 (R1 64 + 1)), PC := incPC cp.PC }
    else .undefined
  | OP_IRET =>
    let R1 := setR cp.R 64 (toI32 (cp.R 64 + 1))
    if 0 ≤ cp.R 64 ∧ cp.R 64 < MAX_MEM_SIZE ∧ 0 ≤ R1 64 ∧ R1 64 < MAX_MEM_SIZE then
      .next { cp with PC := cp.mem (cp.R 64).toNat,
                      PSR := cp.mem (R1 64).toNat &&& 0xfffffffd,
                      R := setR R1 64 (toI32 (R1 64 + 1)) }
    else .undefined
  | OP_PUT =>
    if sreg ≤ 64 then
      .next { cp with out := cp.out ++ [Char.ofNat (toU8 (cp.R sreg))], PC := incPC cp.PC }
    else .undefined
  | _ =>
    .stop .invalid_opcode
      { cp with out := cp.out ++ "Error: invalid opcode 0x".toList ++ Nat.toDigits 16 opcode
                         ++ [LF] }

/-- Source `timer_tick(cp)`. -/
def timer_tick (cp : COMPUTER) : COMPUTER :=
  let counter := (cp.counter + 1) % 18446744073709551616
  if cp.PSR &&& PSR_INT_EN ≠ 0 ∧ counter % 5000 = 0 then
    { cp with counter := counter, PSR := cp.PSR ||| PSR_INT_PEND }
  else { cp with counter := counter }

/-- Source `check_interrupt(cp)`. -/
def check_interrupt (cp : COMPUTER) : Step :=
  if cp.PSR &&& PSR_INT_EN ≠ 0 ∧ cp.PSR &&& PSR_INT_PEND ≠ 0 then
    let sp1 := toI32 (cp.R 64 - 1)
    let sp2 := toI32 (sp1 - 1)
    if 0 ≤ sp1 ∧ sp1 < MAX_MEM_SIZE ∧ 0 ≤ sp2 ∧ sp2 < MAX_MEM_SIZE then
      let mem2 := setM (setM cp.mem sp1.toNat cp.PSR) sp2.toNat cp.PC
      .next { cp with R := setR cp.R 64 sp2, mem := mem2,
                      PSR := cp.PSR &&& 0xfffffffc, PC := mem2 0 }
    else .undefined
  else .next cp

/-- The first three phases of `cpu_cycle`: fetch, decode of `IR`, execute. -/
def fetch_execute (cp : COMPUTER) : Step :=
  match fetch cp with
  | .next cp1 =>
    let d := decode cp1.IR
    execute cp1 d.1 d.2.1 d.2.2.1 d.2.2.2
  | r => r

/-- Source `cpu_cycle(cp)`: fetch, decode, execute, timer tick, interrupt check; the first
phase that returns a negative value ends the cycle. -/
def cpu_cycle (cp : COMPUTER) : Step :=
  match fetch_execute cp with
  | .next cp2 => check_interrupt (timer_tick cp2)
  | r => r

/-- How the loop of `main` ended, within a bound on the number of cycles. -/
inductive Run where
  | stopped (why : Exit) (cycles : Nat) (cp : COMPUTER)
  | undefined
  | running (cp : COMPUTER)

/-- The loop `while (1) { if (cpu_cycle(&comp) < 0) break; }` of `main`, cut off after `fuel`
cycles; `done` counts the cycles that returned 0. -/
def run_loop : Nat → Nat → COMPUTER → Run
  | 0, _, cp => .running cp
  | fuel + 1, done, cp =>
    match cpu_cycle cp with
    | .next cp1 => run_loop fuel (done + 1) cp1
    | .stop why cp1 => .stopped why done cp1
    | .undefined => .undefined

/-- The state after `n` cycles that all return 0, if they do. -/
def cycles : Nat → COMPUTER → Option COMPUTER
  | 0, cp => some cp
  | n + 1, cp =>
    match cpu_cycle cp with
    | .next cp1 => cycles n cp1
    | _ => none

/-- Byte `k` of memory after `read(fd, &cp->memory, MAX_MEM_SIZE * 4)` has stored the first
`n` bytes of the image over the previous content. -/
def loaded_byte (old : Nat → Nat) (image : List Nat) (n k : Nat) : Nat :=
  if k < n then image.getD k 0 % 256 else old (k / 4) / 256 ^ (k % 4) % 256

/-- Source `computer_load_init(cp, file)`, the file being given by its bytes. The `read`
stores at most `MAX_MEM_SIZE * 4` bytes, so its result never exceeds that bound and the
test for a program that is too big never fires. `before` is the content of the
uninitialised `COMPUTER` of `main`; the registers `R[4..63]` keep it. -/
def computer_load_init (before : COMPUTER) (image : List Nat) : COMPUTER :=
  let ret := min image.length (MAX_MEM_SIZE * 4)
  let b := loaded_byte before.mem image ret
  { PC := 0, IR := 0, PSR := 0x1, counter := 0, out := before.out,
    mem := fun a => b (4 * a) + 256 * b (4 * a + 1) + 65536 * b (4 * a + 2)
                      + 16777216 * b (4 * a + 3),
    R := setR (setR (setR (setR (setR before.R 64 0) 0 0) 1 0) 2 0) 3 0 }

/-- The state in which `main` enters its cycle loop: the image loaded by
`computer_load_init` over the uninitialised `before`, and `PC` set from the start address
(`atoi` of the second argument, stored in the `uint32_t`). -/
def start_state (before : COMPUTER) (image : List Nat) (start : Int) : COMPUTER :=
  { computer_load_init before image with PC := toU32 start }

/-- The part of `main` after the banner: load the image, set `PC` from the start address
(`none` when it is rejected), and run the cycle loop for at most `fuel` cycles. -/
def boot (before : COMPUTER) (image : List Nat) (start : Int) (fuel : Nat) : Option Run :=
  if (start_state before image start).PC ≥ MAX_MEM_SIZE then none
  else some (run_loop fuel 0 (start_state before image start))

end ExpIsa

namespace ExpIsa

/-! ## Assembly text as the specification writes it -/

/-- The decimal literal of an integer: an optional leading `-`, then the decimal digits. -/
def dec_text (i : Int) : List Char :=
  if i < 0 then '-' :: Nat.toDigits 10 i.natAbs else Nat.toDigits 10 i.toNat

/-- The register syntax of the specification: `R<n>` for `n ≤ 63`, and `sp` for index 64. -/
def reg_text (n : Nat) : List Char :=
  if n = 64 then ['s', 'p'] else 'R' :: Nat.toDigits 10 n

/-- The 32-bit word that four bytes form in little-endian order, as `computer_load_init`
places them in a memory word. -/
def Bin4.word (w : Bin4) : Nat := w.b0 + 256 * w.b1 + 65536 * w.b2 + 16777216 * w.b3

/-- The instructions of the ISA table of the specification; a label operand is the label's
name. -/
inductive Instr where
  | halt
  | nop
  | addi (s t : Nat) (imm : Int)
  | move_reg (s t : Nat)
  | movei (t : Nat) (imm : Int)
  | lw (s t : Nat) (imm : Int)
  | sw (s t : Nat) (imm : Int)
  | blez (s : Nat) (lab : List Char)
  | la (t : Nat) (lab : List Char)
  | push (s : Nat)
  | pop (t : Nat)
  | add (s t : Nat)
  | jmp (lab : List Char)
  | iret
  | put (s : Nat)
  deriving DecidableEq, Repr

/-- The source text of an instruction as the ISA table writes it: the mnemonic, a space, and
the operands separated by commas. -/
def Instr.text : Instr → List Char
  | .halt => "halt".toList
  | .nop => "nop".toList
  | .addi s t imm => "addi ".toList ++ reg_text s ++ ',' :: reg_text t ++ ',' :: dec_text imm
  | .move_reg s t => "move_reg ".toList ++ reg_text s ++ ',' :: reg_text t
  | .movei t imm => "movei ".toList ++ reg_text t ++ ',' :: dec_text imm
  | .lw s t imm => "lw ".toList ++ reg_text s ++ ',' :: reg_text t ++ ',' :: dec_text imm
  | .sw s t imm => "sw ".toList ++ reg_text s ++ ',' :: reg_text t ++ ',' :: dec_text imm
  | .blez s lab => "blez ".toList ++ reg_text s ++ ',' :: lab
  | .la t lab => "la ".toList ++ reg_text t ++ ',' :: lab
  | .push s => "push ".toList ++ reg_text s
  | .pop t => "pop ".toList ++ reg_text t
  | .add s t => "add ".toList ++ reg_text s ++ ',' :: reg_text t
  | .jmp lab => "jmp ".toList ++ lab
  | .iret => "iret".toList
  | .put s => "put ".toList ++ reg_text s

/-- The fields (opcode, sreg, treg, immediate) of an instruction by the ISA table; `rel` is the
relative offset of the label operand of `blez`, `la` and `jmp`. Unused fields are 0. -/
def Instr.fields (rel : List Char → Int) : Instr → Nat × Nat × Nat × Int
  | .halt => (0x00, 0, 0, 0)
  | .nop => (0x01, 0, 0, 0)
  | .addi s t imm => (0x02, s, t, imm)
  | .move_reg s t => (0x03, s, t, 0)
  | .movei t imm => (0x04, 0, t, imm)
  | .lw s t imm => (0x05, s, t, imm)
  | .sw s t imm => (0x06, s, t, imm)
  | .blez s lab => (0x07, s, 0, rel lab)
  | .la t lab => (0x08, 0, t, rel lab)
  | .push s => (0x09, s, 0, 0)
  | .pop t => (0x0a, 0, t, 0)
  | .add s t => (0x0b, s, t, 0)
  | .jmp lab => (0x0c, 0, 0, rel lab)
  | .iret => (0x10, 0, 0, 0)
  | .put s => (0x11, s, 0, 0)

/-- The characters of a label name: alphanumeric or `_`. -/
def label_char (c : Char) : Bool := isalnum c || c == '_'

/-- A label operand that can be encoded at emission index `idx`: a non-empty name of label
characters that the label table resolves, with the relative offset inside the signed
8-bit range. -/
def label_ok (labels : List (List Char × Int)) (idx : Int) (lab : List Char) : Prop :=
  lab ≠ [] ∧ (∀ c ∈ lab, label_char c = true) ∧ parse_label labels lab ≠ -1
    ∧ -128 ≤ parse_label labels lab - idx - 1 ∧ parse_label labels lab - idx - 1 ≤ 127

/-- A valid instruction: register indices in `0..64`, immediates in `-128..127`, label
operands encodable. -/
def Instr.valid (labels : List (List Char × Int)) (idx : Int) : Instr → Prop
  | .halt | .nop | .iret => True
  | .addi s t imm | .lw s t imm | .sw s t imm => s ≤ 64 ∧ t ≤ 64 ∧ -128 ≤ imm ∧ imm ≤ 127
  | .move_reg s t | .add s t => s ≤ 64 ∧ t ≤ 64
  | .movei t imm => t ≤ 64 ∧ -128 ≤ imm ∧ imm ≤ 127
  | .blez s lab => s ≤ 64 ∧ label_ok labels idx lab
  | .la t lab => t ≤ 64 ∧ label_ok labels idx lab
  | .push s | .put s => s ≤ 64
  | .pop t => t ≤ 64
  | .jmp lab => label_ok labels idx lab

/-- The immediate of the instruction, if it has one, is not `-1`. For `addi`, `lw`, `sw` and
`movei` the last call of `parse_sti` is `parse_imm`, which returns the immediate; with `-1`
there, the result that `parse` tests is indeterminate and may be read as the error code. -/
def Instr.imm_not_minus_one : Instr → Prop
  | .addi _ _ imm | .lw _ _ imm | .sw _ _ imm | .movei _ imm => imm ≠ -1
  | _ => True

/-! ## Example machines and programs -/

/-- A machine with `PC = 1`, both interrupt bits set (`PSR = 3`), `SP = 128`, and every other
register and every memory word zero. -/
def demo_computer : COMPUTER :=
  ⟨1, 0, 3, fun i => if i = 64 then 128 else 0, 0, fun _ => 0, []⟩

/-- A machine that spins on `jmp` to itself at address 1, with the interrupt vector
`memory[0] = 1`, interrupts enabled, no interrupt pending, and the stack at the top of
memory. -/
def timer_demo : COMPUTER :=
  ⟨1, 201326847, 1, fun i => if i = 64 then 128 else 0, 0,
   fun a => if a = 0 then 1 else if a = 1 then 201326847 else 0, []⟩

/-- The state of `demo_computer` right after `check_interrupt` has taken the interrupt. -/
def demo_entered : COMPUTER :=
  match check_interrupt demo_computer with
  | .next cp => cp
  | _ => demo_computer

/-- A source file that defines the label `L` twice. -/
def dup_program : List (List Char) :=
  ["L:\n".toList, "halt\n".toList, "L:\n".toList, "jmp L\n".toList]

/-- The source file `movei R0,0` / `jmp skip` / `movei R0,99` / `skip:` / `halt`. -/
def skip_program : List (List Char) :=
  ["movei R0,0\n".toList, "jmp skip\n".toList, "movei R0,99\n".toList, "skip:\n".toList,
   "halt\n".toList]

/-- The tables that pass 1 builds from `skip_program`. -/
def skip_pass1 : Asm :=
  ⟨["movei R0,0\n".toList, "jmp skip\n".toList, "movei R0,99\n".toList, "halt\n".toList],
   [("skip".toList, 3)], 4⟩

/-- The source file `movei R0,72` / `put R0` / `halt`. -/
def put_program : List (List Char) :=
  ["movei R0,72\n".toList, "put R0\n".toList, "halt\n".toList]

/-- The source file with the single line `halt`. -/
def halt_program : List (List Char) := ["halt\n".toList]

end ExpIsa

namespace ExpIsa

/-! ## Further examples and the loader's return -/

/-- A machine whose memory holds `nop` (`0x01000000`) in every word, with `PC = 0`. -/
def nop_demo : COMPUTER :=
  ⟨0, 0, 1, fun _ => 0, 0, fun _ => 16777216, []⟩

/-- The result of `read(fd, &cp->memory, MAX_MEM_SIZE * 4)` on a readable file with the given
bytes: the number of bytes stored, never more than were asked for. -/
def read_ret (image : List Nat) : Int := (min image.length (MAX_MEM_SIZE * 4) : Nat)

/-- The return of `computer_load_init` with its test on the result of `read`: `none` is the
`exit(-1)` after the message that the program is too big, `some (0, cp)` is `return 0` with the
machine initialised. -/
def load_init (before : COMPUTER) (image : List Nat) : Option (Int × COMPUTER) :=
  if read_ret image > ((MAX_MEM_SIZE * 4 : Nat) : Int) then none
  else some (0, computer_load_init before image)

/-- An image of 129 words (516 bytes): `movei R0,72` followed by 128 words `halt`. -/
def big_image : List Nat := 72 :: 0 :: 0 :: 4 :: List.replicate 512 0

/-! ## Line shapes as the specification words them -/

/-- A line without its leading whitespace: the line from its first non-whitespace
character. -/
def lstrip (line : List Char) : List Char := line.dropWhile isspace

/-- A line that pass 1 discards: empty after trimming, or with `;` as its first
non-whitespace character. -/
def discarded (line : List Char) : Bool :=
  match lstrip line with
  | [] => true
  | c :: _ => c == ';'

/-- The text of a label line between its first non-whitespace character and the closing `:`
the code part without its last character and without leading whitespace. -/
def label_text (line : List Char) : List Char :=
  ((line.take (code_end line)).dropLast).dropWhile isspace

/-- A label line: a line that is not discarded and in which `is_symbol` finds a label. -/
def label_line (line : List Char) : Bool :=
  !discarded line &&
    (match is_symbol line with
     | .ok s => s != 0
     | .error _ => false)

/-- The code lines of a source file: the lines, read as C strings, that are neither discarded
nor label lines, in source order, each from its first non-whitespace character. -/
def code_lines (src : List (List Char)) : List (List Char) :=
  ((src.map cstr).filter (fun l => !discarded l && !label_line l)).map lstrip

/-- The label entries of the lines `rest` of a source file that follow the lines `before`: one
entry per label line, in source order, holding the label text and the number of code lines
before the label line. -/
def label_entries : List (List Char) → List (List Char) → List (List Char × Int)
  | _, [] => []
  | before, l :: ls =>
    (if label_line (cstr l) then [(label_text (cstr l), ((code_lines before).length : Int))]
     else []) ++ label_entries (before ++ [l]) ls

/-- An integer literal: an optional leading `-` followed by one or more digits. -/
def int_literal (lit : List Char) : Prop :=
  ∃ ds, ds ≠ [] ∧ (∀ c ∈ ds, isdigit c = true) ∧ (lit = ds ∨ lit = '-' :: ds)

/-- A `-` or a digit, followed by digits (none, one or more). -/
def sign_or_digit_then_digits (lit : List Char) : Prop :=
  ∃ h t, lit = h :: t ∧ (h = '-' ∨ isdigit h = true) ∧ ∀ c ∈ t, isdigit c = true

/-- What may follow the literal of a `.word` line: at least one character, whitespace only
up to the end of the line or up to a `;`. -/
def word_rest (tail : List Char) : Prop :=
  tail ≠ [] ∧ ∃ ws rest, tail = ws ++ rest ∧ (∀ c ∈ ws, isspace c = true)
    ∧ (rest = [] ∨ rest.head? = some ';')

/-- A line of the shape `.word`, one or more whitespace characters, a literal (as `lit_ok`
has it), and a rest as in `word_rest`. -/
def word_line (lit_ok : List Char → Prop) (line : List Char) : Prop :=
  ∃ ws lit tail, line = ".word".toList ++ ws ++ lit ++ tail ∧ ws ≠ []
    ∧ (∀ c ∈ ws, isspace c = true) ∧ lit_ok lit ∧ word_rest tail

/-- The number that a string of decimal digits denotes. -/
def digits_value (ds : List Char) : Nat :=
  ds.foldl (fun a c => 10 * a + (c.toNat - 48)) 0

/-- The value of an integer literal: the number its digits denote, negated after a leading
`-`. -/
def literal_value : List Char → Int
  | '-' :: ds => -(digits_value ds : Int)
  | ds => (digits_value ds : Int)

/-! ## The ISA table and the frame of a register instruction -/

/-- The opcode byte of an instruction word: byte 3, the most significant one. -/
def opcode_byte (w : Nat) : Nat := w / 16777216 % 256

/-- The 15 opcodes of the ISA table. -/
def isa_opcodes : List Nat :=
  [0x00, 0x01, 0x02, 0x03, 0x04, 0x05, 0x06, 0x07, 0x08, 0x09, 0x0a, 0x0b, 0x0c, 0x10, 0x11]

/-- The accesses of `execute` stay inside the register file `R[0..64]` and the memory
`memory.addr[0..127]`: the register indices that the instruction uses are at most 64, and the
address it loads from, stores to, pushes to or pops from is in `0..127`. -/
def exec_in_range (cp : COMPUTER) (op s t : Nat) (imm : Int) : Prop :=
  match op with
  | 0x02 | 0x03 | 0x0b => s ≤ 64 ∧ t ≤ 64
  | 0x04 | 0x08 => t ≤ 64
  | 0x05 | 0x06 => s ≤ 64 ∧ t ≤ 64 ∧ 0 ≤ cp.R s + imm ∧ cp.R s + imm < 128
  | 0x07 | 0x11 => s ≤ 64
  | 0x09 => s ≤ 64 ∧ 1 ≤ cp.SP ∧ cp.SP ≤ 128
  | 0x0a => t ≤ 64 ∧ 0 ≤ cp.SP ∧ cp.SP < 128
  | 0x10 => 0 ≤ cp.SP ∧ cp.SP + 1 < 128
  | _ => True

/-- The two stores of an interrupt entry stay inside the memory: if both interrupt bits are
set, `SP` is in `2..128`. -/
def entry_in_range (cp : COMPUTER) : Prop :=
  (cp.PSR &&& PSR_INT_EN ≠ 0 ∧ cp.PSR &&& PSR_INT_PEND ≠ 0) → 2 ≤ cp.SP ∧ cp.SP ≤ 128

end ExpIsa

namespace ExpIsa

/-! ## The simulator: status bits, single instructions, the timer interrupt -/

theorem testBit_fc (i : Nat) : (4294967292 : Nat).testBit i = decide (2 ≤ i ∧ i < 32) := by
  by_cases h : i < 32
  · interval_cases i <;> rfl
  · have h1 : (4294967292 : Nat) < 2 ^ i :=
      lt_of_lt_of_le (by norm_num) (Nat.pow_le_pow_right (by norm_num : 0 < 2) (not_lt.mp h))
    rw [Nat.testBit_lt_two_pow h1]
    simp [h]

theorem testBit_fd (i : Nat) : (4294967293 : Nat).testBit i = decide (i ≠ 1 ∧ i < 32) := by
  by_cases h : i < 32
  · interval_cases i <;> rfl
  · have h1 : (4294967293 : Nat) < 2 ^ i :=
      lt_of_lt_of_le (by norm_num) (Nat.pow_le_pow_right (by norm_num : 0 < 2) (not_lt.mp h))
    rw [Nat.testBit_lt_two_pow h1]
    simp [h]

theorem land_two (x : Nat) : x &&& 2 = if x.testBit 1 then 2 else 0 := by
  apply Nat.eq_of_testBit_eq
  intro i
  rw [Nat.testBit_and]
  have h2 : (2 : Nat).testBit i = decide (1 = i) := by
    have := @Nat.testBit_two_pow 1 i
    simpa using this
  rw [h2]
  by_cases hi : 1 = i
  · subst hi
    cases h : x.testBit 1
    · simp
    · simp only [Bool.true_and, decide_True, if_true]
      rfl
  · cases h : x.testBit 1 <;> simp [hi, h2]

theorem land_one (x : Nat) : x &&& 1 = if x.testBit 0 then 1 else 0 := by
  rw [Nat.and_one_is_mod, Nat.testBit_zero]
  by_cases h : x % 2 = 1
  · simp [h]
  · simp [h]; omega

theorem pend_iff (x : Nat) : x &&& PSR_INT_PEND ≠ 0 ↔ x.testBit 1 = true := by
  unfold PSR_INT_PEND
  rw [land_two]
  cases h : x.testBit 1 <;> simp

theorem en_iff (x : Nat) : x &&& PSR_INT_EN ≠ 0 ↔ x.testBit 0 = true := by
  unfold PSR_INT_EN
  rw [land_one]
  cases h : x.testBit 0 <;> simp


theorem execute_frame (cp e : COMPUTER) (op s t : Nat) (imm : Int)
    (h : execute cp op s t imm = .next e) :
    e.counter = cp.counter ∧ (e.PSR = cp.PSR ∨ ∃ x, e.PSR = x &&& 0xfffffffd) := by
  unfold execute at h
  split at h
  all_goals first
    | (cases h <;> exact ⟨rfl, Or.inl rfl⟩)
    | ((try dsimp only at h); split at h <;> first
        | (cases h <;> exact ⟨rfl, Or.inl rfl⟩)
        | (cases h <;> exact ⟨rfl, Or.inr ⟨_, rfl⟩⟩)
        | (split at h <;> cases h <;> exact ⟨rfl, Or.inl rfl⟩))

theorem fetch_execute_eq (cp : COMPUTER) :
    fetch_execute cp =
      if cp.PC ≥ MAX_MEM_SIZE then .stop .fetch_fault cp
      else execute { cp with IR := cp.mem cp.PC } (decode (cp.mem cp.PC)).1
        (decode (cp.mem cp.PC)).2.1 (decode (cp.mem cp.PC)).2.2.1 (decode (cp.mem cp.PC)).2.2.2 := by
  unfold fetch_execute fetch
  split_ifs <;> rfl

theorem fetch_execute_frame (cp e : COMPUTER) (h : fetch_execute cp = .next e) :
    e.counter = cp.counter ∧ (e.PSR = cp.PSR ∨ ∃ x, e.PSR = x &&& 0xfffffffd) := by
  rw [fetch_execute_eq] at h
  split_ifs at h
  exact execute_frame { cp with IR := cp.mem cp.PC } _ _ _ _ _ h

theorem testBit_one_fd (x : Nat) : (x &&& 0xfffffffd).testBit 1 = false := by
  rw [Nat.testBit_and, testBit_fd]
  simp



theorem toI32_toU32 (r : Int) (h1 : -2147483648 ≤ r) (h2 : r ≤ 2147483647) :
    toI32 (toU32 r) = r := by
  unfold toI32 toU32
  omega

theorem toI8_range (i : Int) : -128 ≤ toI8 i ∧ toI8 i ≤ 127 := by
  unfold toI8
  omega

theorem execute_jmp (cp : COMPUTER) (s t : Nat) (imm : Int) :
    execute cp OP_JMP s t imm = .next { cp with PC := toU32 (cp.PC + (1 + imm)) } := rfl

theorem execute_blez (cp : COMPUTER) (s t : Nat) (imm : Int) (hs : s ≤ 64) :
    execute cp OP_BLEZ s t imm =
      if cp.R s ≤ 0 then .next { cp with PC := toU32 (cp.PC + (1 + imm)) }
      else .next { cp with PC := incPC cp.PC } := by
  simp only [execute, hs, if_true]

theorem execute_la (cp : COMPUTER) (s t : Nat) (imm : Int) (ht : t ≤ 64) :
    execute cp OP_LA s t imm =
      .next { cp with R := setR cp.R t (toI32 (toU32 (cp.PC + 1 + imm))), PC := incPC cp.PC } := by
  simp only [execute, ht, if_true]

theorem execute_push (cp : COMPUTER) (s t : Nat) (imm : Int) :
    execute cp OP_PUSH s t imm =
      if s ≤ 64 ∧ 0 ≤ setR cp.R 64 (toI32 (cp.R 64 - 1)) 64
          ∧ setR cp.R 64 (toI32 (cp.R 64 - 1)) 64 < MAX_MEM_SIZE then
        .next { cp with R := setR cp.R 64 (toI32 (cp.R 64 - 1)),
                        mem := setM cp.mem (setR cp.R 64 (toI32 (cp.R 64 - 1)) 64).toNat
                          (toU32 (setR cp.R 64 (toI32 (cp.R 64 - 1)) s)),
                        PC := incPC cp.PC }
      else .undefined := rfl

theorem execute_pop (cp : COMPUTER) (s t : Nat) (imm : Int) :
    execute cp OP_POP s t imm =
      if t ≤ 64 ∧ 0 ≤ cp.R 64 ∧ cp.R 64 < MAX_MEM_SIZE then
        .next { cp with R := setR (setR cp.R t (toI32 (cp.mem (cp.R 64).toNat))) 64
                          (toI32 (setR cp.R t (toI32 (cp.mem (cp.R 64).toNat)) 64 + 1)),
                        PC := incPC cp.PC }
      else .undefined := rfl

theorem execute_iret (cp : COMPUTER) (s t : Nat) (imm : Int) :
    execute cp OP_IRET s t imm =
      if 0 ≤ cp.R 64 ∧ cp.R 64 < MAX_MEM_SIZE ∧ 0 ≤ setR cp.R 64 (toI32 (cp.R 64 + 1)) 64
          ∧ setR cp.R 64 (toI32 (cp.R 64 + 1)) 64 < MAX_MEM_SIZE then
        .next { cp with PC := cp.mem (cp.R 64).toNat,
                        PSR := cp.mem (setR cp.R 64 (toI32 (cp.R 64 + 1)) 64).toNat &&& 0xfffffffd,
                        R := setR (setR cp.R 64 (toI32 (cp.R 64 + 1))) 64
                          (toI32 (setR cp.R 64 (toI32 (cp.R 64 + 1)) 64 + 1)) }
      else .undefined := rfl

/-- C2: with `PC = idx ≤ 127` and an instruction word whose decoded immediate is
`A - idx - 1` for a target address `A`, `execute` of `jmp` sets `PC = A`; of `blez Rs` sets
`PC = A` when `R[s] ≤ 0` and `PC = idx + 1` otherwise; of `la Rt` sets `R[t] = A` and
`PC = idx + 1`; nothing else changes. -/
theorem C2_relative_offset_resolves (cp : COMPUTER) (idx A w : Nat)
    (hpc : cp.PC = idx) (hidx : idx ≤ 127)
    (himm : (decode w).2.2.2 = (A : Int) - idx - 1) :
    execute cp OP_JMP (decode w).2.1 (decode w).2.2.1 (decode w).2.2.2 = .next { cp with PC := A }
    ∧ ((decode w).2.1 ≤ 64 →
        execute cp OP_BLEZ (decode w).2.1 (decode w).2.2.1 (decode w).2.2.2
          = .next { cp with PC := if cp.R (decode w).2.1 ≤ 0 then A else idx + 1 })
    ∧ ((decode w).2.2.1 ≤ 64 →
        execute cp OP_LA (decode w).2.1 (decode w).2.2.1 (decode w).2.2.2
          = .next { cp with R := setR cp.R (decode w).2.2.1 A, PC := idx + 1 }) := by
  have hr := toI8_range ((w % 256 : Nat) : Int)
  have hd : (decode w).2.2.2 = toI8 ((w % 256 : Nat) : Int) := rfl
  rw [hd] at himm
  rw [himm] at hr
  have h1 : toU32 ((cp.PC : Int) + (1 + ((A : Int) - idx - 1))) = A := by
    rw [hpc]; unfold toU32; omega
  have h2 : incPC cp.PC = idx + 1 := by
    rw [hpc]; unfold incPC; omega
  have h3 : toI32 (toU32 ((cp.PC : Int) + 1 + ((A : Int) - idx - 1))) = A := by
    rw [hpc]; unfold toU32 toI32; omega
  rw [hd, himm]
  refine ⟨?_, ?_, ?_⟩
  · rw [execute_jmp, h1]
  · intro hs
    rw [execute_blez _ _ _ _ hs, h1, h2]
    split <;> rfl
  · intro ht
    rw [execute_la _ _ _ _ ht, h3, h2]

theorem C2_relative_offset_resolves_witness :
    execute demo_computer OP_JMP 0 0 1 = .next { demo_computer with PC := 3 }
    ∧ execute demo_computer OP_BLEZ 0 0 1
        = .next { demo_computer with PC := if demo_computer.R 0 ≤ 0 then 3 else 1 + 1 }
    ∧ execute demo_computer OP_LA 0 0 1
        = .next { demo_computer with R := setR demo_computer.R 0 3, PC := 1 + 1 } :=
  have h := C2_relative_offset_resolves demo_computer 1 3 201326593 rfl (by decide) (by decide)
  ⟨h.1, h.2.1 (by decide), h.2.2 (by decide)⟩

/-- C5: for a register index `x ≤ 64` (whose content is an `int32_t` value) and
`1 ≤ SP ≤ 128`, `push Rx` followed at once by `pop Rx` (two `execute` steps, whatever the
unused fields of the two instruction words are) leaves `SP` and `R[x]` at their original
values. -/
theorem C5_push_pop_restores (cp : COMPUTER) (x t1 s2 : Nat) (i1 i2 : Int)
    (hx : x ≤ 64) (hsp1 : 1 ≤ cp.SP) (hsp2 : cp.SP ≤ 128)
    (hr1 : -2147483648 ≤ cp.R x) (hr2 : cp.R x ≤ 2147483647) :
    ∃ cp1 cp2, execute cp OP_PUSH x t1 i1 = .next cp1
      ∧ execute cp1 OP_POP s2 x i2 = .next cp2
      ∧ cp2.SP = cp.SP ∧ cp2.R x = cp.R x := by
  unfold COMPUTER.SP at *
  have e1 : toI32 (cp.R 64 - 1) = cp.R 64 - 1 := by unfold toI32; omega
  have hpush : execute cp OP_PUSH x t1 i1 = .next
      { cp with R := setR cp.R 64 (cp.R 64 - 1),
                mem := setM cp.mem (cp.R 64 - 1).toNat (toU32 (setR cp.R 64 (cp.R 64 - 1) x)),
                PC := incPC cp.PC } := by
    rw [execute_push]
    simp only [setR, if_true, e1, MAX_MEM_SIZE]
    rw [if_pos (by refine ⟨hx, ?_, ?_⟩ <;> push_cast <;> omega)]
  refine ⟨_, { cp with
      R := setR (setR (setR cp.R 64 (cp.R 64 - 1)) x
            (toI32 (toU32 (setR cp.R 64 (cp.R 64 - 1) x)))) 64
            (toI32 (setR (setR cp.R 64 (cp.R 64 - 1)) x
              (toI32 (toU32 (setR cp.R 64 (cp.R 64 - 1) x))) 64 + 1)),
      mem := setM cp.mem (cp.R 64 - 1).toNat (toU32 (setR cp.R 64 (cp.R 64 - 1) x)),
      PC := incPC (incPC cp.PC) }, hpush, ?_, ?_, ?_⟩
  · rw [execute_pop]
    simp only [setR, setM, if_true, MAX_MEM_SIZE]
    rw [if_pos (by refine ⟨hx, ?_, ?_⟩ <;> push_cast <;> omega)]
  · simp only [setR, if_true]
    by_cases h : x = 64
    · subst h
      simp only [if_true]
      have : toI32 (toU32 (cp.R 64 - 1)) = cp.R 64 - 1 := toI32_toU32 _ (by omega) (by omega)
      rw [this]; unfold toI32; omega
    · have h' : (64 : Nat) ≠ x := fun e => h e.symm
      simp only [h', if_false]
      unfold toI32; omega
  · simp only [setR, if_true]
    by_cases h : x = 64
    · subst h
      simp only [if_true]
      have : toI32 (toU32 (cp.R 64 - 1)) = cp.R 64 - 1 := toI32_toU32 _ (by omega) (by omega)
      rw [this]; unfold toI32; omega
    · have h' : (64 : Nat) ≠ x := fun e => h e.symm
      simp only [h, h', if_false, if_true]
      exact toI32_toU32 _ hr1 hr2



theorem timer_tick_quiet (e : COMPUTER) (h : e.counter + 1 < 5000) :
    timer_tick e = { e with counter := e.counter + 1 } := by
  unfold timer_tick
  have h1 : (e.counter + 1) % 18446744073709551616 = e.counter + 1 := by omega
  have h2 : ¬ ((e.counter + 1) % 5000 = 0) := by omega
  simp only [h1, h2, and_false, if_false]

theorem timer_tick_fire (e : COMPUTER) (h : e.counter + 1 = 5000) (hen : e.PSR &&& PSR_INT_EN ≠ 0) :
    timer_tick e = { e with counter := 5000, PSR := e.PSR ||| PSR_INT_PEND } := by
  unfold timer_tick
  have h1 : (e.counter + 1) % 18446744073709551616 = 5000 := by omega
  simp only [h1]
  rw [if_pos ⟨hen, by norm_num⟩]

theorem check_interrupt_quiet (e : COMPUTER) (h : e.PSR.testBit 1 = false) :
    check_interrupt e = .next e := by
  unfold check_interrupt
  have : ¬ (e.PSR &&& PSR_INT_PEND ≠ 0) := by
    rw [pend_iff, h]; simp
  simp only [this, and_false, if_false]

theorem check_interrupt_fire (e : COMPUTER) (hen : e.PSR &&& PSR_INT_EN ≠ 0)
    (hpend : e.PSR &&& PSR_INT_PEND ≠ 0) (h1 : 2 ≤ e.SP) (h2 : e.SP ≤ 128) :
    check_interrupt e = .next
      { e with R := setR e.R 64 (e.SP - 2),
               mem := setM (setM e.mem (e.SP - 1).toNat e.PSR) (e.SP - 2).toNat e.PC,
               PSR := e.PSR &&& 0xfffffffc,
               PC := setM (setM e.mem (e.SP - 1).toNat e.PSR) (e.SP - 2).toNat e.PC 0 } := by
  unfold COMPUTER.SP at *
  unfold check_interrupt
  have e1 : toI32 (e.R 64 - 1) = e.R 64 - 1 := by unfold toI32; omega
  have e2 : toI32 (e.R 64 - 1 - 1) = e.R 64 - 2 := by unfold toI32; omega
  simp only [e1, e2, MAX_MEM_SIZE]
  rw [if_pos ⟨hen, hpend⟩, if_pos (by refine ⟨?_, ?_, ?_, ?_⟩ <;> push_cast <;> omega)]

theorem cycles_snoc (k : Nat) (cp s s' : COMPUTER) (h : cycles k cp = some s)
    (hs : cpu_cycle s = .next s') : cycles (k + 1) cp = some s' := by
  induction k generalizing cp with
  | zero =>
    simp only [cycles] at h
    cases h
    simp only [cycles, hs]
  | succ n ih =>
    rw [cycles] at h
    rw [cycles]
    cases hc : cpu_cycle cp with
    | next c1 =>
      rw [hc] at h
      exact ih c1 h
    | stop w c1 => rw [hc] at h; cases h
    | undefined => rw [hc] at h; cases h

theorem cpu_cycle_of_fetch_execute (s e : COMPUTER) (h : fetch_execute s = .next e) :
    cpu_cycle s = check_interrupt (timer_tick e) := by
  unfold cpu_cycle
  rw [h]



theorem timer_invariant (cp : COMPUTER)
    (hen : cp.PSR &&& PSR_INT_EN ≠ 0) (hpend : cp.PSR &&& PSR_INT_PEND = 0)
    (hcnt : cp.counter = 0)
    (hrun : ∀ k, k < 5000 → ∀ s, cycles k cp = some s →
      ∃ e, fetch_execute s = .next e ∧ e.PSR &&& PSR_INT_EN = s.PSR &&& PSR_INT_EN)
    (k : Nat) (hk : k < 5000) :
    ∃ s, cycles k cp = some s ∧ s.PSR.testBit 0 = true ∧ s.PSR.testBit 1 = false
      ∧ s.counter = k := by
  induction k with
  | zero =>
    refine ⟨cp, rfl, (en_iff _).mp hen, ?_, hcnt⟩
    have := (pend_iff cp.PSR).not.mp (by simpa using hpend)
    simpa using this
  | succ n ih =>
    obtain ⟨s, hs, b0, b1, hc⟩ := ih (by omega)
    obtain ⟨e, he, hbit⟩ := hrun n (by omega) s hs
    obtain ⟨fc, fp⟩ := fetch_execute_frame s e he
    have eb1 : e.PSR.testBit 1 = false := by
      rcases fp with fp | ⟨x, fp⟩
      · rw [fp]; exact b1
      · rw [fp]; exact testBit_one_fd x
    have eb0 : e.PSR.testBit 0 = true := by
      have h1 : s.PSR &&& PSR_INT_EN ≠ 0 := (en_iff _).mpr b0
      rw [← hbit] at h1
      exact (en_iff _).mp h1
    have hstep : cpu_cycle s = .next { e with counter := e.counter + 1 } := by
      rw [cpu_cycle_of_fetch_execute s e he, timer_tick_quiet e (by omega)]
      exact check_interrupt_quiet _ eb1
    refine ⟨_, cycles_snoc n cp s _ hs hstep, eb0, eb1, ?_⟩
    show e.counter + 1 = n + 1
    omega



theorem timer_run (cp : COMPUTER)
    (hen : cp.PSR &&& PSR_INT_EN ≠ 0) (hpend : cp.PSR &&& PSR_INT_PEND = 0)
    (hcnt : cp.counter = 0)
    (hrun : ∀ k, k < 5000 → ∀ s, cycles k cp = some s →
      ∃ e, fetch_execute s = .next e ∧ e.PSR &&& PSR_INT_EN = s.PSR &&& PSR_INT_EN)
    (hsp : ∀ s e, cycles 4999 cp = some s → fetch_execute s = .next e → 2 ≤ e.SP ∧ e.SP ≤ 128) :
    ∃ s e s', cycles 4999 cp = some s
      ∧ s.PSR &&& PSR_INT_PEND = 0 ∧ s.PSR &&& PSR_INT_EN ≠ 0
      ∧ fetch_execute s = .next e
      ∧ (timer_tick e).PSR &&& PSR_INT_PEND ≠ 0
      ∧ cycles 5000 cp = some s'
      ∧ s'.counter = 5000
      ∧ s'.PSR &&& PSR_INT_PEND = 0 ∧ s'.PSR &&& PSR_INT_EN = 0
      ∧ s'.SP = e.SP - 2
      ∧ s'.mem (e.SP - 1).toNat = e.PSR ||| PSR_INT_PEND
      ∧ s'.mem (e.SP - 2).toNat = e.PC
      ∧ s'.PC = s'.mem 0 := by
  obtain ⟨s, hs, b0, b1, hc⟩ := timer_invariant cp hen hpend hcnt hrun 4999 (by omega)
  obtain ⟨e, he, hbit⟩ := hrun 4999 (by omega) s hs
  obtain ⟨fc, fp⟩ := fetch_execute_frame s e he
  obtain ⟨sp1, sp2⟩ := hsp s e hs he
  have eb0 : e.PSR.testBit 0 = true := by
    have h1 : s.PSR &&& PSR_INT_EN ≠ 0 := (en_iff _).mpr b0
    rw [← hbit] at h1
    exact (en_iff _).mp h1
  have een : e.PSR &&& PSR_INT_EN ≠ 0 := (en_iff _).mpr eb0
  have htick := timer_tick_fire e (by omega) een
  have ten : (e.PSR ||| PSR_INT_PEND) &&& PSR_INT_EN ≠ 0 := by
    rw [en_iff, Nat.testBit_or, eb0]; rfl
  have tpend : (e.PSR ||| PSR_INT_PEND) &&& PSR_INT_PEND ≠ 0 := by
    rw [pend_iff, Nat.testBit_or]
    have : PSR_INT_PEND.testBit 1 = true := rfl
    rw [this]; simp
  have hfire := check_interrupt_fire
    { e with counter := 5000, PSR := e.PSR ||| PSR_INT_PEND } ten tpend sp1 sp2
  have hstep : cpu_cycle s
      = check_interrupt { e with counter := 5000, PSR := e.PSR ||| PSR_INT_PEND } := by
    rw [cpu_cycle_of_fetch_execute s e he, htick]
  rw [hfire] at hstep
  have spend : s.PSR &&& PSR_INT_PEND = 0 := by
    have := (pend_iff s.PSR).not.mpr (by simp [b1])
    simpa using this
  refine ⟨s, e, _, hs, spend, (en_iff _).mpr b0, he, ?_, cycles_snoc 4999 cp s _ hs hstep,
    rfl, ?_, ?_, rfl, ?_, ?_, rfl⟩
  · rw [htick]; exact tpend
  · have := (pend_iff ((e.PSR ||| PSR_INT_PEND) &&& 0xfffffffc)).not.mpr
      (by rw [Nat.testBit_and, testBit_fc]; simp)
    simpa using this
  · have := (en_iff ((e.PSR ||| PSR_INT_PEND) &&& 0xfffffffc)).not.mpr
      (by rw [Nat.testBit_and, testBit_fc]; simp)
    simpa using this
  · show setM (setM e.mem (e.SP - 1).toNat (e.PSR ||| PSR_INT_PEND)) (e.SP - 2).toNat e.PC
      (e.SP - 1).toNat = _
    unfold setM
    have : (e.SP - 1).toNat ≠ (e.SP - 2).toNat := by omega
    simp only [this, if_false, if_true]
  · show setM (setM e.mem (e.SP - 1).toNat (e.PSR ||| PSR_INT_PEND)) (e.SP - 2).toNat e.PC
      (e.SP - 2).toNat = _
    unfold setM
    simp only [if_true]



theorem cpu_cycle_quiet (s e : COMPUTER) (he : fetch_execute s = .next e)
    (hc : e.counter + 1 < 5000) (hb : e.PSR.testBit 1 = false) :
    cpu_cycle s = .next { e with counter := e.counter + 1 } := by
  rw [cpu_cycle_of_fetch_execute s e he, timer_tick_quiet e hc]
  exact check_interrupt_quiet _ hb

theorem decode_spin : decode 201326847 = (12, 0, 0, -1) := by decide

theorem timer_demo_spin (k : Nat) :
    fetch_execute { timer_demo with counter := k } = .next { timer_demo with counter := k } := by
  rw [fetch_execute_eq]
  show (if (1 : Nat) ≥ MAX_MEM_SIZE then _ else execute _ (decode 201326847).1
    (decode 201326847).2.1 (decode 201326847).2.2.1 (decode 201326847).2.2.2) = _
  rw [if_neg (by decide), decode_spin]
  rfl

theorem timer_demo_cycles (k : Nat) (hk : k < 5000) :
    cycles k timer_demo = some { timer_demo with counter := k } := by
  induction k with
  | zero => rfl
  | succ n ih =>
    exact cycles_snoc n timer_demo _ _ (ih (by omega))
      (cpu_cycle_quiet _ _ (timer_demo_spin n) hk (by show (1 : Nat).testBit 1 = false; decide))

theorem timer_demo_run (k : Nat) (hk : k < 5000) (s : COMPUTER)
    (hs : cycles k timer_demo = some s) :
    ∃ e, fetch_execute s = .next e ∧ e.PSR &&& PSR_INT_EN = s.PSR &&& PSR_INT_EN := by
  rw [timer_demo_cycles k hk] at hs
  cases hs
  exact ⟨_, timer_demo_spin k, rfl⟩

theorem timer_demo_stack (s e : COMPUTER) (hs : cycles 4999 timer_demo = some s)
    (he : fetch_execute s = .next e) : 2 ≤ e.SP ∧ e.SP ≤ 128 := by
  rw [timer_demo_cycles 4999 (by omega)] at hs
  cases hs
  rw [timer_demo_spin] at he
  cases he
  exact ⟨by decide, by decide⟩

/-- C6 counterexample: on a machine that spins on a self-jump with interrupts enabled, no
interrupt pending and `counter = 0`, every one of the first 5000 cycles gets through its
execute phase with `PSR` unchanged, yet after exactly 5000 cycles the pending bit is clear,
the two words are already on the stack and `PC` is the handler address `memory[0]`. -/
theorem C6_counterexample :
    timer_demo.PSR &&& PSR_INT_EN ≠ 0 ∧ timer_demo.PSR &&& PSR_INT_PEND = 0
    ∧ timer_demo.counter = 0
    ∧ (∀ k, k < 5000 → ∀ s, cycles k timer_demo = some s →
        ∃ e, fetch_execute s = .next e ∧ e.PSR = s.PSR)
    ∧ ∃ s', cycles 5000 timer_demo = some s'
        ∧ ¬ (s'.PSR &&& PSR_INT_PEND ≠ 0) ∧ s'.PC = s'.mem 0 ∧ s'.SP = 126 := by
  refine ⟨by decide, by decide, rfl, ?_, ?_⟩
  · intro k hk s hs
    rw [timer_demo_cycles k hk] at hs
    cases hs
    exact ⟨_, timer_demo_spin k, rfl⟩
  · obtain ⟨s, e, s', hs, -, -, he, -, hs', -, hp, -, hsp, -, -, hpc⟩ :=
      timer_run timer_demo (by decide) (by decide) rfl timer_demo_run timer_demo_stack
    rw [timer_demo_cycles 4999 (by omega)] at hs
    cases hs
    rw [timer_demo_spin] at he
    cases he
    refine ⟨s', hs', by simp [hp], hpc, ?_⟩
    rw [hsp]; decide

/-- C6 (amended): from a state with interrupt-enable set, interrupt-pending clear and
`counter = 0`, if each of the first 5000 cycles gets through fetch, decode and execute
without halting or faulting and with the enable bit as it was, and `SP` is between 2 and 128
when the 5000th execute phase ends, then after 4999 cycles the pending bit is still clear,
and the 5000th cycle both sets it in its timer tick and takes the interrupt in its own
interrupt check: after exactly 5000 cycles `counter = 5000`, pending and enable are clear,
`PSR` (pending set) and `PC` are on the stack, `SP` is 2 lower, and `PC = memory[0]`. -/
theorem C6_timer_interrupt_taken_in_cycle_5000 (cp : COMPUTER)
    (hen : cp.PSR &&& PSR_INT_EN ≠ 0) (hpend : cp.PSR &&& PSR_INT_PEND = 0)
    (hcnt : cp.counter = 0)
    (hrun : ∀ k, k < 5000 → ∀ s, cycles k cp = some s →
      ∃ e, fetch_execute s = .next e ∧ e.PSR &&& PSR_INT_EN = s.PSR &&& PSR_INT_EN)
    (hsp : ∀ s e, cycles 4999 cp = some s → fetch_execute s = .next e → 2 ≤ e.SP ∧ e.SP ≤ 128) :
    ∃ s e s', cycles 4999 cp = some s
      ∧ s.PSR &&& PSR_INT_PEND = 0 ∧ s.PSR &&& PSR_INT_EN ≠ 0
      ∧ fetch_execute s = .next e
      ∧ (timer_tick e).PSR &&& PSR_INT_PEND ≠ 0
      ∧ cycles 5000 cp = some s'
      ∧ s'.counter = 5000
      ∧ s'.PSR &&& PSR_INT_PEND = 0 ∧ s'.PSR &&& PSR_INT_EN = 0
      ∧ s'.SP = e.SP - 2
      ∧ s'.mem (e.SP - 1).toNat = e.PSR ||| PSR_INT_PEND
      ∧ s'.mem (e.SP - 2).toNat = e.PC
      ∧ s'.PC = s'.mem 0 :=
  timer_run cp hen hpend hcnt hrun hsp

theorem C6_timer_interrupt_taken_in_cycle_5000_witness :
    ∃ s e s', cycles 4999 timer_demo = some s
      ∧ s.PSR &&& PSR_INT_PEND = 0 ∧ s.PSR &&& PSR_INT_EN ≠ 0
      ∧ fetch_execute s = .next e
      ∧ (timer_tick e).PSR &&& PSR_INT_PEND ≠ 0
      ∧ cycles 5000 timer_demo = some s'
      ∧ s'.counter = 5000
      ∧ s'.PSR &&& PSR_INT_PEND = 0 ∧ s'.PSR &&& PSR_INT_EN = 0
      ∧ s'.SP = e.SP - 2
      ∧ s'.mem (e.SP - 1).toNat = e.PSR ||| PSR_INT_PEND
      ∧ s'.mem (e.SP - 2).toNat = e.PC
      ∧ s'.PC = s'.mem 0 :=
  C6_timer_interrupt_taken_in_cycle_5000 timer_demo (by decide) (by decide) rfl
    timer_demo_run timer_demo_stack



/-- C7: when `check_interrupt` takes an interrupt (enable and pending set, `2 ≤ SP ≤ 128`,
`PSR` a 32-bit value) and `iret` is later executed in a state whose `SP` is the post-entry
`SP` and whose two stack words are the ones pushed, then the two words are the `PC` and the
`PSR` at entry, and after `iret` the `PC` is the `PC` at entry, every bit of `PSR` except the
pending bit is as in the `PSR` at entry, the pending bit is clear, and `SP` is what it was
before the interrupt. -/
theorem C7_iret_restores_pc_psr_sp (cp cp1 cp2 : COMPUTER) (s t : Nat) (imm : Int)
    (hen : cp.PSR &&& PSR_INT_EN ≠ 0) (hpend : cp.PSR &&& PSR_INT_PEND ≠ 0)
    (hsp1 : 2 ≤ cp.SP) (hsp2 : cp.SP ≤ 128) (hpsr : cp.PSR < 4294967296)
    (hent : check_interrupt cp = .next cp1)
    (hsp : cp2.SP = cp1.SP)
    (hm1 : cp2.mem cp1.SP.toNat = cp1.mem cp1.SP.toNat)
    (hm2 : cp2.mem (cp1.SP + 1).toNat = cp1.mem (cp1.SP + 1).toNat) :
    cp1.mem cp1.SP.toNat = cp.PC ∧ cp1.mem (cp1.SP + 1).toNat = cp.PSR
    ∧ ∃ cp3, execute cp2 OP_IRET s t imm = .next cp3
      ∧ cp3.PC = cp.PC
      ∧ (∀ i, cp3.PSR.testBit i = (decide (i ≠ 1) && cp.PSR.testBit i))
      ∧ cp3.SP = cp.SP := by
  rw [check_interrupt_fire cp hen hpend hsp1 hsp2] at hent
  cases hent
  unfold COMPUTER.SP at *
  simp only [setR, if_true] at hsp hm1 hm2 ⊢
  have ha : (cp.R 64 - 2 + 1).toNat = (cp.R 64 - 1).toNat := by congr 1; omega
  have hne : (cp.R 64 - 1).toNat ≠ (cp.R 64 - 2).toNat := by omega
  rw [ha] at hm2 ⊢
  simp only [setM, if_true, hne, if_false] at hm1 hm2 ⊢
  have e1 : toI32 (cp2.R 64 + 1) = cp.R 64 - 1 := by rw [hsp]; unfold toI32; omega
  have e2 : toI32 (cp.R 64 - 1 + 1) = cp.R 64 := by unfold toI32; omega
  refine ⟨trivial, trivial, ?_⟩
  rw [execute_iret]
  simp only [setR, if_true, e1, e2, MAX_MEM_SIZE]
  rw [if_pos (by rw [hsp]; refine ⟨?_, ?_, ?_, ?_⟩ <;> push_cast <;> omega)]
  refine ⟨_, rfl, ?_, ?_, ?_⟩
  · show cp2.mem (cp2.R 64).toNat = cp.PC
    rw [hsp, hm1]
  · intro i
    show (cp2.mem (cp.R 64 - 1).toNat &&& 0xfffffffd).testBit i = _
    rw [hm2, Nat.testBit_and, testBit_fd]
    by_cases h32 : i < 32
    · by_cases h1 : i = 1 <;> simp [h1, h32, Bool.and_comm]
    · have : cp.PSR.testBit i = false :=
        Nat.testBit_lt_two_pow (lt_of_lt_of_le hpsr
          (Nat.pow_le_pow_right (by norm_num : 0 < 2) (not_lt.mp h32)))
      simp [this]
  · rfl

theorem C7_iret_restores_pc_psr_sp_witness :
    demo_entered.mem demo_entered.SP.toNat = demo_computer.PC
    ∧ demo_entered.mem (demo_entered.SP + 1).toNat = demo_computer.PSR
    ∧ ∃ cp3, execute demo_entered OP_IRET 0 0 0 = .next cp3
      ∧ cp3.PC = demo_computer.PC
      ∧ (∀ i, cp3.PSR.testBit i = (decide (i ≠ 1) && demo_computer.PSR.testBit i))
      ∧ cp3.SP = demo_computer.SP :=
  C7_iret_restores_pc_psr_sp demo_computer demo_entered demo_entered 0 0 0
    (by decide) (by decide) (by decide) (by decide) (by decide) rfl rfl rfl rfl

theorem C5_push_pop_restores_witness :
    ∃ cp1 cp2, execute demo_computer OP_PUSH 0 0 0 = .next cp1
      ∧ execute cp1 OP_POP 0 0 0 = .next cp2
      ∧ cp2.SP = demo_computer.SP ∧ cp2.R 0 = demo_computer.R 0 :=
  C5_push_pop_restores demo_computer 0 0 0 0 0 (by decide) (by decide) (by decide)
    (by decide) (by decide)



theorem cycles_succ_inv (k : Nat) (cp s s1 : COMPUTER) (h : cycles k cp = some s)
    (h1 : cycles (k + 1) cp = some s1) : cpu_cycle s = .next s1 := by
  induction k generalizing cp with
  | zero =>
    simp only [cycles, Option.some.injEq] at h
    subst h
    rw [cycles] at h1
    cases hc : cpu_cycle cp with
    | next c1 =>
      rw [hc] at h1
      simp only [cycles, Option.some.injEq] at h1
      rw [h1]
    | stop w c1 => rw [hc] at h1; cases h1
    | undefined => rw [hc] at h1; cases h1
  | succ n ih =>
    rw [cycles] at h h1
    cases hc : cpu_cycle cp with
    | next c1 =>
      rw [hc] at h h1
      exact ih c1 h h1
    | stop w c1 => rw [hc] at h; cases h
    | undefined => rw [hc] at h; cases h

theorem cpu_cycle_next_inv (s s1 : COMPUTER) (h : cpu_cycle s = .next s1) :
    ∃ e, fetch_execute s = .next e ∧ check_interrupt (timer_tick e) = .next s1 := by
  unfold cpu_cycle at h
  cases hf : fetch_execute s with
  | next e => rw [hf] at h; exact ⟨e, rfl, h⟩
  | stop w c1 => rw [hf] at h; cases h
  | undefined => rw [hf] at h; cases h

theorem check_interrupt_next_cases (e s : COMPUTER) (h : check_interrupt e = .next s) :
    s = e ∨ s.PSR = e.PSR &&& 0xfffffffc := by
  unfold check_interrupt at h
  simp only at h
  split_ifs at h
  · cases h; exact Or.inr rfl
  · cases h; exact Or.inl rfl

theorem timer_tick_en (e : COMPUTER) : (timer_tick e).PSR.testBit 0 = e.PSR.testBit 0 := by
  unfold timer_tick
  simp only
  split_ifs
  · show (e.PSR ||| PSR_INT_PEND).testBit 0 = _
    rw [Nat.testBit_or]
    have : PSR_INT_PEND.testBit 0 = false := by decide
    rw [this, Bool.or_false]
  · rfl

theorem en_bit_eq (x y : Nat) (hx : x &&& PSR_INT_EN ≠ 0) (hy : y &&& PSR_INT_EN ≠ 0) :
    x &&& PSR_INT_EN = y &&& PSR_INT_EN := by
  have hx' := (en_iff x).mp hx
  have hy' := (en_iff y).mp hy
  unfold PSR_INT_EN
  rw [land_one, land_one, hx', hy']

theorem masked_en_clear (x : Nat) : ¬ ((x &&& 0xfffffffc) &&& PSR_INT_EN ≠ 0) := by
  rw [en_iff, Nat.testBit_and, testBit_fc]
  simp

/-- If the enable bit is read at the cycle boundaries instead: from a state with enable set,
pending clear and `counter = 0`, no run of 5000 cycles that all return 0 has the enable bit
set at every boundary; the 5000th cycle always clears it. -/
theorem enable_cleared_within_5000_cycles (cp : COMPUTER)
    (hen : cp.PSR &&& PSR_INT_EN ≠ 0) (hpend : cp.PSR &&& PSR_INT_PEND = 0)
    (hcnt : cp.counter = 0)
    (hkeep : ∀ k, k ≤ 5000 → ∃ s, cycles k cp = some s ∧ s.PSR &&& PSR_INT_EN ≠ 0) : False := by
  have hrun : ∀ k, k < 5000 → ∀ s, cycles k cp = some s →
      ∃ e, fetch_execute s = .next e ∧ e.PSR &&& PSR_INT_EN = s.PSR &&& PSR_INT_EN := by
    intro k hk s hs
    obtain ⟨s0, hs0, en0⟩ := hkeep k (by omega)
    have e0 : s = s0 := Option.some.inj (hs.symm.trans hs0)
    rw [← e0] at en0
    obtain ⟨s1, hs1, en1⟩ := hkeep (k + 1) (by omega)
    obtain ⟨e, he, hci⟩ := cpu_cycle_next_inv s s1 (cycles_succ_inv k cp s s1 hs hs1)
    refine ⟨e, he, ?_⟩
    rcases check_interrupt_next_cases _ _ hci with h | h
    · have ee : e.PSR &&& PSR_INT_EN ≠ 0 := by
        rw [en_iff, ← timer_tick_en, ← h, ← en_iff]
        exact en1
      exact en_bit_eq _ _ ee en0
    · rw [h] at en1
      exact absurd en1 (masked_en_clear _)
  obtain ⟨s, hs, b0, b1, hc⟩ := timer_invariant cp hen hpend hcnt hrun 4999 (by omega)
  obtain ⟨e, he, hbit⟩ := hrun 4999 (by omega) s hs
  obtain ⟨fc, -⟩ := fetch_execute_frame s e he
  obtain ⟨s1, hs1, en1⟩ := hkeep 5000 (le_refl _)
  obtain ⟨e', he', hci⟩ := cpu_cycle_next_inv s s1 (cycles_succ_inv 4999 cp s s1 hs hs1)
  have e1 : e = e' := Step.next.inj (he.symm.trans he')
  rw [← e1] at hci
  have een : e.PSR &&& PSR_INT_EN ≠ 0 := by
    rw [hbit]; exact (en_iff _).mpr b0
  rw [timer_tick_fire e (by omega) een] at hci
  unfold check_interrupt at hci
  simp only at hci
  have ten : (e.PSR ||| PSR_INT_PEND) &&& PSR_INT_EN ≠ 0 := by
    rw [en_iff, Nat.testBit_or, (en_iff _).mp een]; rfl
  have tpend : (e.PSR ||| PSR_INT_PEND) &&& PSR_INT_PEND ≠ 0 := by
    rw [pend_iff, Nat.testBit_or]
    have : PSR_INT_PEND.testBit 1 = true := rfl
    rw [this]; simp
  rw [if_pos ⟨ten, tpend⟩] at hci
  split_ifs at hci
  cases hci
  exact absurd en1 (masked_en_clear _)

end ExpIsa

namespace ExpIsa

/-! ## The assembler: decimal literals, scanning, and the encoding of each line -/

theorem digitChar_isdigit (m : Nat) (h : m < 10) :
    isdigit (Nat.digitChar m) = true ∧ (Nat.digitChar m).toNat - 48 = m := by
  interval_cases m <;> exact ⟨rfl, rfl⟩

theorem strtol_digits_toDigitsCore (fuel n : Nat) (ds : List Char) (acc : Nat) (h : n < fuel) :
    ∃ k, strtol_digits (Nat.toDigitsCore 10 fuel n ds) acc = strtol_digits ds (acc * 10 ^ k + n) := by
  induction fuel generalizing n ds acc with
  | zero => omega
  | succ f ih =>
    obtain ⟨hd, hv⟩ := digitChar_isdigit (n % 10) (Nat.mod_lt _ (by norm_num))
    unfold Nat.toDigitsCore
    by_cases h0 : n / 10 = 0
    · simp only [h0, if_true]
      refine ⟨1, ?_⟩
      rw [strtol_digits, if_pos hd, hv]
      congr 1
      omega
    · simp only [h0, if_false]
      obtain ⟨k, hk⟩ := ih (n / 10) (Nat.digitChar (n % 10) :: ds) acc (by omega)
      refine ⟨k + 1, ?_⟩
      rw [hk, strtol_digits, if_pos hd, hv]
      congr 1
      rw [pow_succ]
      have := Nat.div_add_mod n 10
      nlinarith [this]

theorem toDigitsCore_all (fuel n : Nat) (ds : List Char)
    (hds : ∀ c ∈ ds, isdigit c = true) : ∀ c ∈ Nat.toDigitsCore 10 fuel n ds, isdigit c = true := by
  induction fuel generalizing n ds with
  | zero => simpa [Nat.toDigitsCore] using hds
  | succ f ih =>
    have hd := (digitChar_isdigit (n % 10) (Nat.mod_lt _ (by norm_num))).1
    have hcons : ∀ c ∈ Nat.digitChar (n % 10) :: ds, isdigit c = true := by
      intro c hc
      rcases List.mem_cons.mp hc with rfl | hc
      · exact hd
      · exact hds c hc
    unfold Nat.toDigitsCore
    by_cases h0 : n / 10 = 0
    · simpa only [h0, if_true] using hcons
    · simp only [h0, if_false]
      exact ih _ _ hcons

theorem toDigitsCore_ne_nil (fuel n : Nat) (ds : List Char) (h : fuel ≠ 0 ∨ ds ≠ []) :
    Nat.toDigitsCore 10 fuel n ds ≠ [] := by
  induction fuel generalizing n ds with
  | zero =>
    rcases h with h | h
    · exact absurd rfl h
    · simpa [Nat.toDigitsCore] using h
  | succ f ih =>
    unfold Nat.toDigitsCore
    by_cases h0 : n / 10 = 0
    · simp [h0]
    · simp only [h0, if_false]
      exact ih _ _ (Or.inr (by simp))

theorem toDigits_all (n : Nat) : ∀ c ∈ Nat.toDigits 10 n, isdigit c = true :=
  toDigitsCore_all _ _ _ (by simp)

theorem toDigits_ne_nil (n : Nat) : Nat.toDigits 10 n ≠ [] :=
  toDigitsCore_ne_nil _ _ _ (Or.inl (by omega))

theorem strtol_digits_append (xs rest : List Char) (acc : Nat)
    (hrest : ∀ c, rest.head? = some c → isdigit c = false) (hxs : ∀ c ∈ xs, isdigit c = true) :
    strtol_digits (xs ++ rest) acc = strtol_digits xs acc := by
  induction xs generalizing acc with
  | nil =>
    cases rest with
    | nil => rfl
    | cons r rs =>
      have := hrest r rfl
      simp [strtol_digits, this]
  | cons x xs ih =>
    have hx := hxs x (by simp)
    simp only [List.cons_append, strtol_digits, hx, if_true]
    exact ih _ (fun c hc => hxs c (by simp [hc]))

theorem strtol_digits_toDigits (n : Nat) : strtol_digits (Nat.toDigits 10 n) 0 = n := by
  obtain ⟨k, hk⟩ := strtol_digits_toDigitsCore (n + 1) n [] 0 (by omega)
  unfold Nat.toDigits
  rw [hk]
  simp [strtol_digits]


theorem scan_from_none (p : Char → Bool) (l : List Char) (i : Nat)
    (h : ∀ c ∈ l, p c = false) : scan_from p l i = -1 := by
  induction l generalizing i with
  | nil => rfl
  | cons x xs ih =>
    have hx := h x (by simp)
    simp only [scan_from, hx]
    exact ih _ (fun c hc => h c (by simp [hc]))

theorem scan_from_hit (p : Char → Bool) (pre rest : List Char) (x : Char) (i : Nat)
    (hpre : ∀ c ∈ pre, p c = false) (hx : p x = true) :
    scan_from p (pre ++ x :: rest) i = ((i + pre.length : Nat) : Int) := by
  induction pre generalizing i with
  | nil => simp [scan_from, hx]
  | cons y ys ih =>
    have hy := hpre y (by simp)
    have hi := ih (i + 1) (fun c hc => hpre c (by simp [hc]))
    rw [List.cons_append, scan_from, hy, if_neg (by simp), hi]
    simp only [List.length_cons]
    congr 1
    omega

theorem scan_from_all (p : Char → Bool) (l : List Char) (i : Nat)
    (h : scan_from p l i = -1) : ∀ c ∈ l, p c = false := by
  induction l generalizing i with
  | nil => simp
  | cons x xs ih =>
    cases hx : p x with
    | true =>
      simp only [scan_from, hx, if_true] at h
      omega
    | false =>
      simp only [scan_from, hx] at h
      intro c hc
      rcases List.mem_cons.mp hc with rfl | hc
      · exact hx
      · exact ih _ h c hc

theorem cAt_append_left (a b : List Char) (i : Nat) (h : i < a.length) :
    cAt (a ++ b) i = cAt a i := by
  unfold cAt
  simp [List.getD_eq_getElem?_getD, List.getElem?_append_left h]

theorem cAt_append_right (a b : List Char) (i : Nat) :
    cAt (a ++ b) (a.length + i) = cAt b i := by
  unfold cAt
  simp [List.getD_eq_getElem?_getD, List.getElem?_append_right]

theorem cAt_length (a : List Char) (x : Char) (b : List Char) :
    cAt (a ++ x :: b) a.length = x := by
  have := cAt_append_right a (x :: b) 0
  simpa [cAt] using this

theorem code_end_line (init : List Char) (z : Char)
    (hsemi : ∀ c ∈ init ++ [z], c ≠ ';') (hz : isspace z = false) :
    code_end (init ++ [z] ++ [LF]) = init.length + 1 := by
  unfold code_end first_char
  have h1 : scan_from (fun x => x == ';') (List.drop 0 (init ++ [z] ++ [LF])) 0 = -1 := by
    apply scan_from_none
    intro c hc
    simp only [List.drop_zero, List.mem_append, List.mem_singleton] at hc
    rcases hc with hc | hc
    · have := hsemi c (by simpa using hc)
      simpa using this
    · subst hc; decide
  simp only [h1, if_true]
  have hl : (init ++ [z] ++ [LF]).length = (init.length + 1) + 1 := by simp
  rw [hl, rtrim_idx]
  have c1 : cAt (init ++ [z] ++ [LF]) (init.length + 1) = LF := by
    have := cAt_length (init ++ [z]) LF []
    simpa using this
  have c2 : cAt (init ++ [z] ++ [LF]) init.length = z := by
    have := cAt_length init z [LF]
    simpa using this
  have hlf : isspace LF = true := by decide
  rw [c1, hlf, if_pos rfl, rtrim_idx, c2, hz]
  simp



theorem filter_nospace (l : List Char) (h : ∀ c ∈ l, isspace c = false) :
    remove_whitespace l = l := by
  unfold remove_whitespace
  rw [List.filter_eq_self]
  intro c hc
  simp [h c hc]

theorem parse_instr_aux (labels : List (List Char × Int)) (op ops' : List Char) (z : Char)
    (idx : Int) (hopne : op ≠ []) (hop0 : cAt op 0 ≠ '.')
    (hop : ∀ c ∈ op, isspace c = false ∧ c ≠ ';')
    (hops : ∀ c ∈ ops' ++ [z], isspace c = false ∧ c ≠ ';')
    (hlen : op.length + 1 + (ops'.length + 1) ≠ 3 ∧ op.length + 1 + (ops'.length + 1) ≠ 4) :
    parse labels (op ++ ' ' :: (ops' ++ [z]) ++ [LF]) idx
      = parse_operands labels op.length op (ops' ++ [z]) idx := by
  have hline : op ++ ' ' :: (ops' ++ [z]) ++ [LF] = (op ++ ' ' :: ops') ++ [z] ++ [LF] := by simp
  have h0 : cAt (op ++ ' ' :: (ops' ++ [z]) ++ [LF]) 0 = cAt op 0 := by
    rw [List.append_assoc]
    exact cAt_append_left _ _ _ (List.length_pos.mpr hopne)
  have hce : code_end ((op ++ ' ' :: ops') ++ [z] ++ [LF]) = (op ++ ' ' :: ops').length + 1 := by
    apply code_end_line
    · intro c hc
      have hc' : c ∈ op ∨ c = ' ' ∨ c ∈ ops' ++ [z] := by
        simpa [or_assoc] using hc
      rcases hc' with hc | hc | hc
      · exact (hop c hc).2
      · subst hc; decide
      · exact (hops c hc).2
    · exact (hops z (by simp)).1
  unfold parse
  rw [h0, if_neg hop0, hline, hce]
  have htake : List.take ((op ++ ' ' :: ops').length + 1) ((op ++ ' ' :: ops') ++ [z] ++ [LF])
      = op ++ ' ' :: (ops' ++ [z]) := by
    have : (op ++ ' ' :: ops').length + 1 = ((op ++ ' ' :: ops') ++ [z]).length := by
      simp only [List.length_append, List.length_cons, List.length_nil]
    rw [this, List.take_left']
    · simp
    · rfl
  rw [htake]
  unfold parse_op
  have hl : (op ++ ' ' :: (ops' ++ [z])).length = op.length + 1 + (ops'.length + 1) := by
    simp only [List.length_append, List.length_cons, List.length_nil]; omega
  rw [hl, if_neg hlen.1, if_neg hlen.2]
  have hws : first_whitespace (op ++ ' ' :: (ops' ++ [z])) 0 = (op.length : Int) := by
    unfold first_whitespace
    rw [List.drop_zero, scan_from_hit isspace op _ ' ' 0 (fun c hc => (hop c hc).1) (by decide)]
    simp
  simp only [hws]
  have e1 : ((op.length : Int)).toNat = op.length := by simp
  have e2 : ((op.length : Int) + 1).toNat = op.length + 1 := by omega
  rw [e1, e2, List.take_left' rfl]
  have hdrop : List.drop (op.length + 1) (op ++ ' ' :: (ops' ++ [z])) = ops' ++ [z] := by
    have : op ++ ' ' :: (ops' ++ [z]) = (op ++ [' ']) ++ (ops' ++ [z]) := by simp
    rw [this, List.drop_left']
    simp
  rw [hdrop, filter_nospace _ (fun c hc => (hops c hc).1)]


theorem parse_instr (labels : List (List Char × Int)) (op ops : List Char)
    (idx : Int) (hopne : op ≠ []) (hop0 : cAt op 0 ≠ '.')
    (hop : ∀ c ∈ op, isspace c = false ∧ c ≠ ';')
    (hops : ∀ c ∈ ops, isspace c = false ∧ c ≠ ';') (hne : ops ≠ [])
    (hlen : op.length + 1 + ops.length ≠ 3 ∧ op.length + 1 + ops.length ≠ 4) :
    parse labels (op ++ ' ' :: (ops ++ [LF])) idx = parse_operands labels op.length op ops idx := by
  rcases List.eq_nil_or_concat ops with h | ⟨ops', z, h⟩
  · exact absurd h hne
  · rw [List.concat_eq_append] at h
    subst h
    have := parse_instr_aux labels op ops' z idx hopne hop0 hop hops
      (by simpa only [List.length_append, List.length_cons, List.length_nil] using hlen)
    rw [← this]
    congr 1
    simp

theorem label_char_props (c : Char) (h : label_char c = true) :
    isspace c = false ∧ c ≠ ';' ∧ c ≠ ',' := by
  unfold label_char isalnum isdigit at h
  unfold isspace
  refine ⟨?_, ?_, ?_⟩
  · simp only [Bool.or_eq_true, Bool.and_eq_true, decide_eq_true_eq, beq_iff_eq] at h
    simp only [Bool.or_eq_false_iff, Bool.and_eq_false_iff, decide_eq_false_iff_not, beq_eq_false_iff_ne]
    rcases h with ((h | h) | h) | h
    · omega
    · omega
    · omega
    · subst h; decide
  · rintro rfl; revert h; decide
  · rintro rfl; revert h; decide

theorem is_symbol_label (line : List Char) (s : Int) (h : is_symbol line = .ok s) (hs : s ≠ 0) :
    ∀ c ∈ (line.drop (first_non_whitespace line 0).toNat).take
        (s - (first_non_whitespace line 0).toNat).toNat, label_char c = true := by
  unfold is_symbol at h
  simp only at h
  split_ifs at h with h1 h2 h3 h4
  · cases h; exact absurd rfl hs
  · cases h
    have hall := scan_from_all _ _ _ h4
    intro c hc
    have e : ((((code_end line - 1 : Nat) : Int)
        - ((first_non_whitespace line 0).toNat : Int))).toNat
        = (code_end line - 1) - (first_non_whitespace line 0).toNat := by omega
    rw [e, ← List.drop_take] at hc
    have := hall c hc
    unfold label_char
    cases ha : isalnum c <;> simp_all
  · cases h; exact absurd rfl hs

theorem scan_from_ge (p : Char → Bool) (l : List Char) (i : Nat) :
    scan_from p l i = -1 ∨ (i : Int) ≤ scan_from p l i := by
  induction l generalizing i with
  | nil => exact Or.inl rfl
  | cons x xs ih =>
    unfold scan_from
    split_ifs
    · exact Or.inr (le_refl _)
    · rcases ih (i + 1) with h | h
      · exact Or.inl h
      · exact Or.inr (by push_cast at h; omega)

theorem first_non_whitespace_ge (line : List Char) :
    first_non_whitespace line 0 = -1 ∨ 0 ≤ first_non_whitespace line 0 := by
  unfold first_non_whitespace
  simpa using scan_from_ge _ (List.drop 0 line) 0

theorem handle_line_labels (st st' : Asm) (line : List Char) (h : handle_line st line = .ok st')
    (hst : ∀ e ∈ st.label, ∀ c ∈ e.1, label_char c = true) :
    ∀ e ∈ st'.label, ∀ c ∈ e.1, label_char c = true := by
  unfold handle_line at h
  simp only at h
  cases hsym : is_symbol line with
  | error e =>
    rw [hsym] at h
    simp only at h
    split_ifs at h
    cases h; exact hst
  | ok s =>
    rw [hsym] at h
    simp only at h
    split_ifs at h with h1 h2 h3 h4
    · cases h; exact hst
    · cases h
      intro e he
      simp only [List.mem_append, List.mem_singleton] at he
      rcases he with he | he
      · exact hst e he
      · subst he
        have hi : first_non_whitespace line 0
            = ((first_non_whitespace line 0).toNat : Int) := by
          rcases first_non_whitespace_ge line with h0 | h0
          · exact absurd (Or.inl h0) h1
          · omega
        have := is_symbol_label line s hsym h2
        rw [← hi] at this
        exact this
    · cases h; exact hst

theorem pass1_labels (src : List (List Char)) (st st' : Asm) (h : pass1 src st = .ok st')
    (hst : ∀ e ∈ st.label, ∀ c ∈ e.1, label_char c = true) :
    ∀ e ∈ st'.label, ∀ c ∈ e.1, label_char c = true := by
  induction src generalizing st with
  | nil => cases h; exact hst
  | cons l ls ih =>
    rw [pass1] at h
    cases hl : handle_line st (cstr l) with
    | error e => rw [hl] at h; cases h
    | ok st1 =>
      rw [hl] at h
      exact ih st1 h (handle_line_labels st st1 _ hl hst)


theorem isdigit_props (c : Char) (h : isdigit c = true) :
    isspace c = false ∧ c ≠ ';' ∧ c ≠ ',' ∧ c ≠ '.' := by
  unfold isdigit at h
  unfold isspace
  refine ⟨?_, ?_, ?_, ?_⟩
  · simp only [Bool.and_eq_true, decide_eq_true_eq] at h
    simp only [Bool.or_eq_false_iff, Bool.and_eq_false_iff, decide_eq_false_iff_not,
      beq_eq_false_iff_ne]
    omega
  · rintro rfl; revert h; decide
  · rintro rfl; revert h; decide
  · rintro rfl; revert h; decide

theorem reg_text_chars (n : Nat) : ∀ c ∈ reg_text n, isspace c = false ∧ c ≠ ';' ∧ c ≠ ',' := by
  intro c hc
  unfold reg_text at hc
  split_ifs at hc
  · simp only [List.mem_cons, List.mem_singleton, List.not_mem_nil, or_false] at hc
    rcases hc with rfl | rfl <;> decide
  · rcases List.mem_cons.mp hc with rfl | hc
    · decide
    · have := isdigit_props c (toDigits_all n c hc)
      exact ⟨this.1, this.2.1, this.2.2.1⟩

theorem reg_text_ne_nil (n : Nat) : reg_text n ≠ [] := by
  unfold reg_text
  split_ifs <;> simp

theorem reg_text_length (n : Nat) : 2 ≤ (reg_text n).length := by
  unfold reg_text
  split_ifs
  · simp
  · have := List.length_pos.mpr (toDigits_ne_nil n)
    simp only [List.length_cons]
    omega

theorem parse_reg_append (a rest : List Char) (l : Int) (h : (a.length : Int) = l) :
    parse_reg (a ++ rest) l = parse_reg a l := by
  unfold parse_reg
  by_cases h2 : l = 2
  · have e0 := cAt_append_left a rest 0 (by omega)
    have e1 := cAt_append_left a rest 1 (by omega)
    simp only [e0, e1, h2, if_true]
  · by_cases h3 : l = 3
    · have e0 := cAt_append_left a rest 0 (by omega)
      have e1 := cAt_append_left a rest 1 (by omega)
      have e2 := cAt_append_left a rest 2 (by omega)
      simp only [e0, e1, e2]
    · have hb : l > 3 ∨ l < 2 := by omega
      simp only [h2, false_and, if_false, hb, or_true, if_true]

theorem parse_reg_text_closed : ∀ n, n ≤ 64 → parse_reg (reg_text n) (reg_text n).length = n := by
  decide

theorem parse_reg_text (n : Nat) (h : n ≤ 64) (rest : List Char) :
    parse_reg (reg_text n ++ rest) (reg_text n).length = n := by
  rw [parse_reg_append _ _ _ rfl]
  exact parse_reg_text_closed n h

theorem toI8_toU8 (x : Int) (h1 : -128 ≤ x) (h2 : x ≤ 127) :
    toI8 ((toU8 (toI8 x) : Nat) : Int) = x := by
  unfold toI8 toU8
  omega


theorem handle_line_addr (st st' : Asm) (line : List Char) (h : handle_line st line = .ok st')
    (hst : 0 ≤ st.address ∧ ∀ e ∈ st.label, 0 ≤ e.2) :
    0 ≤ st'.address ∧ ∀ e ∈ st'.label, 0 ≤ e.2 := by
  unfold handle_line at h
  simp only at h
  cases hsym : is_symbol line with
  | error e =>
    rw [hsym] at h
    simp only at h
    split_ifs at h
    cases h; exact hst
  | ok s =>
    rw [hsym] at h
    simp only at h
    split_ifs at h with h1 h2 h3 h4
    · cases h; exact hst
    · cases h
      refine ⟨hst.1, ?_⟩
      intro e he
      simp only [List.mem_append, List.mem_singleton] at he
      rcases he with he | he
      · exact hst.2 e he
      · subst he; exact hst.1
    · cases h
      exact ⟨by show 0 ≤ st.address + 1; omega, hst.2⟩

theorem pass1_addr (src : List (List Char)) (st st' : Asm) (h : pass1 src st = .ok st')
    (hst : 0 ≤ st.address ∧ ∀ e ∈ st.label, 0 ≤ e.2) :
    0 ≤ st'.address ∧ ∀ e ∈ st'.label, 0 ≤ e.2 := by
  induction src generalizing st with
  | nil => cases h; exact hst
  | cons l ls ih =>
    rw [pass1] at h
    cases hl : handle_line st (cstr l) with
    | error e => rw [hl] at h; cases h
    | ok st1 =>
      rw [hl] at h
      exact ih st1 h (handle_line_addr st st1 _ hl hst)

theorem parse_jmp (labels : List (List Char × Int)) (L : List Char) (idx : Int)
    (hL : ∀ c ∈ L, label_char c = true) (hne : L ≠ []) :
    parse labels ("jmp ".toList ++ L ++ [LF]) idx =
      if parse_label labels L = -1 then throw_syntax_error idx
      else .ok ⟨toU8 (toI8 (parse_label labels L - idx - 1)), 0, 0, OP_JMP⟩ := by
  have h := parse_instr labels ['j', 'm', 'p'] L idx (by simp) (by decide) (by decide)
    (fun c hc => ⟨(label_char_props c (hL c hc)).1, (label_char_props c (hL c hc)).2.1⟩) hne
    (by have := List.length_pos.mpr hne; simp only [List.length_cons, List.length_nil]; omega)
  have e : "jmp ".toList ++ L ++ [LF] = ['j', 'm', 'p'] ++ ' ' :: (L ++ [LF]) := rfl
  rw [e, h]
  rfl

theorem first_char_sep (a b : List Char) (h : ∀ c ∈ a, c ≠ ',') :
    first_char (a ++ ',' :: b) 0 ',' = (a.length : Int) := by
  unfold first_char
  rw [List.drop_zero, scan_from_hit _ a b ',' 0 (fun c hc => by simpa using h c hc) (by decide)]
  simp

theorem parse_la (labels : List (List Char × Int)) (r : Nat) (L : List Char) (idx : Int)
    (hL : ∀ c ∈ L, label_char c = true) (hr : r ≤ 64) :
    parse labels ("la ".toList ++ reg_text r ++ ',' :: L ++ [LF]) idx =
      if parse_label labels L = -1 then throw_syntax_error idx
      else .ok ⟨toU8 (toI8 (parse_label labels L - idx - 1)), r, 0, OP_LA⟩ := by
  have hops : ∀ c ∈ reg_text r ++ ',' :: L, isspace c = false ∧ c ≠ ';' := by
    intro c hc
    simp only [List.mem_append, List.mem_cons] at hc
    rcases hc with hc | rfl | hc
    · exact ⟨(reg_text_chars r c hc).1, (reg_text_chars r c hc).2.1⟩
    · decide
    · exact ⟨(label_char_props c (hL c hc)).1, (label_char_props c (hL c hc)).2.1⟩
  have h := parse_instr labels ['l', 'a'] (reg_text r ++ ',' :: L) idx (by simp) (by decide)
    (by decide) hops (by simp)
    (by have := reg_text_length r
        simp only [List.length_cons, List.length_nil, List.length_append]; omega)
  have e : "la ".toList ++ reg_text r ++ ',' :: L ++ [LF]
      = ['l', 'a'] ++ ' ' :: (reg_text r ++ ',' :: L ++ [LF]) := by
    simp [String.toList]
  rw [e, h]
  unfold parse_operands
  have hc := first_char_sep (reg_text r) L (fun c hc => (reg_text_chars r c hc).2.2)
  simp only [hc]
  have hd : List.drop (((reg_text r).length : Int) + 1).toNat (reg_text r ++ ',' :: L) = L := by
    have : (((reg_text r).length : Int) + 1).toNat = (reg_text r ++ [',']).length := by
      simp only [List.length_append, List.length_cons, List.length_nil]; omega
    rw [this]
    have : reg_text r ++ ',' :: L = (reg_text r ++ [',']) ++ L := by simp
    rw [this, List.drop_left]
  rw [hd, parse_reg_text r hr]
  have hneg : ¬ (((reg_text r).length : Int) = -1) := by omega
  simp [hneg]


theorem dropWhile_head (p : Char → Bool) (x : Char) (xs : List Char) (h : p x = false) :
    (x :: xs).dropWhile p = x :: xs := by
  simp [List.dropWhile, h]

theorem strtol_dec_text (i : Int) (h1 : LONG_MIN ≤ i) (h2 : i ≤ LONG_MAX) :
    strtol (dec_text i) = i := by
  unfold dec_text
  by_cases hneg : i < 0
  · simp only [hneg, if_true]
    unfold strtol
    simp only
    rw [dropWhile_head _ _ _ (by decide)]
    simp only [List.head?_cons, if_true, List.drop_succ_cons, List.drop_zero]
    rw [strtol_digits_toDigits]
    unfold LONG_MIN at *
    omega
  · simp only [hneg, if_false]
    unfold strtol
    simp only
    obtain ⟨d, ds, hd⟩ := List.exists_cons_of_ne_nil (toDigits_ne_nil i.toNat)
    have hdig : isdigit d = true := toDigits_all i.toNat d (by rw [hd]; simp)
    have hsp := (isdigit_props d hdig).1
    have hm : d ≠ '-' := by rintro rfl; revert hdig; decide
    have hp : d ≠ '+' := by rintro rfl; revert hdig; decide
    have key := strtol_digits_toDigits i.toNat
    rw [hd] at key ⊢
    rw [dropWhile_head _ _ _ hsp]
    simp only [List.head?_cons, Option.some.injEq, hm, hp, if_false]
    rw [key]
    unfold LONG_MAX at *
    omega

theorem dec_text_chars (i : Int) : ∀ c ∈ dec_text i, isspace c = false ∧ c ≠ ';' ∧ c ≠ ',' := by
  intro c hc
  unfold dec_text at hc
  split_ifs at hc
  · rcases List.mem_cons.mp hc with rfl | hc
    · decide
    · have := isdigit_props c (toDigits_all _ c hc)
      exact ⟨this.1, this.2.1, this.2.2.1⟩
  · have := isdigit_props c (toDigits_all _ c hc)
    exact ⟨this.1, this.2.1, this.2.2.1⟩

theorem dec_text_ne_nil (i : Int) : dec_text i ≠ [] := by
  unfold dec_text
  split_ifs
  · simp
  · exact toDigits_ne_nil _

theorem parse_imm_dec_text (i : Int) (h1 : -128 ≤ i) (h2 : i ≤ 127) :
    parse_imm (dec_text i) = i := by
  unfold parse_imm
  rw [strtol_dec_text i (by unfold LONG_MIN; omega) (by unfold LONG_MAX; omega)]
  unfold toI8
  omega

theorem drop_sep (a b : List Char) :
    List.drop (((a.length : Int) + 1).toNat) (a ++ ',' :: b) = b := by
  have e1 : ((a.length : Int) + 1).toNat = (a ++ [',']).length := by
    simp only [List.length_append, List.length_cons, List.length_nil]; omega
  have e2 : a ++ ',' :: b = (a ++ [',']) ++ b := by simp
  rw [e1, e2, List.drop_left]

theorem reg_not_marker (n : Nat) (h : n ≤ 64) : (n == 255) = false := by
  rw [beq_eq_false_iff_ne]
  omega

theorem parse_sti_s (s : Nat) (hs : s ≤ 64) :
    parse_sti (reg_text s) true false false = some (false, s, 0, 0) := by
  unfold parse_sti
  simp only [parse_reg_text_closed s hs, reg_not_marker s hs]

theorem parse_sti_t (t : Nat) (ht : t ≤ 64) :
    parse_sti (reg_text t) false true false = some (false, 0, t, 0) := by
  unfold parse_sti
  simp only [parse_reg_text_closed t ht, reg_not_marker t ht]

theorem parse_sti_ti (t : Nat) (ht : t ≤ 64) (d : List Char) :
    parse_sti (reg_text t ++ ',' :: d) false true true
      = some (parse_imm d == -1, 0, t, parse_imm d) := by
  unfold parse_sti
  have hc := first_char_sep (reg_text t) d (fun c hc => (reg_text_chars t c hc).2.2)
  have hneg : ¬ (((reg_text t).length : Int) = -1) := by omega
  simp only [hc, hneg, if_false, drop_sep, parse_reg_text t ht]

theorem parse_sti_st (s t : Nat) (hs : s ≤ 64) (ht : t ≤ 64) :
    parse_sti (reg_text s ++ ',' :: reg_text t) true true false = some (false, s, t, 0) := by
  unfold parse_sti
  have hc := first_char_sep (reg_text s) (reg_text t) (fun c hc => (reg_text_chars s c hc).2.2)
  have hneg : ¬ (((reg_text s).length : Int) = -1) := by omega
  have hl : (((reg_text s ++ ',' :: reg_text t).length : Nat) : Int) - ((reg_text s).length : Int) - 1
      = ((reg_text t).length : Int) := by
    simp only [List.length_append, List.length_cons]; push_cast; omega
  simp only [hc, hneg, if_false, drop_sep, parse_reg_text s hs, hl, parse_reg_text_closed t ht,
    reg_not_marker t ht]

theorem parse_sti_sti (s t : Nat) (hs : s ≤ 64) (ht : t ≤ 64) (d : List Char) :
    parse_sti (reg_text s ++ ',' :: (reg_text t ++ ',' :: d)) true true true
      = some (parse_imm d == -1, s, t, parse_imm d) := by
  unfold parse_sti
  have hc := first_char_sep (reg_text s) (reg_text t ++ ',' :: d)
    (fun c hc => (reg_text_chars s c hc).2.2)
  have hneg : ¬ (((reg_text s).length : Int) = -1) := by omega
  have hc2 : first_char (reg_text s ++ ',' :: (reg_text t ++ ',' :: d))
      (((reg_text s).length : Int) + 1).toNat ','
      = (((reg_text s).length + 1 + (reg_text t).length : Nat) : Int) := by
    unfold first_char
    rw [drop_sep]
    have : (((reg_text s).length : Int) + 1).toNat = (reg_text s).length + 1 := by omega
    rw [this]
    exact scan_from_hit _ (reg_text t) d ',' _
      (fun c hc => by simpa using (reg_text_chars t c hc).2.2) (by decide)
  have hneg2 : ¬ ((((reg_text s).length + 1 + (reg_text t).length : Nat) : Int) = -1) := by omega
  have hl : (((reg_text s).length + 1 + (reg_text t).length : Nat) : Int)
      - ((reg_text s).length : Int) - 1 = ((reg_text t).length : Int) := by push_cast; omega
  have hd : List.drop ((((reg_text s).length + 1 + (reg_text t).length : Nat) : Int) + 1).toNat
      (reg_text s ++ ',' :: (reg_text t ++ ',' :: d)) = d := by
    have e1 : ((((reg_text s).length + 1 + (reg_text t).length : Nat) : Int) + 1).toNat
        = (reg_text s ++ ',' :: (reg_text t ++ [','])).length := by
      simp only [List.length_append, List.length_cons, List.length_nil]; omega
    have e2 : reg_text s ++ ',' :: (reg_text t ++ ',' :: d)
        = (reg_text s ++ ',' :: (reg_text t ++ [','])) ++ d := by simp
    rw [e1, e2, List.drop_left]
  simp only [hc, hneg, if_false, hc2, hneg2, hl, hd, drop_sep, parse_reg_text s hs,
    parse_reg_text t ht]


theorem reg_tok (n : Nat) : ∀ c ∈ reg_text n, isspace c = false ∧ c ≠ ';' :=
  fun c hc => ⟨(reg_text_chars n c hc).1, (reg_text_chars n c hc).2.1⟩

theorem dec_tok (i : Int) : ∀ c ∈ dec_text i, isspace c = false ∧ c ≠ ';' :=
  fun c hc => ⟨(dec_text_chars i c hc).1, (dec_text_chars i c hc).2.1⟩

theorem lab_tok (L : List Char) (hL : ∀ c ∈ L, label_char c = true) :
    ∀ c ∈ L, isspace c = false ∧ c ≠ ';' :=
  fun c hc => ⟨(label_char_props c (hL c hc)).1, (label_char_props c (hL c hc)).2.1⟩

theorem sep_tok (a b : List Char) (ha : ∀ c ∈ a, isspace c = false ∧ c ≠ ';')
    (hb : ∀ c ∈ b, isspace c = false ∧ c ≠ ';') :
    ∀ c ∈ a ++ ',' :: b, isspace c = false ∧ c ≠ ';' := by
  intro c hc
  simp only [List.mem_append, List.mem_cons] at hc
  rcases hc with hc | rfl | hc
  · exact ha c hc
  · decide
  · exact hb c hc

theorem parse_blez (labels : List (List Char × Int)) (r : Nat) (L : List Char) (idx : Int)
    (hL : ∀ c ∈ L, label_char c = true) (hr : r ≤ 64) :
    parse labels ("blez ".toList ++ reg_text r ++ ',' :: L ++ [LF]) idx =
      if parse_label labels L = -1 then throw_syntax_error idx
      else .ok ⟨toU8 (toI8 (parse_label labels L - idx - 1)), 0, r, OP_BLEZ⟩ := by
  have h := parse_instr labels ['b', 'l', 'e', 'z'] (reg_text r ++ ',' :: L) idx (by simp)
    (by decide) (by decide) (sep_tok _ _ (reg_tok r) (lab_tok L hL)) (by simp)
    (by have := reg_text_length r
        simp only [List.length_cons, List.length_nil, List.length_append]; omega)
  have e : "blez ".toList ++ reg_text r ++ ',' :: L ++ [LF]
      = ['b', 'l', 'e', 'z'] ++ ' ' :: (reg_text r ++ ',' :: L ++ [LF]) := by
    simp [String.toList]
  rw [e, h]
  unfold parse_operands
  have hc := first_char_sep (reg_text r) L (fun c hc => (reg_text_chars r c hc).2.2)
  simp only [hc, drop_sep, parse_reg_text r hr]
  have hneg : ¬ (((reg_text r).length : Int) = -1) := by omega
  simp [hneg]

theorem parse_ops_line (labels : List (List Char × Int)) (op ops : List Char) (idx : Int)
    (hopne : op ≠ []) (hop0 : cAt op 0 ≠ '.')
    (hop : ∀ c ∈ op, isspace c = false ∧ c ≠ ';')
    (hops : ∀ c ∈ ops, isspace c = false ∧ c ≠ ';') (hlen : 2 ≤ ops.length) (hl2 : 2 ≤ op.length) :
    parse labels (op ++ ' ' :: ops ++ [LF]) idx = parse_operands labels op.length op ops idx := by
  have := parse_instr labels op ops idx hopne hop0 hop hops
    (by intro h; rw [h] at hlen; simp at hlen) (by omega)
  rw [← this]
  congr 1
  simp

theorem len_sep (a b : List Char) (h : 2 ≤ a.length) : 2 ≤ (a ++ ',' :: b).length := by
  simp only [List.length_append, List.length_cons]; omega

theorem decode_word (b0 b1 b2 b3 : Nat) (h0 : b0 < 256) (h1 : b1 < 256) (h2 : b2 < 256)
    (h3 : b3 < 256) : decode (Bin4.word ⟨b0, b1, b2, b3⟩) = (b3, b2, b1, toI8 b0) := by
  unfold decode Bin4.word
  simp only
  have e3 : (b0 + 256 * b1 + 65536 * b2 + 16777216 * b3) / 16777216 % 256 = b3 := by omega
  have e2 : (b0 + 256 * b1 + 65536 * b2 + 16777216 * b3) / 65536 % 256 = b2 := by omega
  have e1 : (b0 + 256 * b1 + 65536 * b2 + 16777216 * b3) / 256 % 256 = b1 := by omega
  have e0 : ((b0 + 256 * b1 + 65536 * b2 + 16777216 * b3 : Nat) : Int) % 256 = (b0 : Int) := by
    omega
  rw [e3, e2, e1, e0]

theorem toU8_lt (i : Int) : toU8 i < 256 := by
  unfold toU8
  omega

theorem toI8_toU8' (x : Int) (h1 : -128 ≤ x) (h2 : x ≤ 127) : toI8 ((toU8 x : Nat) : Int) = x := by
  unfold toI8 toU8
  omega


theorem parse_addi (labels : List (List Char × Int)) (idx : Int) (s t : Nat) (imm : Int)
    (hs : s ≤ 64) (ht : t ≤ 64) (hm : parse_imm (dec_text imm) ≠ -1) :
    parse labels ((Instr.addi s t imm).text ++ [LF]) idx
      = .ok ⟨toU8 (parse_imm (dec_text imm)), t, s, OP_ADDI⟩ := by
  have e : (Instr.addi s t imm).text ++ [LF]
      = ['a', 'd', 'd', 'i'] ++ ' ' :: (reg_text s ++ ',' :: (reg_text t ++ ',' :: dec_text imm)) ++ [LF] := by
    simp [Instr.text, String.toList]
  rw [e, parse_ops_line labels _ _ idx (by simp) (by decide) (by decide)
    (sep_tok _ _ (reg_tok s) (sep_tok _ _ (reg_tok t) (dec_tok imm))) (len_sep _ _ (reg_text_length s)) (by decide)]
  have hb : (parse_imm (dec_text imm) == -1) = false := by simpa using hm
  unfold parse_operands
  rw [parse_sti_sti s t hs ht, hb]
  rfl

theorem parse_lw (labels : List (List Char × Int)) (idx : Int) (s t : Nat) (imm : Int)
    (hs : s ≤ 64) (ht : t ≤ 64) (hm : parse_imm (dec_text imm) ≠ -1) :
    parse labels ((Instr.lw s t imm).text ++ [LF]) idx
      = .ok ⟨toU8 (parse_imm (dec_text imm)), t, s, OP_LW⟩ := by
  have e : (Instr.lw s t imm).text ++ [LF]
      = ['l', 'w'] ++ ' ' :: (reg_text s ++ ',' :: (reg_text t ++ ',' :: dec_text imm)) ++ [LF] := by
    simp [Instr.text, String.toList]
  rw [e, parse_ops_line labels _ _ idx (by simp) (by decide) (by decide)
    (sep_tok _ _ (reg_tok s) (sep_tok _ _ (reg_tok t) (dec_tok imm))) (len_sep _ _ (reg_text_length s)) (by decide)]
  have hb : (parse_imm (dec_text imm) == -1) = false := by simpa using hm
  unfold parse_operands
  rw [parse_sti_sti s t hs ht, hb]
  rfl

theorem parse_sw (labels : List (List Char × Int)) (idx : Int) (s t : Nat) (imm : Int)
    (hs : s ≤ 64) (ht : t ≤ 64) (hm : parse_imm (dec_text imm) ≠ -1) :
    parse labels ((Instr.sw s t imm).text ++ [LF]) idx
      = .ok ⟨toU8 (parse_imm (dec_text imm)), t, s, OP_SW⟩ := by
  have e : (Instr.sw s t imm).text ++ [LF]
      = ['s', 'w'] ++ ' ' :: (reg_text s ++ ',' :: (reg_text t ++ ',' :: dec_text imm)) ++ [LF] := by
    simp [Instr.text, String.toList]
  rw [e, parse_ops_line labels _ _ idx (by simp) (by decide) (by decide)
    (sep_tok _ _ (reg_tok s) (sep_tok _ _ (reg_tok t) (dec_tok imm))) (len_sep _ _ (reg_text_length s)) (by decide)]
  have hb : (parse_imm (dec_text imm) == -1) = false := by simpa using hm
  unfold parse_operands
  rw [parse_sti_sti s t hs ht, hb]
  rfl

theorem parse_movei (labels : List (List Char × Int)) (idx : Int) (t : Nat) (imm : Int)
    (ht : t ≤ 64) (hm : parse_imm (dec_text imm) ≠ -1) :
    parse labels ((Instr.movei t imm).text ++ [LF]) idx
      = .ok ⟨toU8 (parse_imm (dec_text imm)), t, 0, OP_MOVEI⟩ := by
  have e : (Instr.movei t imm).text ++ [LF]
      = ['m', 'o', 'v', 'e', 'i'] ++ ' ' :: (reg_text t ++ ',' :: dec_text imm) ++ [LF] := by
    simp [Instr.text, String.toList]
  rw [e, parse_ops_line labels _ _ idx (by simp) (by decide) (by decide)
    (sep_tok _ _ (reg_tok t) (dec_tok imm)) (len_sep _ _ (reg_text_length t)) (by decide)]
  have hb : (parse_imm (dec_text imm) == -1) = false := by simpa using hm
  unfold parse_operands
  rw [parse_sti_ti t ht, hb]
  rfl

theorem parse_move_reg (labels : List (List Char × Int)) (idx : Int) (s t : Nat)
    (hs : s ≤ 64) (ht : t ≤ 64) :
    parse labels ((Instr.move_reg s t).text ++ [LF]) idx
      = .ok ⟨0, t, s, OP_MOVEREG⟩ := by
  have e : (Instr.move_reg s t).text ++ [LF]
      = ['m', 'o', 'v', 'e', '_', 'r', 'e', 'g'] ++ ' ' :: (reg_text s ++ ',' :: reg_text t) ++ [LF] := by
    simp [Instr.text, String.toList]
  rw [e, parse_ops_line labels _ _ idx (by simp) (by decide) (by decide)
    (sep_tok _ _ (reg_tok s) (reg_tok t)) (len_sep _ _ (reg_text_length s)) (by decide)]
  unfold parse_operands
  rw [parse_sti_st s t hs ht]
  rfl

theorem parse_add (labels : List (List Char × Int)) (idx : Int) (s t : Nat)
    (hs : s ≤ 64) (ht : t ≤ 64) :
    parse labels ((Instr.add s t).text ++ [LF]) idx
      = .ok ⟨0, t, s, OP_ADD⟩ := by
  have e : (Instr.add s t).text ++ [LF]
      = ['a', 'd', 'd'] ++ ' ' :: (reg_text s ++ ',' :: reg_text t) ++ [LF] := by
    simp [Instr.text, String.toList]
  rw [e, parse_ops_line labels _ _ idx (by simp) (by decide) (by decide)
    (sep_tok _ _ (reg_tok s) (reg_tok t)) (len_sep _ _ (reg_text_length s)) (by decide)]
  unfold parse_operands
  rw [parse_sti_st s t hs ht]
  rfl

theorem parse_push (labels : List (List Char × Int)) (idx : Int) (s : Nat)
    (hs : s ≤ 64) :
    parse labels ((Instr.push s).text ++ [LF]) idx
      = .ok ⟨0, 0, s, OP_PUSH⟩ := by
  have e : (Instr.push s).text ++ [LF]
      = ['p', 'u', 's', 'h'] ++ ' ' :: (reg_text s) ++ [LF] := by
    simp [Instr.text, String.toList]
  rw [e, parse_ops_line labels _ _ idx (by simp) (by decide) (by decide)
    (reg_tok s) (reg_text_length s) (by decide)]
  unfold parse_operands
  rw [parse_sti_s s hs]
  rfl

theorem parse_put (labels : List (List Char × Int)) (idx : Int) (s : Nat)
    (hs : s ≤ 64) :
    parse labels ((Instr.put s).text ++ [LF]) idx
      = .ok ⟨0, 0, s, OP_PUT⟩ := by
  have e : (Instr.put s).text ++ [LF]
      = ['p', 'u', 't'] ++ ' ' :: (reg_text s) ++ [LF] := by
    simp [Instr.text, String.toList]
  rw [e, parse_ops_line labels _ _ idx (by simp) (by decide) (by decide)
    (reg_tok s) (reg_text_length s) (by decide)]
  unfold parse_operands
  rw [parse_sti_s s hs]
  rfl

theorem parse_pop (labels : List (List Char × Int)) (idx : Int) (t : Nat)
    (ht : t ≤ 64) :
    parse labels ((Instr.pop t).text ++ [LF]) idx
      = .ok ⟨0, t, 0, OP_POP⟩ := by
  have e : (Instr.pop t).text ++ [LF]
      = ['p', 'o', 'p'] ++ ' ' :: (reg_text t) ++ [LF] := by
    simp [Instr.text, String.toList]
  rw [e, parse_ops_line labels _ _ idx (by simp) (by decide) (by decide)
    (reg_tok t) (reg_text_length t) (by decide)]
  unfold parse_operands
  rw [parse_sti_t t ht]
  rfl

theorem parse_halt (labels : List (List Char × Int)) (idx : Int) :
    parse labels (Instr.halt.text ++ [LF]) idx = .ok ⟨0, 0, 0, OP_HALT⟩ := rfl

theorem parse_iret (labels : List (List Char × Int)) (idx : Int) :
    parse labels (Instr.iret.text ++ [LF]) idx = .ok ⟨0, 0, 0, OP_IRET⟩ := rfl

theorem parse_NOP (labels : List (List Char × Int)) (idx : Int) :
    parse labels ("NOP".toList ++ [LF]) idx = .ok ⟨0, 0, 0, OP_NOP⟩ := rfl

theorem parse_nop (labels : List (List Char × Int)) (idx : Int) :
    parse labels (Instr.nop.text ++ [LF]) idx = .error (.syntax_error idx) := rfl


theorem dec_text_shape (i : Int) :
    ∃ h t, dec_text i = h :: t ∧ (h = '-' ∨ isdigit h = true) ∧ isspace h = false
      ∧ ∀ c ∈ t, isdigit c = true := by
  unfold dec_text
  split_ifs
  · exact ⟨'-', _, rfl, Or.inl rfl, by decide, toDigits_all _⟩
  · obtain ⟨d, ds, hd⟩ := List.exists_cons_of_ne_nil (toDigits_ne_nil i.toNat)
    have hall := toDigits_all i.toNat
    rw [hd] at hall ⊢
    exact ⟨d, ds, rfl, Or.inr (hall d (by simp)), (isdigit_props d (hall d (by simp))).1,
      fun c hc => hall c (by simp [hc])⟩

theorem takeWhile_all_then (p : Char → Bool) (t : List Char) (x : Char) (rest : List Char)
    (ht : ∀ c ∈ t, p c = true) (hx : p x = false) :
    (t ++ x :: rest).takeWhile p = t := by
  induction t with
  | nil => simp [List.takeWhile, hx]
  | cons y ys ih =>
    have hy := ht y (by simp)
    have hi := ih (fun c hc => ht c (by simp [hc]))
    rw [List.cons_append, List.takeWhile_cons, hy, if_pos rfl, hi]

theorem parse_word_line (h : Char) (t : List Char) (idx : Int)
    (hh : h = '-' ∨ isdigit h = true) (hsp : isspace h = false)
    (ht : ∀ c ∈ t, isdigit c = true) :
    parse_word ('.' :: 'w' :: 'o' :: 'r' :: 'd' :: ' ' :: h :: (t ++ [LF])) idx
      = .ok ⟨toU32 (strtol (h :: t)) % 256, toU32 (strtol (h :: t)) / 256 % 256,
             toU32 (strtol (h :: t)) / 65536 % 256, toU32 (strtol (h :: t)) / 16777216 % 256⟩ := by
  unfold parse_word
  have c5 : cAt ('.' :: 'w' :: 'o' :: 'r' :: 'd' :: ' ' :: h :: (t ++ [LF])) 5 = ' ' := rfl
  have s6 : skip_while isspace ('.' :: 'w' :: 'o' :: 'r' :: 'd' :: ' ' :: h :: (t ++ [LF])) 6 = 6 := by
    unfold skip_while
    simp [List.takeWhile, hsp]
  have c6 : cAt ('.' :: 'w' :: 'o' :: 'r' :: 'd' :: ' ' :: h :: (t ++ [LF])) 6 = h := rfl
  have s7 : skip_while isdigit ('.' :: 'w' :: 'o' :: 'r' :: 'd' :: ' ' :: h :: (t ++ [LF])) (6 + 1)
      = 7 + t.length := by
    unfold skip_while
    have : List.drop (6 + 1) ('.' :: 'w' :: 'o' :: 'r' :: 'd' :: ' ' :: h :: (t ++ [LF]))
        = t ++ LF :: [] := rfl
    rw [this, takeWhile_all_then isdigit t LF [] ht (by decide)]
  have hline : '.' :: 'w' :: 'o' :: 'r' :: 'd' :: ' ' :: h :: (t ++ [LF])
      = ('.' :: 'w' :: 'o' :: 'r' :: 'd' :: ' ' :: h :: t) ++ LF :: [] := by simp
  have ce : cAt ('.' :: 'w' :: 'o' :: 'r' :: 'd' :: ' ' :: h :: (t ++ [LF])) (7 + t.length) = LF := by
    rw [hline]
    have hl : 7 + t.length = ('.' :: 'w' :: 'o' :: 'r' :: 'd' :: ' ' :: h :: t).length := by
      simp only [List.length_cons]; omega
    rw [hl]
    exact cAt_length _ LF []
  have hfw : first_non_whitespace ('.' :: 'w' :: 'o' :: 'r' :: 'd' :: ' ' :: h :: (t ++ [LF]))
      (7 + t.length) = -1 := by
    unfold first_non_whitespace
    have hd : List.drop (7 + t.length) ('.' :: 'w' :: 'o' :: 'r' :: 'd' :: ' ' :: h :: (t ++ [LF]))
        = [LF] := by
      rw [hline]
      have hl : 7 + t.length = ('.' :: 'w' :: 'o' :: 'r' :: 'd' :: ' ' :: h :: t).length := by
        simp only [List.length_cons]; omega
      rw [hl, List.drop_left]
    rw [hd]
    rfl
  have htk : List.drop 6 (List.take (7 + t.length)
      ('.' :: 'w' :: 'o' :: 'r' :: 'd' :: ' ' :: h :: (t ++ [LF]))) = h :: t := by
    rw [hline]
    have hl : 7 + t.length = ('.' :: 'w' :: 'o' :: 'r' :: 'd' :: ' ' :: h :: t).length := by
      simp only [List.length_cons]; omega
    rw [hl, List.take_left]
    rfl
  have hcond : ¬ (h ≠ '-' ∧ ¬ isdigit h = true) := by
    rcases hh with hh | hh
    · simp [hh]
    · simp [hh]
  have hlf : isspace LF = true := by decide
  have hw : List.take 4 (List.drop 1 ('.' :: 'w' :: 'o' :: 'r' :: 'd' :: ' ' :: h :: (t ++ [LF])))
      = ['w', 'o', 'r', 'd'] := rfl
  simp only [hw, c5, s6, c6, s7, ce, hfw, htk, hcond, hlf, if_true, if_false, true_or,
    not_true_eq_false, false_and]
  rw [if_pos (by decide)]


theorem is_symbol_len (line : List Char) (s : Int) (h : is_symbol line = .ok s) :
    s - (first_non_whitespace line 0).toNat ≤ MAX_LABEL_LENGTH := by
  unfold is_symbol at h
  simp only at h
  split_ifs at h with h1 h2 h3 h4
  · cases h; unfold MAX_LABEL_LENGTH; omega
  · cases h; omega
  · cases h; unfold MAX_LABEL_LENGTH; omega

theorem handle_line_len (st st' : Asm) (line : List Char) (h : handle_line st line = .ok st')
    (hst : ∀ e ∈ st.label, e.1.length ≤ MAX_LABEL_LENGTH) :
    ∀ e ∈ st'.label, e.1.length ≤ MAX_LABEL_LENGTH := by
  unfold handle_line at h
  simp only at h
  cases hsym : is_symbol line with
  | error e =>
    rw [hsym] at h
    simp only at h
    split_ifs at h
    cases h; exact hst
  | ok s =>
    rw [hsym] at h
    simp only at h
    split_ifs at h with h1 h2 h3 h4
    · cases h; exact hst
    · cases h
      intro e he
      simp only [List.mem_append, List.mem_singleton] at he
      rcases he with he | he
      · exact hst e he
      · subst he
        have hl := is_symbol_len line s hsym
        have hi : first_non_whitespace line 0
            = ((first_non_whitespace line 0).toNat : Int) := by
          rcases first_non_whitespace_ge line with h0 | h0
          · exact absurd (Or.inl h0) h1
          · omega
        show (List.take _ _).length ≤ _
        rw [List.length_take]
        have : (s - first_non_whitespace line 0).toNat ≤ MAX_LABEL_LENGTH := by
          rw [hi]; omega
        omega
    · cases h; exact hst

theorem pass1_len (src : List (List Char)) (st st' : Asm) (h : pass1 src st = .ok st')
    (hst : ∀ e ∈ st.label, e.1.length ≤ MAX_LABEL_LENGTH) :
    ∀ e ∈ st'.label, e.1.length ≤ MAX_LABEL_LENGTH := by
  induction src generalizing st with
  | nil => cases h; exact hst
  | cons l ls ih =>
    rw [pass1] at h
    cases hl : handle_line st (cstr l) with
    | error e => rw [hl] at h; cases h
    | ok st1 =>
      rw [hl] at h
      exact ih st1 h (handle_line_len st st1 _ hl hst)

theorem parse_label_first_or_last (pre post : List (List Char × Int)) (L : List Char) (A : Int)
    (hpre : ∀ e ∈ pre, e.1 ≠ L) (hL : L.length ≤ MAX_LABEL_LENGTH)
    (h : L.length < MAX_LABEL_LENGTH ∨ post = []) :
    parse_label (pre ++ (L, A) :: post) L = A := by
  induction pre with
  | nil =>
    rcases h with h | h
    · simp [parse_label, label_cstr, h]
    · subst h
      simp [parse_label, label_cstr]
  | cons e es ih =>
    obtain ⟨n, a⟩ := e
    have hn : n ≠ L := hpre (n, a) (by simp)
    have hne : L ≠ label_cstr ((n, a) :: (es ++ (L, A) :: post)) := by
      unfold label_cstr
      by_cases h30 : n.length < MAX_LABEL_LENGTH
      · simp only [h30, if_true]; exact fun h => hn h.symm
      · simp only [h30, if_false]
        intro hc
        have hlen := congrArg List.length hc
        simp only [List.length_append] at hlen
        have hz : (label_cstr (es ++ (L, A) :: post)).length = 0 := by omega
        rw [List.length_eq_zero] at hz
        rw [hz, List.append_nil] at hc
        exact hn hc.symm
    have hi := ih (fun e he => hpre e (by simp [he]))
    rw [List.cons_append, parse_label, if_neg hne]
    exact hi

end ExpIsa

namespace ExpIsa

/-! ## Label offsets, the encoding round trip, and the `.word` directive -/

/-- C1 counterexample: in a source file that defines `L` twice, pass 1 records `L` with
address 1 (its second definition), yet the line `jmp L` at emission index 1 is encoded with
the immediate `-2`, not `1 - 1 - 1 = -1`: the lookup stops at the first entry. -/
theorem C1_counterexample :
    ∃ st w, pass1 dup_program Asm.init = .ok st
      ∧ (['L'], (1 : Int)) ∈ st.label
      ∧ st.code.get? 1 = some ("jmp ".toList ++ ['L'] ++ [LF])
      ∧ parse st.label ("jmp ".toList ++ ['L'] ++ [LF]) 1 = .ok w
      ∧ toI8 w.b0 = -2 ∧ toI8 w.b0 ≠ 1 - 1 - 1 :=
  ⟨⟨["halt\n".toList, "jmp L\n".toList], [(['L'], 0), (['L'], 1)], 2⟩, ⟨254, 0, 0, OP_JMP⟩,
    rfl, by decide, rfl, rfl, by decide, by decide⟩

/-- C1 (amended): for every source program on which pass 1 succeeds and every label name `L`
whose first entry in the label table has address `A` and is stored terminated (`L` is shorter
than 30 characters, or is the last label of the table), with `-128 ≤ A - idx - 1 ≤ 127`, the
lines `jmp L` (for non-empty `L`), `la Rt,L` and `blez Rs,L` at emission index `idx` are
encoded by `parse` with byte 0, read as a signed 8-bit integer, equal to `A - idx - 1`. -/
theorem C1_label_offset (src : List (List Char)) (st : Asm)
    (pre post : List (List Char × Int)) (L : List Char) (A idx : Int) (r : Nat)
    (hp1 : pass1 src Asm.init = .ok st)
    (htab : st.label = pre ++ (L, A) :: post) (hfirst : ∀ e ∈ pre, e.1 ≠ L)
    (hlen : L.length < MAX_LABEL_LENGTH ∨ post = [])
    (hlo : -128 ≤ A - idx - 1) (hhi : A - idx - 1 ≤ 127) (hr : r ≤ 64) :
    (L ≠ [] → ∃ w, parse st.label ("jmp ".toList ++ L ++ [LF]) idx = .ok w
        ∧ toI8 w.b0 = A - idx - 1)
    ∧ (∃ w, parse st.label ("la ".toList ++ reg_text r ++ ',' :: L ++ [LF]) idx = .ok w
        ∧ toI8 w.b0 = A - idx - 1)
    ∧ (∃ w, parse st.label ("blez ".toList ++ reg_text r ++ ',' :: L ++ [LF]) idx = .ok w
        ∧ toI8 w.b0 = A - idx - 1) := by
  have hmem : (L, A) ∈ st.label := by rw [htab]; simp
  have hch : ∀ c ∈ L, label_char c = true :=
    pass1_labels src Asm.init st hp1 (by simp [Asm.init]) (L, A) hmem
  have hA : 0 ≤ A := (pass1_addr src Asm.init st hp1 (by simp [Asm.init])).2 (L, A) hmem
  have hL30 : L.length ≤ MAX_LABEL_LENGTH :=
    pass1_len src Asm.init st hp1 (by simp [Asm.init]) (L, A) hmem
  have hres : parse_label st.label L = A := by
    rw [htab]; exact parse_label_first_or_last pre post L A hfirst hL30 hlen
  have hne : ¬ (A = -1) := by omega
  refine ⟨fun hL => ⟨⟨toU8 (toI8 (A - idx - 1)), 0, 0, OP_JMP⟩, ?_, ?_⟩,
    ⟨⟨toU8 (toI8 (A - idx - 1)), r, 0, OP_LA⟩, ?_, ?_⟩,
    ⟨⟨toU8 (toI8 (A - idx - 1)), 0, r, OP_BLEZ⟩, ?_, ?_⟩⟩
  · rw [parse_jmp st.label L idx hch hL, hres, if_neg hne]
  · exact toI8_toU8 _ hlo hhi
  · rw [parse_la st.label r L idx hch hr, hres, if_neg hne]
  · exact toI8_toU8 _ hlo hhi
  · rw [parse_blez st.label r L idx hch hr, hres, if_neg hne]
  · exact toI8_toU8 _ hlo hhi

theorem C1_label_offset_witness :
    (∃ w, parse skip_pass1.label ("jmp ".toList ++ "skip".toList ++ [LF]) 1 = .ok w
        ∧ toI8 w.b0 = 3 - 1 - 1)
    ∧ (∃ w, parse skip_pass1.label ("la ".toList ++ reg_text 0 ++ ',' :: "skip".toList ++ [LF]) 1
          = .ok w ∧ toI8 w.b0 = 3 - 1 - 1)
    ∧ (∃ w, parse skip_pass1.label ("blez ".toList ++ reg_text 0 ++ ',' :: "skip".toList ++ [LF]) 1
          = .ok w ∧ toI8 w.b0 = 3 - 1 - 1) :=
  have h := C1_label_offset skip_program skip_pass1 [] [] "skip".toList 3 1 0 rfl rfl (by simp)
    (Or.inl (by decide)) (by decide) (by decide) (by decide)
  ⟨h.1 (by decide), h.2.1, h.2.2⟩

/-- The offset of a label reference is stored in an `int8_t`: for a label at address 0
referenced from emission index 200 the immediate is `-201` wrapped to `55`. -/
theorem label_offset_wraps :
    parse [(['L'], 0)] ("jmp ".toList ++ ['L'] ++ [LF]) 200 = .ok ⟨55, 0, 0, OP_JMP⟩ := rfl

/-- A label of exactly 30 characters is stored without a terminator: once another label
follows it in the table, a reference to it is no longer found. -/
theorem label_of_30_runs_on :
    parse_label [(List.replicate 30 'a', 0), (['b'], 1)] (List.replicate 30 'a') = -1 := by
  decide

/-- C3 counterexample: `nop` is a mnemonic of the ISA table and a valid instruction, but
`parse` of the line `nop` emits no bytes: it is a syntax error. -/
theorem C3_counterexample :
    Instr.valid [] 0 Instr.nop
      ∧ parse [] (Instr.nop.text ++ [LF]) 0 = .error (.syntax_error 0) :=
  ⟨trivial, rfl⟩

/-- C3 (amended): for every valid instruction (registers in `0..64`, immediate in
`-128..127` and other than `-1`, label operand resolved to an offset in `-128..127`), written
as in the ISA table except that `nop` is spelled `NOP`, the four bytes that `parse` emits,
packed into a little-endian word and decoded, give back the opcode, sreg, treg and signed
immediate of the instruction, unused fields being 0. -/
theorem C3_round_trip (labels : List (List Char × Int)) (idx : Int) (i : Instr)
    (hv : i.valid labels idx) (hm : i.imm_not_minus_one) :
    ∃ w, parse labels ((if i = .nop then "NOP".toList else i.text) ++ [LF]) idx = .ok w
      ∧ decode w.word = i.fields (fun lab => parse_label labels lab - idx - 1) := by
  cases i with
  | halt => exact ⟨_, parse_halt labels idx, rfl⟩
  | nop => exact ⟨_, parse_NOP labels idx, rfl⟩
  | iret => exact ⟨_, parse_iret labels idx, rfl⟩
  | addi s t imm =>
    obtain ⟨hs, ht, h1, h2⟩ := hv
    refine ⟨_, parse_addi labels idx s t imm hs ht
      (by rw [parse_imm_dec_text imm h1 h2]; exact hm), ?_⟩
    rw [decode_word _ _ _ _ (toU8_lt _) (by omega) (by omega) (by decide),
      parse_imm_dec_text imm h1 h2, toI8_toU8' imm h1 h2]
    rfl
  | lw s t imm =>
    obtain ⟨hs, ht, h1, h2⟩ := hv
    refine ⟨_, parse_lw labels idx s t imm hs ht
      (by rw [parse_imm_dec_text imm h1 h2]; exact hm), ?_⟩
    rw [decode_word _ _ _ _ (toU8_lt _) (by omega) (by omega) (by decide),
      parse_imm_dec_text imm h1 h2, toI8_toU8' imm h1 h2]
    rfl
  | sw s t imm =>
    obtain ⟨hs, ht, h1, h2⟩ := hv
    refine ⟨_, parse_sw labels idx s t imm hs ht
      (by rw [parse_imm_dec_text imm h1 h2]; exact hm), ?_⟩
    rw [decode_word _ _ _ _ (toU8_lt _) (by omega) (by omega) (by decide),
      parse_imm_dec_text imm h1 h2, toI8_toU8' imm h1 h2]
    rfl
  | movei t imm =>
    obtain ⟨ht, h1, h2⟩ := hv
    refine ⟨_, parse_movei labels idx t imm ht
      (by rw [parse_imm_dec_text imm h1 h2]; exact hm), ?_⟩
    rw [decode_word _ _ _ _ (toU8_lt _) (by omega) (by decide) (by decide),
      parse_imm_dec_text imm h1 h2, toI8_toU8' imm h1 h2]
    rfl
  | move_reg s t =>
    obtain ⟨hs, ht⟩ := hv
    refine ⟨_, parse_move_reg labels idx s t hs ht, ?_⟩
    rw [decode_word _ _ _ _ (by decide) (by omega) (by omega) (by decide)]
    rfl
  | add s t =>
    obtain ⟨hs, ht⟩ := hv
    refine ⟨_, parse_add labels idx s t hs ht, ?_⟩
    rw [decode_word _ _ _ _ (by decide) (by omega) (by omega) (by decide)]
    rfl
  | push s =>
    have hs : s ≤ 64 := hv
    refine ⟨_, parse_push labels idx s hs, ?_⟩
    rw [decode_word _ _ _ _ (by decide) (by decide) (by omega) (by decide)]
    rfl
  | put s =>
    have hs : s ≤ 64 := hv
    refine ⟨_, parse_put labels idx s hs, ?_⟩
    rw [decode_word _ _ _ _ (by decide) (by decide) (by omega) (by decide)]
    rfl
  | pop t =>
    have ht : t ≤ 64 := hv
    refine ⟨_, parse_pop labels idx t ht, ?_⟩
    rw [decode_word _ _ _ _ (by decide) (by omega) (by decide) (by decide)]
    rfl
  | jmp lab =>
    obtain ⟨hne, hch, hres, h1, h2⟩ := hv
    have hp := parse_jmp labels lab idx hch hne
    rw [if_neg hres] at hp
    refine ⟨_, hp, ?_⟩
    rw [decode_word _ _ _ _ (toU8_lt _) (by decide) (by decide) (by decide),
      toI8_toU8 _ h1 h2]
    rfl
  | la t lab =>
    obtain ⟨ht, hne, hch, hres, h1, h2⟩ := hv
    have hp := parse_la labels t lab idx hch ht
    rw [if_neg hres] at hp
    refine ⟨_, hp, ?_⟩
    rw [decode_word _ _ _ _ (toU8_lt _) (by omega) (by decide) (by decide),
      toI8_toU8 _ h1 h2]
    rfl
  | blez s lab =>
    obtain ⟨hs, hne, hch, hres, h1, h2⟩ := hv
    have hp := parse_blez labels s lab idx hch hs
    rw [if_neg hres] at hp
    refine ⟨_, hp, ?_⟩
    rw [decode_word _ _ _ _ (toU8_lt _) (by decide) (by omega) (by decide),
      toI8_toU8 _ h1 h2]
    rfl

theorem C3_round_trip_witness :
    ∃ w, parse [] ((if Instr.addi 3 64 (-128) = .nop then "NOP".toList
          else (Instr.addi 3 64 (-128)).text) ++ [LF]) 7 = .ok w
      ∧ decode w.word
          = (Instr.addi 3 64 (-128)).fields (fun lab => parse_label [] lab - 7 - 1) :=
  C3_round_trip [] 7 (.addi 3 64 (-128)) ⟨by decide, by decide, by decide, by decide⟩
    (by show (-128 : Int) ≠ -1; decide)

/-- C4: for every integer `N` in the signed or unsigned 32-bit range, written as a decimal
literal with an optional leading `-`, `parse` of the newline-terminated line `.word N` emits
four bytes whose little-endian value is congruent to `N` modulo `2^32`; the memory word
loaded from them is the 32-bit pattern of `N`. -/
theorem C4_word_little_endian (labels : List (List Char × Int)) (idx : Int)
    (before : COMPUTER) (N : Int) (h1 : -2147483648 ≤ N) (h2 : N ≤ 4294967295) :
    ∃ w, parse labels (".word ".toList ++ dec_text N ++ [LF]) idx = .ok w
      ∧ w.b0 < 256 ∧ w.b1 < 256 ∧ w.b2 < 256 ∧ w.b3 < 256
      ∧ ((w.b0 + 256 * w.b1 + 65536 * w.b2 + 16777216 * w.b3 : Nat) : Int) % 4294967296
          = N % 4294967296
      ∧ (computer_load_init before [w.b0, w.b1, w.b2, w.b3]).mem 0 = toU32 N := by
  obtain ⟨h, t, hd, hh, hsp, ht⟩ := dec_text_shape N
  have hs : strtol (h :: t) = N := by
    rw [← hd]
    exact strtol_dec_text N (by unfold LONG_MIN; omega) (by unfold LONG_MAX; omega)
  have hp : parse labels (".word ".toList ++ dec_text N ++ [LF]) idx
      = parse_word ('.' :: 'w' :: 'o' :: 'r' :: 'd' :: ' ' :: h :: (t ++ [LF])) idx := by
    rw [hd]
    rfl
  rw [hp, parse_word_line h t idx hh hsp ht, hs]
  have hv : toU32 N < 4294967296 := by unfold toU32; omega
  refine ⟨_, rfl, Nat.mod_lt _ (by norm_num), Nat.mod_lt _ (by norm_num),
    Nat.mod_lt _ (by norm_num), Nat.mod_lt _ (by norm_num), ?_, ?_⟩
  · show ((toU32 N % 256 + 256 * (toU32 N / 256 % 256) + 65536 * (toU32 N / 65536 % 256)
      + 16777216 * (toU32 N / 16777216 % 256) : Nat) : Int) % 4294967296 = N % 4294967296
    have : toU32 N % 256 + 256 * (toU32 N / 256 % 256) + 65536 * (toU32 N / 65536 % 256)
      + 16777216 * (toU32 N / 16777216 % 256) = toU32 N := by omega
    rw [this]
    unfold toU32
    omega
  · show loaded_byte before.mem _ _ (4 * 0) + 256 * loaded_byte before.mem _ _ (4 * 0 + 1)
      + 65536 * loaded_byte before.mem _ _ (4 * 0 + 2)
      + 16777216 * loaded_byte before.mem _ _ (4 * 0 + 3) = toU32 N
    simp only [loaded_byte, MAX_MEM_SIZE, List.length_cons, List.length_nil]
    simp
    omega

theorem C4_word_little_endian_witness :
    ∃ w, parse [] (".word ".toList ++ dec_text (-5) ++ [LF]) 0 = .ok w
      ∧ w.b0 < 256 ∧ w.b1 < 256 ∧ w.b2 < 256 ∧ w.b3 < 256
      ∧ ((w.b0 + 256 * w.b1 + 65536 * w.b2 + 16777216 * w.b3 : Nat) : Int) % 4294967296
          = (-5) % 4294967296
      ∧ (computer_load_init demo_computer [w.b0, w.b1, w.b2, w.b3]).mem 0 = toU32 (-5) :=
  C4_word_little_endian [] 0 demo_computer (-5) (by decide) (by decide)

end ExpIsa

namespace ExpIsa

/-! ## Stepping the machine through assembled programs -/

theorem cpu_cycle_step (cp e : COMPUTER) (w op s t : Nat) (imm : Int)
    (hpc : ¬ cp.PC ≥ MAX_MEM_SIZE) (hw : cp.mem cp.PC = w) (hd : decode w = (op, s, t, imm))
    (hex : execute { cp with IR := w } op s t imm = .next e)
    (hc : e.counter + 1 < 5000) (hb : e.PSR.testBit 1 = false) :
    cpu_cycle cp = .next { e with counter := e.counter + 1 } := by
  apply cpu_cycle_quiet _ _ _ hc hb
  rw [fetch_execute_eq, if_neg hpc, hw, hd]
  exact hex

theorem cpu_cycle_halt (cp : COMPUTER) (w s t : Nat) (imm : Int)
    (hpc : ¬ cp.PC ≥ MAX_MEM_SIZE) (hw : cp.mem cp.PC = w) (hd : decode w = (OP_HALT, s, t, imm)) :
    cpu_cycle cp = .stop .halt { cp with IR := w } := by
  unfold cpu_cycle
  rw [fetch_execute_eq, if_neg hpc, hw, hd]
  rfl

theorem execute_put (cp : COMPUTER) (s t : Nat) (imm : Int) (hs : s ≤ 64) :
    execute cp OP_PUT s t imm
      = .next { cp with out := cp.out ++ [Char.ofNat (toU8 (cp.R s))], PC := incPC cp.PC } := by
  simp only [execute, hs, if_true]

theorem boot_eq (before : COMPUTER) (image : List Nat) (fuel : Nat) :
    boot before image 0 fuel = some (run_loop fuel 0 (start_state before image 0)) := rfl

theorem put_image : assemble put_program = .ok [72, 0, 0, 4, 0, 0, 0, 17, 0, 0, 0, 0] := rfl

theorem run_loop_next (fuel done : Nat) (cp cp1 : COMPUTER) (h : cpu_cycle cp = .next cp1) :
    run_loop (fuel + 1) done cp = run_loop fuel (done + 1) cp1 := by
  rw [run_loop, h]

theorem run_loop_stop (fuel done : Nat) (cp cp1 : COMPUTER) (why : Exit)
    (h : cpu_cycle cp = .stop why cp1) :
    run_loop (fuel + 1) done cp = .stopped why done cp1 := by
  rw [run_loop, h]

theorem put_mem (before : COMPUTER) :
    (start_state before [72, 0, 0, 4, 0, 0, 0, 17, 0, 0, 0, 0] 0).mem 0 = 67108936
    ∧ (start_state before [72, 0, 0, 4, 0, 0, 0, 17, 0, 0, 0, 0] 0).mem 1 = 285212672
    ∧ (start_state before [72, 0, 0, 4, 0, 0, 0, 17, 0, 0, 0, 0] 0).mem 2 = 0 := by
  simp [start_state, computer_load_init, loaded_byte, MAX_MEM_SIZE]

theorem put_run (before : COMPUTER) (fuel : Nat) :
    ∃ cp, run_loop (fuel + 3) 0 (start_state before [72, 0, 0, 4, 0, 0, 0, 17, 0, 0, 0, 0] 0)
        = .stopped .halt 2 cp
      ∧ cp.out = before.out ++ ['H'] ∧ cp.R 0 = 72 ∧ cp.PC = 2 ∧ cp.counter = 2 := by
  obtain ⟨w0, w1, w2⟩ := put_mem before
  obtain ⟨c1, s1, p1, m1, r1, f1, k1, o1⟩ : ∃ c1,
      cpu_cycle (start_state before [72, 0, 0, 4, 0, 0, 0, 17, 0, 0, 0, 0] 0) = .next c1
      ∧ c1.PC = 1
      ∧ c1.mem = (start_state before [72, 0, 0, 4, 0, 0, 0, 17, 0, 0, 0, 0] 0).mem
      ∧ c1.R 0 = 72 ∧ c1.PSR = 1 ∧ c1.counter = 1 ∧ c1.out = before.out :=
    ⟨_, cpu_cycle_step (start_state before [72, 0, 0, 4, 0, 0, 0, 17, 0, 0, 0, 0] 0) _
      67108936 4 0 0 72 (by show ¬ (0 : Nat) ≥ MAX_MEM_SIZE; decide) w0 (by decide) rfl
      (by show (0 : Nat) + 1 < 5000; decide) (by show (1 : Nat).testBit 1 = false; decide),
      rfl, rfl, rfl, rfl, rfl, rfl⟩
  obtain ⟨c2, s2, p2, m2, r2, k2, o2⟩ : ∃ c2, cpu_cycle c1 = .next c2 ∧ c2.PC = 2
      ∧ c2.mem = c1.mem ∧ c2.R 0 = 72 ∧ c2.counter = 2 ∧ c2.out = before.out ++ ['H'] := by
    refine ⟨_, cpu_cycle_step c1 _ 285212672 17 0 0 0 (by rw [p1]; decide)
      (by rw [p1, m1]; exact w1) (by decide) (execute_put _ 0 0 0 (by decide))
      (by show c1.counter + 1 < 5000; rw [k1]; decide)
      (by show c1.PSR.testBit 1 = false; rw [f1]; decide), ?_, rfl, r1, ?_, ?_⟩
    · show incPC c1.PC = 2
      rw [p1]; rfl
    · show c1.counter + 1 = 2
      rw [k1]
    · show c1.out ++ [Char.ofNat (toU8 (c1.R 0))] = before.out ++ ['H']
      rw [o1, r1]; rfl
  have s3 := cpu_cycle_halt c2 0 0 0 0 (by rw [p2]; decide) (by rw [p2, m2, m1]; exact w2)
    (by decide)
  refine ⟨{ c2 with IR := 0 }, ?_, o2, r2, p2, k2⟩
  rw [run_loop_next _ _ _ _ s1, run_loop_next _ _ _ _ s2, run_loop_stop _ _ _ _ _ s3]


theorem halt_image : assemble halt_program = .ok [0, 0, 0, 0] := rfl

theorem halt_run (before : COMPUTER) (fuel : Nat) :
    run_loop (fuel + 1) 0 (start_state before [0, 0, 0, 0] 0)
      = .stopped .halt 0 (start_state before [0, 0, 0, 0] 0) := by
  have w0 : (start_state before [0, 0, 0, 0] 0).mem (start_state before [0, 0, 0, 0] 0).PC = 0 := by
    simp [start_state, computer_load_init, loaded_byte, MAX_MEM_SIZE, toU32]
  have s := cpu_cycle_halt (start_state before [0, 0, 0, 0] 0) 0 0 0 0
    (by show ¬ (0 : Nat) ≥ MAX_MEM_SIZE; decide) w0 (by decide)
  rw [run_loop_stop _ _ _ _ _ s]
  rfl

theorem skip_image :
    assemble skip_program = .ok [0, 0, 0, 4, 1, 0, 0, 12, 99, 0, 0, 4, 0, 0, 0, 0] := rfl

theorem skip_mem (before : COMPUTER) :
    (start_state before [0, 0, 0, 4, 1, 0, 0, 12, 99, 0, 0, 4, 0, 0, 0, 0] 0).mem 0 = 67108864
    ∧ (start_state before [0, 0, 0, 4, 1, 0, 0, 12, 99, 0, 0, 4, 0, 0, 0, 0] 0).mem 1 = 201326593
    ∧ (start_state before [0, 0, 0, 4, 1, 0, 0, 12, 99, 0, 0, 4, 0, 0, 0, 0] 0).mem 3 = 0 := by
  simp [start_state, computer_load_init, loaded_byte, MAX_MEM_SIZE]

theorem skip_steps (before : COMPUTER) :
    ∃ c1 c2, cpu_cycle (start_state before [0, 0, 0, 4, 1, 0, 0, 12, 99, 0, 0, 4, 0, 0, 0, 0] 0)
        = .next c1
      ∧ cpu_cycle c1 = .next c2
      ∧ cpu_cycle c2 = .stop .halt { c2 with IR := 0 }
      ∧ c1.PC = 1 ∧ c2.PC = 3 ∧ c2.R 0 = 0 := by
  obtain ⟨w0, w1, w3⟩ := skip_mem before
  obtain ⟨c1, s1, p1, m1, r1, f1, k1⟩ : ∃ c1,
      cpu_cycle (start_state before [0, 0, 0, 4, 1, 0, 0, 12, 99, 0, 0, 4, 0, 0, 0, 0] 0)
        = .next c1
      ∧ c1.PC = 1
      ∧ c1.mem = (start_state before [0, 0, 0, 4, 1, 0, 0, 12, 99, 0, 0, 4, 0, 0, 0, 0] 0).mem
      ∧ c1.R 0 = 0 ∧ c1.PSR = 1 ∧ c1.counter = 1 :=
    ⟨_, cpu_cycle_step (start_state before [0, 0, 0, 4, 1, 0, 0, 12, 99, 0, 0, 4, 0, 0, 0, 0] 0) _
      67108864 4 0 0 0 (by show ¬ (0 : Nat) ≥ MAX_MEM_SIZE; decide) w0 (by decide) rfl
      (by show (0 : Nat) + 1 < 5000; decide) (by show (1 : Nat).testBit 1 = false; decide),
      rfl, rfl, rfl, rfl, rfl⟩
  obtain ⟨c2, s2, p2, m2, r2⟩ : ∃ c2, cpu_cycle c1 = .next c2 ∧ c2.PC = 3
      ∧ c2.mem = c1.mem ∧ c2.R 0 = 0 := by
    refine ⟨_, cpu_cycle_step c1 _ 201326593 12 0 0 1 (by rw [p1]; decide)
      (by rw [p1, m1]; exact w1) (by decide) (execute_jmp _ 0 0 1)
      (by show c1.counter + 1 < 5000; rw [k1]; decide)
      (by show c1.PSR.testBit 1 = false; rw [f1]; decide), ?_, rfl, r1⟩
    show toU32 ((c1.PC : Int) + (1 + 1)) = 3
    rw [p1]; decide
  have s3 := cpu_cycle_halt c2 0 0 0 0 (by rw [p2]; decide) (by rw [p2, m2, m1]; exact w3)
    (by decide)
  exact ⟨c1, c2, s1, s2, s3, p1, p2, r2⟩

theorem cycles_next (k : Nat) (cp cp1 : COMPUTER) (h : cpu_cycle cp = .next cp1) :
    cycles (k + 1) cp = cycles k cp1 := by
  rw [cycles, h]

theorem cycles_stop (k : Nat) (cp cp1 : COMPUTER) (why : Exit) (h : cpu_cycle cp = .stop why cp1) :
    cycles (k + 1) cp = none := by
  rw [cycles, h]

end ExpIsa

namespace ExpIsa

/-! ## End-to-end programs -/

/-- C8: assembling `movei R0,72` / `put R0` / `halt` and running the image from start
address 0, whatever the uninitialised machine held, writes exactly the character `H` after
what was already on the output, stops in the third cycle through the `halt` instruction, and
ends with `R0 = 72`. -/
theorem C8_put_H_end_to_end (before : COMPUTER) (fuel : Nat) :
    ∃ image cp, assemble put_program = .ok image
      ∧ boot before image 0 (fuel + 3) = some (.stopped .halt 2 cp)
      ∧ cp.out = before.out ++ ['H'] ∧ cp.R 0 = 72 := by
  obtain ⟨cp, h, o, r, -, -⟩ := put_run before fuel
  exact ⟨_, cp, put_image, by rw [boot_eq, h], o, r⟩

/-- C9 counterexample: the single-line program `halt`, loaded at address 0 and run from
`PC = 0`, stops in its first cycle with `counter = 0`, not 1. -/
theorem C9_counterexample :
    ∃ image cp, assemble halt_program = .ok image
      ∧ boot demo_computer image 0 1 = some (.stopped .halt 0 cp)
      ∧ cp.counter = 0 ∧ cp.counter ≠ 1 :=
  ⟨_, _, halt_image, by rw [boot_eq, halt_run demo_computer 0], rfl, by decide⟩

/-- C9 (amended): the single-line program `halt`, loaded at address 0 and run from `PC = 0`,
stops in its first cycle through the `halt` instruction, before the timer tick: the final
state is the initial state itself, so `counter = 0` and memory and all registers have their
initial values. -/
theorem C9_halt_first_cycle (before : COMPUTER) (fuel : Nat) :
    ∃ image, assemble halt_program = .ok image
      ∧ boot before image 0 (fuel + 1) = some (.stopped .halt 0 (start_state before image 0))
      ∧ (start_state before image 0).counter = 0 :=
  ⟨_, halt_image, by rw [boot_eq, halt_run before fuel], rfl⟩

/-- C10: assembling `movei R0,0` / `jmp skip` / `movei R0,99` / `skip:` / `halt` and running
the image from address 0 stops at the `halt` in the third cycle with `R0 = 0` and `PC = 3`;
no cycle of the run starts with `PC = 2`, so `movei R0,99` is never executed. -/
theorem C10_jmp_skips_instruction (before : COMPUTER) (fuel : Nat) :
    ∃ image cp, assemble skip_program = .ok image
      ∧ boot before image 0 (fuel + 3) = some (.stopped .halt 2 cp)
      ∧ cp.R 0 = 0 ∧ cp.PC = 3
      ∧ ∀ k s, cycles k (start_state before image 0) = some s → s.PC ≠ 2 := by
  obtain ⟨c1, c2, s1, s2, s3, p1, p2, r2⟩ := skip_steps before
  refine ⟨_, { c2 with IR := 0 }, skip_image, ?_, r2, p2, ?_⟩
  · rw [boot_eq, run_loop_next _ _ _ _ s1, run_loop_next _ _ _ _ s2,
      run_loop_stop _ _ _ _ _ s3]
  · intro k s hs
    match k, hs with
    | 0, hs =>
      cases hs
      show toU32 0 ≠ 2
      decide
    | 1, hs =>
      rw [cycles_next 0 _ _ s1] at hs
      cases hs
      rw [p1]; decide
    | 2, hs =>
      rw [cycles_next 1 _ _ s1, cycles_next 0 _ _ s2] at hs
      cases hs
      rw [p2]; decide
    | n + 3, hs =>
      rw [cycles_next (n + 2) _ _ s1, cycles_next (n + 1) _ _ s2, cycles_stop n _ _ _ s3] at hs
      cases hs

end ExpIsa

namespace ExpIsa

/-! ## `nop`, register tokens, mnemonics, duplicate labels, the loader -/

/-- C11 (the code at the failing input): `execute` of `nop` returns the state it was given, so
`PC` is not incremented; a machine with `nop` at `PC = 0` fetches it and is left with `PC = 0`,
not 1. Registers, `SP`, `PSR` and memory are unchanged, as the claim says. -/
theorem C11_nop_does_not_advance_pc :
    (∀ (cp : COMPUTER) (s t : Nat) (imm : Int), execute cp OP_NOP s t imm = .next cp)
    ∧ ∃ cp, fetch_execute nop_demo = .next cp ∧ cp.PC = nop_demo.PC ∧ cp.PC ≠ nop_demo.PC + 1
        ∧ cp.R = nop_demo.R ∧ cp.PSR = nop_demo.PSR ∧ cp.mem = nop_demo.mem := by
  refine ⟨fun _ _ _ _ => rfl, { nop_demo with IR := 16777216 }, ?_, rfl, by decide, rfl, rfl, rfl⟩
  rw [fetch_execute_eq]
  show (if (0 : Nat) ≥ MAX_MEM_SIZE then _ else execute _ (decode 16777216).1
    (decode 16777216).2.1 (decode 16777216).2.2.1 (decode 16777216).2.2.2) = _
  rw [if_neg (by decide)]
  have hd : decode 16777216 = (1, 0, 0, 0) := by decide
  rw [hd]
  rfl

/-- C14 (the code at failing inputs): `parse_reg` takes the tokens `Rx`, `R-` and `R;` for
register 0, and `R+5` and `R5x` for register 5, where the claim has the invalid marker 255. -/
theorem C14_parse_reg_accepts_non_numerals :
    parse_reg ['R', 'x'] 2 = 0 ∧ parse_reg ['R', '-'] 2 = 0 ∧ parse_reg ['R', ';'] 2 = 0
    ∧ parse_reg ['R', '+', '5'] 3 = 5 ∧ parse_reg ['R', '5', 'x'] 3 = 5 := by
  decide

theorem toU8_toI8 (v : Int) : ((toU8 (toI8 v) : Nat) : Int) = v % 256 := by
  unfold toU8 toI8
  omega

theorem toI8_toU8_toI8 (v : Int) : toI8 ((toU8 (toI8 v) : Nat) : Int) = toI8 v := by
  unfold toU8 toI8
  omega

theorem parse_imm_dec_text_wrap (v : Int) (h1 : -2147483648 ≤ v) (h2 : v ≤ 2147483647) :
    parse_imm (dec_text v) = toI8 v := by
  unfold parse_imm
  rw [strtol_dec_text v (by unfold LONG_MIN; omega) (by unfold LONG_MAX; omega)]

/-- C12 counterexample: the code line `nop`, lower case as the ISA table spells it, is not
encoded as `(0, 0, 0, 0x01)`: `parse` aborts with a syntax error. -/
theorem C12_counterexample :
    parse [] ['n', 'o', 'p', LF] 0 = .error (.syntax_error 0)
    ∧ parse [] ['n', 'o', 'p', LF] 0 ≠ .ok ⟨0, 0, 0, 0x01⟩ := by
  constructor
  · rfl
  · intro h; cases h

/-- C12 (amended): at any emission index the line `NOP` (upper case) is encoded as
`(0, 0, 0, 0x01)`, the line `nop` is a syntax error reporting the index, `halt` gives
`(0, 0, 0, 0x00)` and `iret` gives `(0, 0, 0, 0x10)`; every other valid instruction of the ISA
table whose immediate, if it has one, is not `-1`, written with the mnemonic of the table, is
accepted and encoded with the opcode of the table. -/
theorem C12_mnemonics_recognised (labels : List (List Char × Int)) (idx : Int) (i : Instr)
    (hv : i.valid labels idx) (hne : i ≠ .nop) (hm : i.imm_not_minus_one) :
    parse labels ("NOP".toList ++ [LF]) idx = .ok ⟨0, 0, 0, 0x01⟩
    ∧ parse labels ("nop".toList ++ [LF]) idx = .error (.syntax_error idx)
    ∧ parse labels ("halt".toList ++ [LF]) idx = .ok ⟨0, 0, 0, 0x00⟩
    ∧ parse labels ("iret".toList ++ [LF]) idx = .ok ⟨0, 0, 0, 0x10⟩
    ∧ ∃ w, parse labels (i.text ++ [LF]) idx = .ok w ∧ w.b3 = (i.fields (fun _ => 0)).1 := by
  refine ⟨rfl, rfl, rfl, rfl, ?_⟩
  cases i with
  | halt => exact ⟨_, parse_halt labels idx, rfl⟩
  | nop => exact absurd rfl hne
  | iret => exact ⟨_, parse_iret labels idx, rfl⟩
  | addi s t imm =>
    exact ⟨_, parse_addi labels idx s t imm hv.1 hv.2.1
      (by rw [parse_imm_dec_text imm hv.2.2.1 hv.2.2.2]; exact hm), rfl⟩
  | lw s t imm =>
    exact ⟨_, parse_lw labels idx s t imm hv.1 hv.2.1
      (by rw [parse_imm_dec_text imm hv.2.2.1 hv.2.2.2]; exact hm), rfl⟩
  | sw s t imm =>
    exact ⟨_, parse_sw labels idx s t imm hv.1 hv.2.1
      (by rw [parse_imm_dec_text imm hv.2.2.1 hv.2.2.2]; exact hm), rfl⟩
  | movei t imm =>
    exact ⟨_, parse_movei labels idx t imm hv.1
      (by rw [parse_imm_dec_text imm hv.2.1 hv.2.2]; exact hm), rfl⟩
  | move_reg s t => exact ⟨_, parse_move_reg labels idx s t hv.1 hv.2, rfl⟩
  | add s t => exact ⟨_, parse_add labels idx s t hv.1 hv.2, rfl⟩
  | push s => exact ⟨_, parse_push labels idx s hv, rfl⟩
  | put s => exact ⟨_, parse_put labels idx s hv, rfl⟩
  | pop t => exact ⟨_, parse_pop labels idx t hv, rfl⟩
  | jmp lab =>
    obtain ⟨h1, h2, h3, -, -⟩ := hv
    refine ⟨⟨toU8 (toI8 (parse_label labels lab - idx - 1)), 0, 0, OP_JMP⟩, ?_, rfl⟩
    show parse labels ("jmp ".toList ++ lab ++ [LF]) idx = _
    rw [parse_jmp labels lab idx h2 h1, if_neg h3]
  | la t lab =>
    obtain ⟨ht, h1, h2, h3, -, -⟩ := hv
    refine ⟨⟨toU8 (toI8 (parse_label labels lab - idx - 1)), t, 0, OP_LA⟩, ?_, rfl⟩
    show parse labels ("la ".toList ++ reg_text t ++ ',' :: lab ++ [LF]) idx = _
    rw [parse_la labels t lab idx h2 ht, if_neg h3]
  | blez s lab =>
    obtain ⟨hs, h1, h2, h3, -, -⟩ := hv
    refine ⟨⟨toU8 (toI8 (parse_label labels lab - idx - 1)), 0, s, OP_BLEZ⟩, ?_, rfl⟩
    show parse labels ("blez ".toList ++ reg_text s ++ ',' :: lab ++ [LF]) idx = _
    rw [parse_blez labels s lab idx h2 hs, if_neg h3]

theorem C12_mnemonics_recognised_witness :
    parse [] ("NOP".toList ++ [LF]) 7 = .ok ⟨0, 0, 0, 0x01⟩
    ∧ parse [] ("nop".toList ++ [LF]) 7 = .error (.syntax_error 7)
    ∧ parse [] ("halt".toList ++ [LF]) 7 = .ok ⟨0, 0, 0, 0x00⟩
    ∧ parse [] ("iret".toList ++ [LF]) 7 = .ok ⟨0, 0, 0, 0x10⟩
    ∧ ∃ w, parse [] ((Instr.movei 3 (-2)).text ++ [LF]) 7 = .ok w
        ∧ w.b3 = ((Instr.movei 3 (-2)).fields (fun _ => 0)).1 :=
  C12_mnemonics_recognised [] 7 (.movei 3 (-2))
    ⟨by decide, by decide, by decide⟩ (by decide) (by show (-2 : Int) ≠ -1; decide)

/-- C18 counterexample: pass 1 completes on a source that defines `L` twice, and the label
table then holds the name `L` twice. -/
theorem C18_counterexample :
    ∃ st, pass1 dup_program Asm.init = .ok st
      ∧ st.label.map Prod.fst = [['L'], ['L']] ∧ ¬ (st.label.map Prod.fst).Nodup :=
  ⟨⟨["halt\n".toList, "jmp L\n".toList], [(['L'], 0), (['L'], 1)], 2⟩, by rfl, by rfl, by decide⟩

/-- C18 (amended): pass 1 does not check label names for uniqueness; after a pass 1 without
fatal error, `parse_label` resolves a name to the address of the first table entry with that
name, whatever entries follow it, provided the name is shorter than 30 characters or its
entry is the last one. -/
theorem C18_first_definition_wins (src : List (List Char)) (st : Asm)
    (pre post : List (List Char × Int)) (L : List Char) (A : Int)
    (h : pass1 src Asm.init = .ok st) (hl : st.label = pre ++ (L, A) :: post)
    (hpre : ∀ e ∈ pre, e.1 ≠ L) (hlen : L.length < MAX_LABEL_LENGTH ∨ post = []) :
    parse_label st.label L = A := by
  have hlen30 := pass1_len src Asm.init st h (by intro e he; cases he)
  rw [hl]
  exact parse_label_first_or_last pre post L A hpre
    (hlen30 (L, A) (by rw [hl]; simp)) hlen

theorem C18_first_definition_wins_witness :
    parse_label (⟨["halt\n".toList, "jmp L\n".toList], [(['L'], 0), (['L'], 1)], 2⟩ : Asm).label
      ['L'] = 0 :=
  C18_first_definition_wins dup_program
    ⟨["halt\n".toList, "jmp L\n".toList], [(['L'], 0), (['L'], 1)], 2⟩ [] [(['L'], 1)] ['L'] 0
    (by rfl) (by rfl) (by intro e he; cases he) (Or.inl (by decide))

theorem load_init_some (before : COMPUTER) (image : List Nat) :
    load_init before image = some (0, computer_load_init before image) := by
  unfold load_init read_ret
  rw [if_neg]
  have : min image.length (MAX_MEM_SIZE * 4) ≤ MAX_MEM_SIZE * 4 := Nat.min_le_right _ _
  omega

theorem load_first_word (before : COMPUTER) (b0 b1 b2 b3 : Nat) (rest : List Nat) :
    (computer_load_init before (b0 :: b1 :: b2 :: b3 :: rest)).mem 0
      = b0 % 256 + 256 * (b1 % 256) + 65536 * (b2 % 256) + 16777216 * (b3 % 256) := by
  have h : 4 ≤ min (b0 :: b1 :: b2 :: b3 :: rest).length (MAX_MEM_SIZE * 4) := by
    simp only [List.length_cons, MAX_MEM_SIZE]
    omega
  show loaded_byte _ _ _ (4 * 0) + 256 * loaded_byte _ _ _ (4 * 0 + 1)
    + 65536 * loaded_byte _ _ _ (4 * 0 + 2) + 16777216 * loaded_byte _ _ _ (4 * 0 + 3) = _
  unfold loaded_byte
  rw [if_pos (by omega), if_pos (by omega), if_pos (by omega), if_pos (by omega)]
  rfl

theorem first_cycle_movei (cp : COMPUTER) (hpc : cp.PC = 0) (hm : cp.mem 0 = 67108936)
    (hc : cp.counter = 0) (hp : cp.PSR = 1) :
    ∃ c1, cpu_cycle cp = .next c1 ∧ c1.PC = 1 ∧ c1.R 0 = 72 := by
  refine ⟨_, cpu_cycle_step cp _ 67108936 4 0 0 72 (by rw [hpc]; decide) (by rw [hpc]; exact hm)
    (by decide) rfl (by show cp.counter + 1 < 5000; rw [hc]; decide)
    (by show cp.PSR.testBit 1 = false; rw [hp]; decide), ?_, rfl⟩
  show incPC cp.PC = 1
  rw [hpc]; rfl

/-- C20 (the code at the failing input): an image of 129 words (516 bytes) is not a load
error: `computer_load_init` returns 0 with the first word of the image in `memory[0]`, and the
machine runs (its first cycle executes `movei R0,72`). The test for an image that is too big
never fires for any image, because `read` is asked for at most 512 bytes. -/
theorem C20_oversized_image_is_loaded :
    big_image.length = 516
    ∧ (∀ before image, load_init before image = some (0, computer_load_init before image))
    ∧ (computer_load_init demo_computer big_image).mem 0 = 72 + 16777216 * 4
    ∧ ∃ cp, cycles 1 (start_state demo_computer big_image 0) = some cp ∧ cp.R 0 = 72
        ∧ cp.PC = 1 := by
  have hm : (computer_load_init demo_computer big_image).mem 0 = 67108936 := by
    unfold big_image
    rw [load_first_word]
  have hl : big_image.length = 516 := by
    unfold big_image
    simp only [List.length_cons, List.length_replicate]
  obtain ⟨c1, s1, p1, r1⟩ := first_cycle_movei (start_state demo_computer big_image 0) rfl hm
    rfl rfl
  exact ⟨hl, load_init_some, hm, c1, by rw [cycles_next 0 _ c1 s1]; rfl, r1, p1⟩

/-! ## Syntax errors of `parse` -/

theorem scan_from_split (p q : Char → Bool) (hq : ∀ c, q c = !p c) (l : List Char) (i : Nat) :
    (l.dropWhile q = [] → scan_from p l i = -1)
    ∧ (l.dropWhile q ≠ [] → scan_from p l i = ((i + (l.takeWhile q).length : Nat) : Int)) := by
  induction l generalizing i with
  | nil => simp [scan_from]
  | cons x xs ih =>
    cases hx : p x with
    | true =>
      have hqx : q x = false := by rw [hq, hx]; rfl
      simp [scan_from, hx, List.dropWhile_cons, List.takeWhile_cons, hqx]
    | false =>
      have hqx : q x = true := by rw [hq, hx]; rfl
      simp only [scan_from, hx, List.dropWhile_cons, List.takeWhile_cons, hqx, if_true,
        List.length_cons]
      obtain ⟨h1, h2⟩ := ih (i + 1)
      refine ⟨fun h => by simpa using h1 h, fun h => ?_⟩
      have := h2 h
      simp only [Bool.false_eq_true, if_false]
      rw [this]
      push_cast
      omega

theorem drop_takeWhile_length (p : Char → Bool) (l : List Char) :
    l.drop (l.takeWhile p).length = l.dropWhile p := by
  induction l with
  | nil => rfl
  | cons x xs ih =>
    cases hx : p x with
    | true => simp [List.takeWhile_cons, List.dropWhile_cons, hx, ih]
    | false => simp [List.takeWhile_cons, List.dropWhile_cons, hx]

theorem parse_imm_position (labels : List (List Char × Int)) (idx : Int) (s t : Nat)
    (d : List Char) (hs : s ≤ 64) (ht : t ≤ 64) (hd : ∀ c ∈ d, isspace c = false ∧ c ≠ ';')
    (hm : parse_imm d ≠ -1) :
    parse labels ("addi ".toList ++ reg_text s ++ ',' :: reg_text t ++ ',' :: d ++ [LF]) idx
      = .ok ⟨toU8 (parse_imm d), t, s, OP_ADDI⟩
    ∧ parse labels ("lw ".toList ++ reg_text s ++ ',' :: reg_text t ++ ',' :: d ++ [LF]) idx
      = .ok ⟨toU8 (parse_imm d), t, s, OP_LW⟩
    ∧ parse labels ("sw ".toList ++ reg_text s ++ ',' :: reg_text t ++ ',' :: d ++ [LF]) idx
      = .ok ⟨toU8 (parse_imm d), t, s, OP_SW⟩
    ∧ parse labels ("movei ".toList ++ reg_text t ++ ',' :: d ++ [LF]) idx
      = .ok ⟨toU8 (parse_imm d), t, 0, OP_MOVEI⟩ := by
  have e1 : "addi ".toList ++ reg_text s ++ ',' :: reg_text t ++ ',' :: d ++ [LF]
      = ['a', 'd', 'd', 'i'] ++ ' ' :: (reg_text s ++ ',' :: (reg_text t ++ ',' :: d)) ++ [LF] := by
    simp [String.toList]
  have e2 : "lw ".toList ++ reg_text s ++ ',' :: reg_text t ++ ',' :: d ++ [LF]
      = ['l', 'w'] ++ ' ' :: (reg_text s ++ ',' :: (reg_text t ++ ',' :: d)) ++ [LF] := by
    simp [String.toList]
  have e3 : "sw ".toList ++ reg_text s ++ ',' :: reg_text t ++ ',' :: d ++ [LF]
      = ['s', 'w'] ++ ' ' :: (reg_text s ++ ',' :: (reg_text t ++ ',' :: d)) ++ [LF] := by
    simp [String.toList]
  have e4 : "movei ".toList ++ reg_text t ++ ',' :: d ++ [LF]
      = ['m', 'o', 'v', 'e', 'i'] ++ ' ' :: (reg_text t ++ ',' :: d) ++ [LF] := by
    simp [String.toList]
  have hb : (parse_imm d == -1) = false := by simpa using hm
  refine ⟨?_, ?_, ?_, ?_⟩
  · rw [e1, parse_ops_line labels _ _ idx (by simp) (by decide) (by decide)
      (sep_tok _ _ (reg_tok s) (sep_tok _ _ (reg_tok t) hd)) (len_sep _ _ (reg_text_length s))
      (by decide)]
    unfold parse_operands
    rw [parse_sti_sti s t hs ht, hb]
    rfl
  · rw [e2, parse_ops_line labels _ _ idx (by simp) (by decide) (by decide)
      (sep_tok _ _ (reg_tok s) (sep_tok _ _ (reg_tok t) hd)) (len_sep _ _ (reg_text_length s))
      (by decide)]
    unfold parse_operands
    rw [parse_sti_sti s t hs ht, hb]
    rfl
  · rw [e3, parse_ops_line labels _ _ idx (by simp) (by decide) (by decide)
      (sep_tok _ _ (reg_tok s) (sep_tok _ _ (reg_tok t) hd)) (len_sep _ _ (reg_text_length s))
      (by decide)]
    unfold parse_operands
    rw [parse_sti_sti s t hs ht, hb]
    rfl
  · rw [e4, parse_ops_line labels _ _ idx (by simp) (by decide) (by decide)
      (sep_tok _ _ (reg_tok t) hd) (len_sep _ _ (reg_text_length t)) (by decide)]
    unfold parse_operands
    rw [parse_sti_ti t ht, hb]
    rfl

theorem cAt_takeWhile_length (p : Char → Bool) (l : List Char) :
    cAt l (l.takeWhile p).length = (l.dropWhile p).headD NUL := by
  induction l with
  | nil => rfl
  | cons x xs ih =>
    cases hx : p x with
    | true =>
      simp only [List.takeWhile_cons, List.dropWhile_cons, hx, if_true, List.length_cons]
      unfold cAt at ih ⊢
      simpa using ih
    | false =>
      simp [List.takeWhile_cons, List.dropWhile_cons, hx, cAt]

theorem dropWhile_take (p : Char → Bool) (l : List Char) (n : Nat)
    (h : (l.takeWhile p).length ≤ n) :
    (l.take n).dropWhile p = (l.take n).drop (l.takeWhile p).length := by
  induction l generalizing n with
  | nil => simp
  | cons x xs ih =>
    cases hx : p x with
    | true =>
      simp only [List.takeWhile_cons, hx, if_true, List.length_cons] at h ⊢
      obtain ⟨m, rfl⟩ : ∃ m, n = m + 1 := ⟨n - 1, by omega⟩
      simp only [List.take_succ_cons, List.dropWhile_cons, hx, if_true, List.drop_succ_cons]
      exact ih m (by omega)
    | false =>
      simp only [List.takeWhile_cons, hx, List.length_nil, List.drop_zero]
      cases n with
      | zero => simp
      | succ m => simp [List.dropWhile_cons, hx]

theorem first_non_whitespace_none (line : List Char) (h : lstrip line = []) :
    first_non_whitespace line 0 = -1 := by
  unfold first_non_whitespace
  rw [List.drop_zero]
  exact (scan_from_split (fun x => !isspace x) isspace (fun c => by simp) line 0).1 h

theorem first_non_whitespace_some (line : List Char) (h : lstrip line ≠ []) :
    first_non_whitespace line 0 = (((line.takeWhile isspace).length : Nat) : Int) := by
  unfold first_non_whitespace
  rw [List.drop_zero,
    (scan_from_split (fun x => !isspace x) isspace (fun c => by simp) line 0).2 h, Nat.zero_add]

theorem discarded_iff (line : List Char) :
    discarded line = true ↔ (first_non_whitespace line 0 = -1
      ∨ cAt line (first_non_whitespace line 0).toNat = ';') := by
  unfold discarded
  cases hl : lstrip line with
  | nil => simp [first_non_whitespace_none line hl]
  | cons c cs =>
    have hne : lstrip line ≠ [] := by rw [hl]; simp
    have hc : cAt line (line.takeWhile isspace).length = c := by
      rw [cAt_takeWhile_length]
      show (lstrip line).headD NUL = c
      rw [hl]; rfl
    rw [first_non_whitespace_some line hne]
    simp only [Int.toNat_ofNat, hc]
    constructor
    · intro h; right; simpa using h
    · rintro (h | h)
      · omega
      · simpa using h

theorem rtrim_idx_le (line : List Char) (n : Nat) : rtrim_idx line n ≤ n := by
  induction n with
  | zero => exact le_refl _
  | succ m ih =>
    unfold rtrim_idx
    split_ifs
    · omega
    · exact le_refl _

theorem code_end_le (line : List Char) : code_end line ≤ line.length := by
  unfold code_end first_char
  simp only [List.drop_zero]
  refine le_trans (rtrim_idx_le _ _) ?_
  obtain ⟨k1, k2⟩ := scan_from_split (fun x => x == ';') (fun x => !(x == ';')) (fun _ => rfl)
    line 0
  by_cases hd : line.dropWhile (fun x => !(x == ';')) = []
  · rw [k1 hd, if_pos rfl]
  · rw [k2 hd, if_neg (by omega)]
    simp only [Nat.zero_add, Int.toNat_ofNat]
    exact (List.takeWhile_prefix _).length_le

theorem cAt_lt_takeWhile (p : Char → Bool) (l : List Char) (j : Nat)
    (h : j < (l.takeWhile p).length) : p (cAt l j) = true := by
  induction l generalizing j with
  | nil => simp at h
  | cons x xs ih =>
    cases hx : p x with
    | false => simp [List.takeWhile_cons, hx] at h
    | true =>
      simp only [List.takeWhile_cons, hx, if_true, List.length_cons] at h
      cases j with
      | zero => simpa [cAt] using hx
      | succ m =>
        have := ih m (by omega)
        simpa [cAt] using this

theorem cAt_ne_NUL_lt (l : List Char) (j : Nat) (h : cAt l j ≠ NUL) : j < l.length := by
  by_contra hc
  apply h
  unfold cAt
  rw [List.getD_eq_getElem?_getD, List.getElem?_eq_none (by omega)]
  rfl

theorem is_symbol_ok (line : List Char) (s : Int) (h : is_symbol line = .ok s) (hs : s ≠ 0) :
    s = ((code_end line - 1 : Nat) : Int) ∧ cAt line (code_end line - 1) = ':'
      ∧ cAt line (first_non_whitespace line 0).toNat ≠ '.' := by
  unfold is_symbol at h
  simp only at h
  split_ifs at h with h1 h2 h3 h4
  · cases h; exact absurd rfl hs
  · cases h; exact ⟨rfl, h2, h1⟩
  · cases h; exact absurd rfl hs

theorem label_text_eq (line : List Char)
    (hc : cAt line (code_end line - 1) = ':') :
    (line.takeWhile isspace).length ≤ code_end line - 1
    ∧ label_text line
      = (line.drop (line.takeWhile isspace).length).take
          (code_end line - 1 - (line.takeWhile isspace).length)
    ∧ label_text line = (line.take (code_end line - 1)).drop (line.takeWhile isspace).length := by
  have hlt : code_end line - 1 < line.length :=
    cAt_ne_NUL_lt line _ (by rw [hc]; decide)
  have hk : (line.takeWhile isspace).length ≤ code_end line - 1 := by
    by_contra hcon
    have := cAt_lt_takeWhile isspace line (code_end line - 1) (by omega)
    rw [hc] at this
    exact absurd this (by decide)
  have e1 : (line.take (code_end line)).dropLast = line.take (code_end line - 1) := by
    rw [List.dropLast_eq_take, List.take_take, List.length_take]
    congr 1
    have := code_end_le line
    omega
  have e2 : label_text line
      = (line.take (code_end line - 1)).drop (line.takeWhile isspace).length := by
    unfold label_text
    rw [e1, dropWhile_take isspace line _ hk]
  refine ⟨hk, ?_, e2⟩
  rw [e2, List.drop_take]

theorem handle_line_spec (st st' : Asm) (line : List Char) (h : handle_line st line = .ok st') :
    st' = if discarded line then st
      else if label_line line then
        { st with label := st.label ++ [(label_text line, st.address)] }
      else { st with address := st.address + 1, code := st.code ++ [lstrip line] } := by
  have hdi := discarded_iff line
  unfold handle_line at h
  simp only at h
  by_cases hd : discarded line = true
  · rw [if_pos (hdi.1 hd)] at h
    rw [if_pos hd]
    cases h; rfl
  · rw [if_neg (fun hh => hd (hdi.2 hh))] at h
    rw [if_neg hd]
    have hnd : lstrip line ≠ [] := by
      intro hh
      apply hd
      unfold discarded
      rw [hh]
    have hi := first_non_whitespace_some line hnd
    cases hsym : is_symbol line with
    | error e => rw [hsym] at h; cases h
    | ok s =>
      rw [hsym] at h
      simp only at h
      have hll : label_line line = (s != 0) := by
        unfold label_line
        rw [hsym]
        simp [hd]
      by_cases hs : s = 0
      · rw [if_neg (by simpa using hs)] at h
        rw [if_neg (by rw [hll]; simp [hs])]
        split_ifs at h
        cases h
        rw [hi, Int.toNat_ofNat, drop_takeWhile_length]
        rfl
      · rw [if_pos hs] at h
        rw [if_pos (by rw [hll]; simpa using hs)]
        split_ifs at h
        cases h
        obtain ⟨e1, e2, -⟩ := is_symbol_ok line s hsym hs
        obtain ⟨hk, e3, -⟩ := label_text_eq line e2
        have e4 : (s - first_non_whitespace line 0).toNat
            = code_end line - 1 - (line.takeWhile isspace).length := by
          rw [e1, hi]; omega
        rw [e4, hi, Int.toNat_ofNat, ← e3]

theorem code_lines_snoc (before : List (List Char)) (l : List Char) :
    code_lines (before ++ [l])
      = code_lines before
        ++ (if (!discarded (cstr l) && !label_line (cstr l)) = true then [lstrip (cstr l)]
            else []) := by
  unfold code_lines
  rw [List.map_append, List.filter_append, List.map_append]
  congr 1
  by_cases h : (!discarded (cstr l) && !label_line (cstr l)) = true
  · rw [if_pos h]
    simp only [List.map_cons, List.map_nil]
    rw [List.filter_cons_of_pos (by simpa using h)]
    rfl
  · rw [if_neg h]
    simp only [List.map_cons, List.map_nil]
    rw [List.filter_cons_of_neg (by simpa using h)]
    rfl

theorem label_line_not_discarded (line : List Char) (h : discarded line = true) :
    label_line line = false := by
  unfold label_line
  rw [h]
  rfl

theorem pass1_spec (rest before : List (List Char)) (st1 st : Asm)
    (h : pass1 rest st1 = .ok st) (hc : st1.code = code_lines before)
    (ha : st1.address = ((code_lines before).length : Int)) :
    st.code = code_lines (before ++ rest)
    ∧ st.label = st1.label ++ label_entries before rest
    ∧ st.address = ((code_lines (before ++ rest)).length : Int) := by
  induction rest generalizing before st1 with
  | nil =>
    cases h
    simp [label_entries, hc, ha]
  | cons l ls ih =>
    unfold pass1 at h
    cases hh : handle_line st1 (cstr l) with
    | error e => rw [hh] at h; cases h
    | ok st2 =>
      rw [hh] at h
      simp only at h
      have hs := handle_line_spec st1 st2 (cstr l) hh
      have hsn := code_lines_snoc before l
      have key : st2.code = code_lines (before ++ [l])
          ∧ st2.address = ((code_lines (before ++ [l])).length : Int)
          ∧ st2.label = st1.label
              ++ (if label_line (cstr l) then
                    [(label_text (cstr l), ((code_lines before).length : Int))] else []) := by
        by_cases hd : discarded (cstr l) = true
        · rw [if_pos hd] at hs
          have hl := label_line_not_discarded _ hd
          rw [hsn, hd, hl, hs]
          simp [hc, ha]
        · rw [if_neg hd] at hs
          have hd' : discarded (cstr l) = false := by simpa using hd
          by_cases hl : label_line (cstr l) = true
          · rw [if_pos hl] at hs
            rw [hsn, hd', hl, hs]
            simp [hc, ha]
          · rw [if_neg hl] at hs
            have hl' : label_line (cstr l) = false := by simpa using hl
            rw [hsn, hd', hl', hs]
            simp [hc, ha]
      obtain ⟨k1, k2, k3⟩ := key
      obtain ⟨r1, r2, r3⟩ := ih (before ++ [l]) st2 h k1 k2
      rw [List.append_assoc] at r1 r3
      refine ⟨r1, ?_, r3⟩
      rw [r2, k3, List.append_assoc]
      rfl

theorem label_entries_mem (rest before : List (List Char)) (e : List Char × Int) :
    e ∈ label_entries before rest ↔
      ∃ pre l post, rest = pre ++ l :: post ∧ label_line (cstr l) = true
        ∧ e = (label_text (cstr l), ((code_lines (before ++ pre)).length : Int)) := by
  induction rest generalizing before with
  | nil => simp [label_entries]
  | cons x xs ih =>
    unfold label_entries
    rw [List.mem_append, ih]
    constructor
    · rintro (h | ⟨pre, l, post, h1, h2, h3⟩)
      · by_cases hx : label_line (cstr x) = true
        · rw [if_pos hx] at h
          simp only [List.mem_singleton] at h
          exact ⟨[], x, xs, rfl, hx, by simpa using h⟩
        · rw [if_neg hx] at h
          simp at h
      · refine ⟨x :: pre, l, post, by rw [h1]; rfl, h2, ?_⟩
        rw [h3, List.append_assoc]
        rfl
    · rintro ⟨pre, l, post, h1, h2, h3⟩
      cases pre with
      | nil =>
        simp only [List.nil_append, List.cons.injEq] at h1
        obtain ⟨rfl, rfl⟩ := h1
        left
        rw [if_pos h2, h3]
        simp
      | cons y ys =>
        simp only [List.cons_append, List.cons.injEq] at h1
        obtain ⟨rfl, rfl⟩ := h1
        right
        refine ⟨ys, l, post, rfl, h2, ?_⟩
        rw [h3, List.append_assoc]
        rfl

theorem cAt_code_end_last (line : List Char) (c : Char)
    (h : (line.take (code_end line)).getLast? = some c) : cAt line (code_end line - 1) = c := by
  have hle := code_end_le line
  have hpos : 0 < code_end line := by
    by_contra hc
    have : code_end line = 0 := by omega
    rw [this] at h
    simp at h
  rw [List.getLast?_eq_getElem?, List.length_take, List.getElem?_take] at h
  have e : min (code_end line) line.length - 1 = code_end line - 1 := by omega
  rw [e, if_pos (by omega)] at h
  unfold cAt
  rw [List.getD_eq_getElem?_getD, h]
  rfl

theorem code_end_last_of_cAt (line : List Char) (c : Char) (hc : c ≠ NUL)
    (hpos : 0 < code_end line) (h : cAt line (code_end line - 1) = c) :
    (line.take (code_end line)).getLast? = some c := by
  have hlt : code_end line - 1 < line.length := cAt_ne_NUL_lt line _ (by rw [h]; exact hc)
  rw [List.getLast?_eq_getElem?, List.length_take, List.getElem?_take]
  have e : min (code_end line) line.length - 1 = code_end line - 1 := by omega
  rw [e, if_pos (by omega)]
  unfold cAt at h
  rw [List.getD_eq_getElem?_getD, List.getElem?_eq_getElem hlt] at h
  rw [List.getElem?_eq_getElem hlt]
  simpa using h

theorem label_line_iff (line : List Char) (hok : ∃ s, is_symbol line = .ok s)
    (hnd : discarded line = false) :
    label_line line = true ↔
      ((lstrip line).head? ≠ some '.' ∧ (line.take (code_end line)).getLast? = some ':'
        ∧ code_end line ≠ 1) := by
  have hne : lstrip line ≠ [] := by
    intro hh
    unfold discarded at hnd
    rw [hh] at hnd
    cases hnd
  have hi := first_non_whitespace_some line hne
  have hhead : cAt line (line.takeWhile isspace).length = '.' ↔ (lstrip line).head? = some '.' := by
    rw [cAt_takeWhile_length]
    show (lstrip line).headD NUL = '.' ↔ _
    cases hl : lstrip line with
    | nil => exact absurd hl hne
    | cons x xs => simp
  obtain ⟨s, hs⟩ := hok
  have hll : label_line line = (s != 0) := by
    unfold label_line
    rw [hs, hnd]
    rfl
  rw [hll]
  unfold is_symbol at hs
  simp only [hi, Int.toNat_ofNat] at hs
  split_ifs at hs with h1 h2 h3 h4
  · cases hs
    simp only [bne_self_eq_false, Bool.false_eq_true, false_iff]
    rintro ⟨h, -, -⟩
    exact h (hhead.1 h1)
  · cases hs
    by_cases hz : code_end line = 0
    · simp [hz]
    · have hg := code_end_last_of_cAt line ':' (by decide) (by omega) h2
      constructor
      · intro h
        refine ⟨fun hh => h1 (hhead.2 hh), hg, ?_⟩
        simp only [bne_iff_ne, ne_eq] at h
        omega
      · rintro ⟨-, -, h⟩
        simp only [bne_iff_ne, ne_eq]
        omega
  · cases hs
    simp only [bne_self_eq_false, Bool.false_eq_true, false_iff]
    rintro ⟨-, h, -⟩
    exact h2 (cAt_code_end_last line ':' h)

theorem pass1_is_symbol_ok (src : List (List Char)) (st0 st : Asm)
    (h : pass1 src st0 = .ok st) :
    ∀ l ∈ src, discarded (cstr l) = false → ∃ s, is_symbol (cstr l) = .ok s := by
  induction src generalizing st0 with
  | nil => intro l hl; cases hl
  | cons x xs ih =>
    unfold pass1 at h
    cases hh : handle_line st0 (cstr x) with
    | error e => rw [hh] at h; cases h
    | ok st1 =>
      rw [hh] at h
      intro l hl hd
      rcases List.mem_cons.1 hl with rfl | hl
      · have hdi := discarded_iff (cstr l)
        unfold handle_line at hh
        simp only at hh
        rw [if_neg (fun hx => by rw [hdi.2 hx] at hd; cases hd)] at hh
        cases hsym : is_symbol (cstr l) with
        | error e => rw [hsym] at hh; cases hh
        | ok s => exact ⟨s, rfl⟩
      · exact ih st1 h l hl hd

/-- C16: for every sequence of source lines on which pass 1 raises no fatal error, the code
table holds exactly the lines that are neither discarded (blank, or with `;` as first
non-whitespace character) nor label lines, in source order, each from its first
non-whitespace character; the label table holds one entry per label line, in source order;
and every recorded label is the label of a label line of the source, with address equal to the
number of code lines retained before that line. A label line is a line in which `is_symbol`
finds a label: among the lines of such a source that are not discarded, those that do not
start with `.` and whose code part ends in `:`, the code part `:` at column 0 apart. -/
theorem C16_pass1_classifies_lines (src : List (List Char)) (st : Asm)
    (h : pass1 src Asm.init = .ok st) :
    st.code = code_lines src
    ∧ st.label = label_entries [] src
    ∧ st.address = ((code_lines src).length : Int)
    ∧ (∀ e ∈ st.label, ∃ pre l post, src = pre ++ l :: post ∧ label_line (cstr l) = true
        ∧ e = (label_text (cstr l), ((code_lines pre).length : Int)))
    ∧ (∀ pre l post, src = pre ++ l :: post → label_line (cstr l) = true →
        (label_text (cstr l), ((code_lines pre).length : Int)) ∈ st.label)
    ∧ (∀ l ∈ src, discarded (cstr l) = false →
        (label_line (cstr l) = true ↔
          ((lstrip (cstr l)).head? ≠ some '.'
            ∧ ((cstr l).take (code_end (cstr l))).getLast? = some ':'
            ∧ code_end (cstr l) ≠ 1))) := by
  obtain ⟨h1, h2, h3⟩ := pass1_spec src [] Asm.init st h rfl rfl
  rw [List.nil_append] at h1 h3
  have h2' : st.label = label_entries [] src := by
    rw [h2]; rfl
  refine ⟨h1, h2', h3, ?_, ?_, ?_⟩
  · intro e he
    rw [h2'] at he
    simpa using (label_entries_mem src [] e).1 he
  · intro pre l post hsrc hl
    rw [h2']
    exact (label_entries_mem src [] _).2 ⟨pre, l, post, hsrc, hl, by simp⟩
  · intro l hl hd
    exact label_line_iff (cstr l) (pass1_is_symbol_ok src Asm.init st h l hl hd) hd

theorem C16_pass1_classifies_lines_witness :
    skip_pass1.code = code_lines skip_program
    ∧ skip_pass1.label = label_entries [] skip_program
    ∧ skip_pass1.address = ((code_lines skip_program).length : Int)
    ∧ (∀ e ∈ skip_pass1.label, ∃ pre l post, skip_program = pre ++ l :: post
        ∧ label_line (cstr l) = true
        ∧ e = (label_text (cstr l), ((code_lines pre).length : Int)))
    ∧ (∀ pre l post, skip_program = pre ++ l :: post → label_line (cstr l) = true →
        (label_text (cstr l), ((code_lines pre).length : Int)) ∈ skip_pass1.label)
    ∧ (∀ l ∈ skip_program, discarded (cstr l) = false →
        (label_line (cstr l) = true ↔
          ((lstrip (cstr l)).head? ≠ some '.'
            ∧ ((cstr l).take (code_end (cstr l))).getLast? = some ':'
            ∧ code_end (cstr l) ≠ 1))) :=
  C16_pass1_classifies_lines skip_program skip_pass1 (by rfl)

/-! ## Label lines that pass 1 rejects -/

theorem is_symbol_bad (line : List Char) (hnd : discarded line = false)
    (hdot : (lstrip line).head? ≠ some '.')
    (hcolon : (line.take (code_end line)).getLast? = some ':')
    (hbad : (∃ c ∈ label_text line, label_char c = false)
      ∨ MAX_LABEL_LENGTH < (label_text line).length) :
    ∃ e, is_symbol line = .error e
      ∧ (e = .label_too_long (label_text line) ∨ ∃ t, e = .label_invalid t) := by
  have hne : lstrip line ≠ [] := by
    intro hh
    unfold discarded at hnd
    rw [hh] at hnd
    cases hnd
  have hi := first_non_whitespace_some line hne
  have hc := cAt_code_end_last line ':' hcolon
  obtain ⟨hk, -, e3⟩ := label_text_eq line hc
  have hlt : code_end line - 1 < line.length := cAt_ne_NUL_lt line _ (by rw [hc]; decide)
  have hlen : (label_text line).length = code_end line - 1 - (line.takeWhile isspace).length := by
    rw [e3, List.length_drop, List.length_take]
    omega
  have hd : cAt line (line.takeWhile isspace).length ≠ '.' := by
    rw [cAt_takeWhile_length]
    intro hh
    apply hdot
    show (line.dropWhile isspace).head? = some '.'
    cases hl : line.dropWhile isspace with
    | nil => exact absurd hl hne
    | cons x xs =>
      rw [hl] at hh
      simp only [List.headD_cons] at hh
      rw [hh]
      rfl
  unfold is_symbol
  simp only [hi, Int.toNat_ofNat]
  rw [if_neg hd, if_pos hc]
  by_cases hlong : ((code_end line - 1 : Nat) : Int) - ((line.takeWhile isspace).length : Nat)
      > (MAX_LABEL_LENGTH : Nat)
  · rw [if_pos hlong]
    exact ⟨_, rfl, Or.inl (by rw [e3])⟩
  · rw [if_neg hlong]
    have hchar : ∃ c ∈ label_text line, label_char c = false := by
      rcases hbad with h | h
      · exact h
      · exfalso
        apply hlong
        rw [hlen] at h
        omega
    obtain ⟨c, hcm, hcb⟩ := hchar
    have hsc : scan_from (fun c => !isalnum c && c != '_')
        ((line.take (code_end line - 1)).drop (line.takeWhile isspace).length)
        (line.takeWhile isspace).length ≠ -1 := by
      intro hh
      have := scan_from_all _ _ _ hh c (by rw [← e3]; exact hcm)
      unfold label_char at hcb
      cases ha : isalnum c <;> simp_all
    rw [if_neg hsc]
    exact ⟨_, rfl, Or.inr ⟨_, rfl⟩⟩

theorem handle_line_bad (st : Asm) (line : List Char) (hnd : discarded line = false)
    (e : Fatal) (h : is_symbol line = .error e) : handle_line st line = .error e := by
  have hdi := discarded_iff line
  unfold handle_line
  simp only
  rw [if_neg (fun hh => by rw [hdi.2 hh] at hnd; cases hnd), h]

theorem pass1_error_at (pre post : List (List Char)) (l : List Char) (st0 : Asm)
    (h : ∀ st, ∃ e, handle_line st (cstr l) = .error e) :
    ∃ e, pass1 (pre ++ l :: post) st0 = .error e := by
  induction pre generalizing st0 with
  | nil =>
    obtain ⟨e, he⟩ := h st0
    exact ⟨e, by rw [List.nil_append, pass1, he]⟩
  | cons x xs ih =>
    rw [List.cons_append, pass1]
    cases hx : handle_line st0 (cstr x) with
    | error e => exact ⟨e, rfl⟩
    | ok st1 => exact ih st1

/-- C17 counterexample: an empty label text is no fatal error. Pass 1 on the line ` :`
(a blank, then the colon) completes and records a label with the empty name; pass 1 on the
line `:` completes, records no label and retains the line as a code line. -/
theorem C17_counterexample :
    pass1 [" :\n".toList] Asm.init = .ok ⟨[], [([], 0)], 0⟩
    ∧ label_text (cstr " :\n".toList) = []
    ∧ pass1 [":\n".toList] Asm.init = .ok ⟨[":\n".toList], [], 1⟩
    ∧ label_text (cstr ":\n".toList) = [] := by
  refine ⟨by rfl, by rfl, by rfl, by rfl⟩

/-- C17 (amended): for every line that is not discarded, whose first non-whitespace character
is not `.`, and whose code part ends in `:`, if the text between the first non-whitespace
character and that `:` contains a character other than an alphanumeric or `_`, or is longer
than 30 characters, then `handle_line` aborts with a fatal label error in every state, so no
label is recorded for the line, and pass 1 on any source containing the line aborts. -/
theorem C17_bad_label_aborts (st : Asm) (l : List Char) (pre post : List (List Char))
    (hnd : discarded (cstr l) = false)
    (hdot : (lstrip (cstr l)).head? ≠ some '.')
    (hcolon : ((cstr l).take (code_end (cstr l))).getLast? = some ':')
    (hbad : (∃ c ∈ label_text (cstr l), label_char c = false)
      ∨ MAX_LABEL_LENGTH < (label_text (cstr l)).length) :
    (∃ e, handle_line st (cstr l) = .error e
      ∧ (e = .label_too_long (label_text (cstr l)) ∨ ∃ t, e = .label_invalid t))
    ∧ ∃ e, pass1 (pre ++ l :: post) Asm.init = .error e := by
  obtain ⟨e, he, hk⟩ := is_symbol_bad (cstr l) hnd hdot hcolon hbad
  refine ⟨⟨e, handle_line_bad st _ hnd e he, hk⟩, ?_⟩
  exact pass1_error_at pre post l Asm.init (fun st1 => ⟨e, handle_line_bad st1 _ hnd e he⟩)

theorem C17_bad_label_aborts_witness :
    (∃ e, handle_line Asm.init (cstr "a-b:\n".toList) = .error e
      ∧ (e = .label_too_long (label_text (cstr "a-b:\n".toList)) ∨ ∃ t, e = .label_invalid t))
    ∧ ∃ e, pass1 (["halt\n".toList] ++ "a-b:\n".toList :: []) Asm.init = .error e :=
  C17_bad_label_aborts Asm.init "a-b:\n".toList ["halt\n".toList] [] (by decide) (by decide)
    (by decide) (Or.inl ⟨'-', by decide, by decide⟩)

/-! ## The `.word` directive -/

theorem cAt_drop (l : List Char) (k n : Nat) : cAt (l.drop k) n = cAt l (k + n) := by
  unfold cAt
  simp [List.getD_eq_getElem?_getD, List.getElem?_drop]

theorem drop_skip_while (p : Char → Bool) (line : List Char) (k : Nat) :
    line.drop (skip_while p line k) = (line.drop k).dropWhile p := by
  unfold skip_while
  rw [← List.drop_drop, drop_takeWhile_length]

theorem cAt_skip_while (p : Char → Bool) (line : List Char) (k : Nat) :
    cAt line (skip_while p line k) = ((line.drop k).dropWhile p).headD NUL := by
  unfold skip_while
  rw [← cAt_drop, cAt_takeWhile_length]

theorem first_non_whitespace_at (line : List Char) (k : Nat) :
    ((line.drop k).dropWhile isspace = [] → first_non_whitespace line k = -1)
    ∧ ((line.drop k).dropWhile isspace ≠ [] →
        0 ≤ first_non_whitespace line k
        ∧ cAt line (first_non_whitespace line k).toNat
            = ((line.drop k).dropWhile isspace).headD NUL) := by
  obtain ⟨h1, h2⟩ := scan_from_split (fun x => !isspace x) isspace (fun c => by simp)
    (line.drop k) k
  unfold first_non_whitespace
  refine ⟨h1, fun h => ?_⟩
  rw [h2 h]
  refine ⟨by omega, ?_⟩
  rw [Int.toNat_ofNat, ← cAt_drop, cAt_takeWhile_length]

theorem parse_word_ok_or_error (line : List Char) (idx : Int) :
    (∃ w, parse_word line idx = .ok w) ∨ parse_word line idx = .error (.syntax_error idx) := by
  unfold parse_word
  simp only
  split_ifs <;> first
    | exact Or.inr rfl
    | exact Or.inl ⟨_, rfl⟩

theorem parse_word_ok_iff (line : List Char) (idx : Int) :
    (∃ w, parse_word line idx = .ok w) ↔
      ((line.drop 1).take 4 = ['w', 'o', 'r', 'd'] ∧ isspace (cAt line 5) = true
        ∧ (((line.drop 6).dropWhile isspace).headD NUL = '-'
            ∨ isdigit (((line.drop 6).dropWhile isspace).headD NUL) = true)
        ∧ (isspace (((((line.drop 6).dropWhile isspace).drop 1).dropWhile isdigit).headD NUL)
              = true
            ∨ ((((line.drop 6).dropWhile isspace).drop 1).dropWhile isdigit).headD NUL = ';')
        ∧ ((((((line.drop 6).dropWhile isspace).drop 1).dropWhile isdigit).dropWhile isspace)
              = []
            ∨ (((((line.drop 6).dropWhile isspace).drop 1).dropWhile isdigit).dropWhile
                isspace).headD NUL = NUL
            ∨ (((((line.drop 6).dropWhile isspace).drop 1).dropWhile isdigit).dropWhile
                isspace).headD NUL = ';')) := by
  have e1 := cAt_skip_while isspace line 6
  have e2 := cAt_skip_while isdigit line (skip_while isspace line 6 + 1)
  have e3 : line.drop (skip_while isspace line 6 + 1)
      = ((line.drop 6).dropWhile isspace).drop 1 := by
    rw [← List.drop_drop, drop_skip_while]
  rw [e3] at e2
  have e4 := drop_skip_while isdigit line (skip_while isspace line 6 + 1)
  rw [e3] at e4
  obtain ⟨f1, f2⟩ := first_non_whitespace_at line
    (skip_while isdigit line (skip_while isspace line 6 + 1))
  rw [e4] at f1 f2
  unfold parse_word
  simp only
  rw [e1, e2]
  generalize (line.drop 6).dropWhile isspace = r1 at *
  generalize (r1.drop 1).dropWhile isdigit = r2 at *
  by_cases c1 : (line.drop 1).take 4 = ['w', 'o', 'r', 'd']
  swap
  · rw [if_neg c1]
    simp only [throw_syntax_error]
    constructor
    · rintro ⟨w, hw⟩; cases hw
    · rintro ⟨h, -⟩
      exact absurd h c1
  rw [if_pos c1]
  by_cases c2 : isspace (cAt line 5) = true
  swap
  · rw [if_neg c2]
    simp only [throw_syntax_error]
    constructor
    · rintro ⟨w, hw⟩; cases hw
    · rintro ⟨-, h, -⟩
      exact absurd h c2
  rw [if_pos c2]
  by_cases c3 : r1.headD NUL ≠ '-' ∧ ¬ isdigit (r1.headD NUL) = true
  · rw [if_pos c3]
    simp only [throw_syntax_error]
    constructor
    · rintro ⟨w, hw⟩; cases hw
    · rintro ⟨-, -, h, -⟩
      rcases h with h | h
      · exact absurd h c3.1
      · exact absurd h c3.2
  rw [if_neg c3]
  have c3' : r1.headD NUL = '-' ∨ isdigit (r1.headD NUL) = true := by
    by_contra hh
    push_neg at hh
    exact c3 ⟨hh.1, by simpa using hh.2⟩
  by_cases c4 : ¬ isspace (r2.headD NUL) = true ∧ r2.headD NUL ≠ ';'
  · rw [if_pos c4]
    simp only [throw_syntax_error]
    constructor
    · rintro ⟨w, hw⟩; cases hw
    · rintro ⟨-, -, -, h, -⟩
      rcases h with h | h
      · exact absurd h c4.1
      · exact absurd h c4.2
  rw [if_neg c4]
  have c4' : isspace (r2.headD NUL) = true ∨ r2.headD NUL = ';' := by
    by_contra hh
    push_neg at hh
    exact c4 ⟨by simpa using hh.1, hh.2⟩
  by_cases c5 : r2.dropWhile isspace = []
  · rw [if_pos (Or.inl (f1 c5))]
    exact ⟨fun _ => ⟨c1, c2, c3', c4', Or.inl c5⟩, fun _ => ⟨_, rfl⟩⟩
  · obtain ⟨g1, g2⟩ := f2 c5
    rw [g2]
    by_cases c6 : (r2.dropWhile isspace).headD NUL = NUL
        ∨ (r2.dropWhile isspace).headD NUL = ';'
    · rw [if_pos (Or.inr c6)]
      exact ⟨fun _ => ⟨c1, c2, c3', c4', Or.inr c6⟩, fun _ => ⟨_, rfl⟩⟩
    · rw [if_neg (by
        rintro (h | h)
        · omega
        · exact c6 h)]
      simp only [throw_syntax_error]
      constructor
      · rintro ⟨w, hw⟩; cases hw
      · rintro ⟨-, -, -, -, h⟩
        rcases h with h | h
        · exact absurd h c5
        · exact absurd h c6

theorem dropWhile_all_then (p : Char → Bool) (a : List Char) (x : Char) (b : List Char)
    (ha : ∀ c ∈ a, p c = true) (hx : p x = false) : (a ++ x :: b).dropWhile p = x :: b := by
  induction a with
  | nil => simp [List.dropWhile_cons, hx]
  | cons y ys ih =>
    have hy := ha y (by simp)
    rw [List.cons_append, List.dropWhile_cons, hy, if_pos rfl]
    exact ih (fun c hc => ha c (by simp [hc]))

theorem dropWhile_all (p : Char → Bool) (a : List Char) (ha : ∀ c ∈ a, p c = true) :
    a.dropWhile p = [] := by
  induction a with
  | nil => rfl
  | cons y ys ih =>
    rw [List.dropWhile_cons, ha y (by simp), if_pos rfl]
    exact ih (fun c hc => ha c (by simp [hc]))

theorem sign_or_digit_not_space (h : Char) (hh : h = '-' ∨ isdigit h = true) :
    isspace h = false := by
  rcases hh with rfl | hh
  · decide
  · exact (isdigit_props h hh).1

theorem space_or_semi_not_digit (y : Char) (hy : isspace y = true ∨ y = ';') :
    isdigit y = false := by
  rcases hy with hy | rfl
  · cases hd : isdigit y with
    | false => rfl
    | true =>
      rw [(isdigit_props y hd).1] at hy
      cases hy
  · decide

theorem int_literal_shape (lit : List Char) (h : int_literal lit) :
    sign_or_digit_then_digits lit := by
  obtain ⟨ds, hne, hds, h | h⟩ := h
  · cases ds with
    | nil => exact absurd rfl hne
    | cons d ds' =>
      exact ⟨d, ds', h, Or.inr (hds d (by simp)), fun c hc => hds c (by simp [hc])⟩
  · exact ⟨'-', ds, h, Or.inl rfl, hds⟩

theorem parse_word_of_shape (line : List Char) (idx : Int)
    (h : word_line sign_or_digit_then_digits line) : ∃ w, parse_word line idx = .ok w := by
  rw [parse_word_ok_iff]
  obtain ⟨ws, lit, tail, hl, hws, hwsp, ⟨h0, t, rfl, hh, ht⟩, htne, ws2, rest, rfl, hws2, hrest⟩
    := h
  cases ws with
  | nil => exact absurd rfl hws
  | cons c ws' =>
    obtain ⟨y, tl, hy, hyp⟩ : ∃ y tl, ws2 ++ rest = y :: tl ∧ (isspace y = true ∨ y = ';') := by
      cases ws2 with
      | nil =>
        cases rest with
        | nil => exact absurd rfl htne
        | cons r rs =>
          rcases hrest with hr | hr
          · cases hr
          · simp only [List.head?_cons, Option.some.injEq] at hr
            exact ⟨r, rs, rfl, Or.inr hr⟩
      | cons w ws2' => exact ⟨w, ws2' ++ rest, rfl, Or.inl (hws2 w (by simp))⟩
    have hline : line = '.' :: 'w' :: 'o' :: 'r' :: 'd' :: c :: (ws' ++ h0 :: (t ++ (ws2 ++ rest)))
        := by
      rw [hl]
      simp [String.toList]
    have d6 : line.drop 6 = ws' ++ h0 :: (t ++ (ws2 ++ rest)) := by rw [hline]; rfl
    have r1 : (line.drop 6).dropWhile isspace = h0 :: (t ++ (ws2 ++ rest)) := by
      rw [d6]
      exact dropWhile_all_then isspace ws' h0 _ (fun x hx => hwsp x (by simp [hx]))
        (sign_or_digit_not_space h0 hh)
    have r2 : (((line.drop 6).dropWhile isspace).drop 1).dropWhile isdigit = ws2 ++ rest := by
      rw [r1, List.drop_succ_cons, List.drop_zero, hy]
      exact dropWhile_all_then isdigit t y tl ht (space_or_semi_not_digit y hyp)
    rw [r2, r1]
    refine ⟨by rw [hline]; rfl, by rw [hline]; exact hwsp c (by simp), ?_, ?_, ?_⟩
    · exact hh
    · rw [hy]; exact hyp
    · rcases hrest with hr | hr
      · left
        rw [hr, List.append_nil]
        exact dropWhile_all isspace ws2 hws2
      · right; right
        cases rest with
        | nil => cases hr
        | cons r rs =>
          simp only [List.head?_cons, Option.some.injEq] at hr
          subst hr
          rw [dropWhile_all_then isspace ws2 ';' rs hws2 (by decide)]
          rfl

theorem headD_cons_of (l : List Char) (P : Char → Prop) (hP : P (l.headD NUL)) (hN : ¬ P NUL) :
    ∃ x xs, l = x :: xs ∧ P x := by
  cases l with
  | nil => exact absurd hP hN
  | cons x xs => exact ⟨x, xs, rfl, hP⟩

theorem shape_of_parse_word (line : List Char) (idx : Int) (hdot : line.head? = some '.')
    (hnul : NUL ∉ line) (h : ∃ w, parse_word line idx = .ok w) :
    word_line sign_or_digit_then_digits line := by
  rw [parse_word_ok_iff] at h
  obtain ⟨a1, a2, a3, a4, a5⟩ := h
  cases line with
  | nil => cases hdot
  | cons d rest5 =>
    simp only [List.head?_cons, Option.some.injEq] at hdot
    subst hdot
    have hw : rest5 = ['w', 'o', 'r', 'd'] ++ rest5.drop 4 := by
      conv_lhs => rw [← List.take_append_drop 4 rest5]
      rw [show List.take 4 rest5 = ['w', 'o', 'r', 'd'] from a1]
    obtain ⟨c, r0, hq, hc⟩ := headD_cons_of (rest5.drop 4) (fun x => isspace x = true)
      (by
        have e : cAt ('.' :: rest5) 5 = (rest5.drop 4).headD NUL := by
          have := cAt_drop ('.' :: rest5) 5 0
          rw [Nat.add_zero] at this
          rw [← this]
          show cAt (List.drop 4 rest5) 0 = _
          cases List.drop 4 rest5 <;> rfl
        rw [← e]; exact a2) (by decide)
    have d6 : List.drop 6 ('.' :: rest5) = r0 := by
      show List.drop 5 rest5 = r0
      rw [show 5 = 4 + 1 from rfl, ← List.drop_drop, hq]
      rfl
    rw [d6] at a3 a4 a5
    obtain ⟨h0, t, hr1, hh0⟩ := headD_cons_of (r0.dropWhile isspace)
      (fun x => x = '-' ∨ isdigit x = true) a3 (by decide)
    rw [hr1, List.drop_succ_cons, List.drop_zero] at a4 a5
    obtain ⟨y, tl, hr2, hy⟩ := headD_cons_of (t.dropWhile isdigit)
      (fun x => isspace x = true ∨ x = ';') a4 (by decide)
    have e0 : r0 = r0.takeWhile isspace ++ (h0 :: (t.takeWhile isdigit
        ++ ((t.dropWhile isdigit).takeWhile isspace
          ++ (t.dropWhile isdigit).dropWhile isspace))) := by
      rw [List.takeWhile_append_dropWhile, List.takeWhile_append_dropWhile, ← hr1,
        List.takeWhile_append_dropWhile]
    have eline : '.' :: rest5 = ".word".toList ++ (c :: r0.takeWhile isspace)
        ++ (h0 :: t.takeWhile isdigit)
        ++ ((t.dropWhile isdigit).takeWhile isspace
          ++ (t.dropWhile isdigit).dropWhile isspace) := by
      conv_lhs => rw [hw, hq, e0]
      simp [String.toList]
    refine ⟨c :: r0.takeWhile isspace, h0 :: t.takeWhile isdigit, _, eline, by simp, ?_,
      ⟨h0, _, rfl, hh0, ?_⟩, ?_, _, _, rfl, ?_, ?_⟩
    · intro x hx
      rcases List.mem_cons.1 hx with rfl | hx
      · exact hc
      · exact (List.mem_takeWhile_imp hx)
    · intro x hx
      exact List.mem_takeWhile_imp hx
    · rw [List.takeWhile_append_dropWhile, hr2]
      simp
    · intro x hx
      exact List.mem_takeWhile_imp hx
    · rcases a5 with h | h | h
      · exact Or.inl h
      · cases h3 : (t.dropWhile isdigit).dropWhile isspace with
        | nil => exact Or.inl rfl
        | cons z zs =>
          exfalso
          rw [h3] at h
          simp only [List.headD_cons] at h
          apply hnul
          rw [eline, h3, h]
          simp
      · cases h3 : (t.dropWhile isdigit).dropWhile isspace with
        | nil => exact Or.inl rfl
        | cons z zs =>
          rw [h3] at h
          simp only [List.headD_cons] at h
          right
          rw [h]
          rfl

theorem parse_dot (labels : List (List Char × Int)) (line : List Char) (idx : Int)
    (hdot : line.head? = some '.') : parse labels line idx = parse_word line idx := by
  cases line with
  | nil => cases hdot
  | cons d rest =>
    simp only [List.head?_cons, Option.some.injEq] at hdot
    subst hdot
    rfl

/-- C19 counterexample: the line `.word 5` with nothing after the literal (the last line of
a file without a final newline) is a syntax error, and the line `.word -`, whose literal has
no digit, is accepted as the word 0. -/
theorem C19_counterexample :
    parse [] ".word 5".toList 2 = .error (.syntax_error 2)
    ∧ parse [] ".word -\n".toList 2 = .ok ⟨0, 0, 0, 0⟩ := by
  constructor <;> rfl

/-- C19 (amended): a line starting with `.` (a C string, so without NUL) is accepted by
`parse` if it is `.word`, then one or more whitespace characters, then an integer literal
(an optional leading `-` followed by one or more digits), then at least one character, these
being whitespace only up to the end of the line or up to a `;`. It is a fatal syntax error
citing `idx` if it does not have that shape, with a possibly digitless literal (a `-` or a
digit followed by digits); `parse` has no other outcome on such a line. -/
theorem C19_word_directive_shape (labels : List (List Char × Int)) (line : List Char)
    (idx : Int) (hdot : line.head? = some '.') (hnul : NUL ∉ line) :
    (word_line int_literal line → ∃ w, parse labels line idx = .ok w)
    ∧ (¬ word_line sign_or_digit_then_digits line →
        parse labels line idx = .error (.syntax_error idx))
    ∧ ((∃ w, parse labels line idx = .ok w)
        ∨ parse labels line idx = .error (.syntax_error idx)) := by
  rw [parse_dot labels line idx hdot]
  refine ⟨fun h => ?_, fun h => ?_, parse_word_ok_or_error line idx⟩
  · obtain ⟨ws, lit, tail, h1, h2, h3, h4, h5⟩ := h
    exact parse_word_of_shape line idx ⟨ws, lit, tail, h1, h2, h3, int_literal_shape lit h4, h5⟩
  · rcases parse_word_ok_or_error line idx with hk | hk
    · exact absurd (shape_of_parse_word line idx hdot hnul hk) h
    · exact hk

theorem C19_word_directive_shape_witness :
    word_line int_literal ".word -12 ; x\n".toList
    ∧ (∃ w, parse [] ".word -12 ; x\n".toList 4 = .ok w)
    ∧ ¬ word_line sign_or_digit_then_digits ".word".toList
    ∧ parse [] ".word".toList 4 = .error (.syntax_error 4) := by
  have hs : word_line int_literal ".word -12 ; x\n".toList :=
    ⟨[' '], ['-', '1', '2'], " ; x\n".toList, by rfl, by simp, by decide,
      ⟨['1', '2'], by simp, by decide, Or.inr rfl⟩, by simp,
      [' '], "; x\n".toList, by rfl, by decide, Or.inr rfl⟩
  have hn : ¬ word_line sign_or_digit_then_digits ".word".toList := by
    rintro ⟨ws, lit, tail, h1, h2, -, -, -⟩
    have := congrArg List.length h1
    simp only [String.toList, List.length_append, List.length_cons, List.length_nil] at this
    have : ws.length = 0 := by omega
    exact h2 (List.length_eq_zero.1 this)
  exact ⟨hs, (C19_word_directive_shape [] _ 4 (by rfl) (by decide)).1 hs, hn,
    (C19_word_directive_shape [] _ 4 (by rfl) (by decide)).2.1 hn⟩

/-! ## Immediates -/

theorem strtol_digits_foldl (ds : List Char) (acc : Nat) (h : ∀ c ∈ ds, isdigit c = true) :
    strtol_digits ds acc = ds.foldl (fun a c => 10 * a + (c.toNat - 48)) acc := by
  induction ds generalizing acc with
  | nil => rfl
  | cons d ds ih =>
    rw [strtol_digits, if_pos (h d (by simp)), List.foldl_cons]
    exact ih _ (fun c hc => h c (by simp [hc]))

theorem digit_not_sign (d : Char) (h : isdigit d = true) : d ≠ '-' ∧ d ≠ '+' := by
  constructor <;> (rintro rfl; revert h; decide)

theorem strtol_literal (lit : List Char) (hl : int_literal lit)
    (h1 : LONG_MIN ≤ literal_value lit) (h2 : literal_value lit ≤ LONG_MAX) :
    strtol lit = literal_value lit ∧ ∀ c ∈ lit, isspace c = false ∧ c ≠ ';' := by
  obtain ⟨ds, hne, hds, hl | hl⟩ := hl
  · subst hl
    cases lit with
    | nil => exact absurd rfl hne
    | cons d ds' =>
      have hd := hds d (by simp)
      obtain ⟨n1, n2⟩ := digit_not_sign d hd
      have hv : literal_value (d :: ds') = (digits_value (d :: ds') : Int) := by
        unfold literal_value
        split
        · rename_i heq
          simp only [List.cons.injEq] at heq
          exact absurd heq.1 n1
        · rfl
      rw [hv] at h1 h2 ⊢
      refine ⟨?_, fun c hc => ⟨(isdigit_props c (hds c hc)).1, (isdigit_props c (hds c hc)).2.1⟩⟩
      unfold strtol
      simp only [dropWhile_head isspace d ds' (isdigit_props d hd).1, List.head?_cons,
        Option.some.injEq, n1, n2, if_false]
      rw [strtol_digits_foldl _ _ hds]
      exact min_eq_right h2
  · subst hl
    have hv : literal_value ('-' :: ds) = -(digits_value ds : Int) := rfl
    rw [hv] at h1 h2 ⊢
    refine ⟨?_, fun c hc => ?_⟩
    · unfold strtol
      simp only [dropWhile_head isspace '-' ds (by decide), List.head?_cons, if_true,
        List.drop_succ_cons, List.drop_zero]
      rw [strtol_digits_foldl _ _ hds]
      exact max_eq_right h1
    · rcases List.mem_cons.1 hc with rfl | hc
      · decide
      · exact ⟨(isdigit_props c (hds c hc)).1, (isdigit_props c (hds c hc)).2.1⟩

theorem dec_text_literal (v : Int) : int_literal (dec_text v) ∧ literal_value (dec_text v) = v := by
  unfold dec_text
  by_cases hv : v < 0
  · rw [if_pos hv]
    refine ⟨⟨_, toDigits_ne_nil _, toDigits_all _, Or.inr rfl⟩, ?_⟩
    show -(digits_value (Nat.toDigits 10 v.natAbs) : Int) = v
    unfold digits_value
    rw [← strtol_digits_foldl _ _ (toDigits_all _), strtol_digits_toDigits]
    omega
  · rw [if_neg hv]
    refine ⟨⟨_, toDigits_ne_nil _, toDigits_all _, Or.inl rfl⟩, ?_⟩
    cases hd : Nat.toDigits 10 v.toNat with
    | nil => exact absurd hd (toDigits_ne_nil _)
    | cons d ds' =>
      have hdig : isdigit d = true := by
        have := toDigits_all v.toNat d (by rw [hd]; simp)
        exact this
      have hval : literal_value (d :: ds') = (digits_value (d :: ds') : Int) := by
        unfold literal_value
        split
        · rename_i heq
          simp only [List.cons.injEq] at heq
          exact absurd heq.1 (digit_not_sign d hdig).1
        · rfl
      rw [hval, ← hd]
      unfold digits_value
      rw [← strtol_digits_foldl _ _ (toDigits_all _), strtol_digits_toDigits]
      omega

theorem immediate_wraps (labels : List (List Char × Int)) (idx : Int) (s t : Nat)
    (lit : List Char) (v : Int) (hs : s ≤ 64) (ht : t ≤ 64) (hl : int_literal lit)
    (hv : literal_value lit = v) (h1 : -2147483648 ≤ v) (h2 : v ≤ 2147483647)
    (hm : toI8 v ≠ -1) :
    (∃ w, parse labels
          ("addi ".toList ++ reg_text s ++ ',' :: reg_text t ++ ',' :: lit ++ [LF]) idx = .ok w
        ∧ (w.b0 : Int) = v % 256 ∧ toI8 w.b0 = toI8 v)
    ∧ (∃ w, parse labels
          ("lw ".toList ++ reg_text s ++ ',' :: reg_text t ++ ',' :: lit ++ [LF]) idx = .ok w
        ∧ (w.b0 : Int) = v % 256 ∧ toI8 w.b0 = toI8 v)
    ∧ (∃ w, parse labels
          ("sw ".toList ++ reg_text s ++ ',' :: reg_text t ++ ',' :: lit ++ [LF]) idx = .ok w
        ∧ (w.b0 : Int) = v % 256 ∧ toI8 w.b0 = toI8 v)
    ∧ (∃ w, parse labels ("movei ".toList ++ reg_text t ++ ',' :: lit ++ [LF]) idx = .ok w
        ∧ (w.b0 : Int) = v % 256 ∧ toI8 w.b0 = toI8 v) := by
  obtain ⟨e, htok⟩ := strtol_literal lit hl (by rw [hv]; unfold LONG_MIN; omega)
    (by rw [hv]; unfold LONG_MAX; omega)
  have hp : parse_imm lit = toI8 v := by
    unfold parse_imm
    rw [e, hv]
  obtain ⟨p1, p2, p3, p4⟩ := parse_imm_position labels idx s t lit hs ht htok
    (by rw [hp]; exact hm)
  refine ⟨⟨_, p1, ?_, ?_⟩, ⟨_, p2, ?_, ?_⟩, ⟨_, p3, ?_, ?_⟩, ⟨_, p4, ?_, ?_⟩⟩
  all_goals first
    | (show ((toU8 (parse_imm lit) : Nat) : Int) = v % 256
       rw [hp]; exact toU8_toI8 v)
    | (show toI8 ((toU8 (parse_imm lit) : Nat) : Int) = toI8 v
       rw [hp]; exact toI8_toU8_toI8 v)

/-- C15 (the code at failing inputs): with an immediate whose 8-bit value is `-1` (the
literals `-1` and `255`), `parse_sti` reaches its end without a `return` right after
`parse_imm` has returned `-1`, and `parse` tests that indeterminate result against `-1`: the
source does not fix whether `movei R0,-1`, `movei R0,255`, `addi R1,R2,-1`, `lw R1,R2,-1` and
`sw R1,R2,-1` are encoded or reported as syntax errors, where the claim has them accepted with
immediate byte 255. For every other literal the lines are accepted with the byte of the
claim (`immediate_wraps`). -/
theorem C15_immediate_minus_one_indeterminate :
    parse [] "movei R0,-1\n".toList 0 = .error .indeterminate
    ∧ parse [] "movei R0,255\n".toList 0 = .error .indeterminate
    ∧ parse [] "addi R1,R2,-1\n".toList 0 = .error .indeterminate
    ∧ parse [] "lw R1,R2,-1\n".toList 0 = .error .indeterminate
    ∧ parse [] "sw R1,R2,-1\n".toList 0 = .error .indeterminate
    ∧ parse [] "movei R0,-2\n".toList 0 = .ok ⟨254, 0, 0, OP_MOVEI⟩
    ∧ parse [] "movei R0,300\n".toList 0 = .ok ⟨44, 0, 0, OP_MOVEI⟩ := by
  refine ⟨?_, ?_, ?_, ?_, ?_, ?_, ?_⟩ <;> rfl

end ExpIsa

namespace ExpIsa

/-! ## Register instructions -/

theorem testBit_land_fc (x i : Nat) (hx : x < 4294967296) :
    (x &&& 0xfffffffc).testBit i = (decide (2 ≤ i) && x.testBit i) := by
  rw [Nat.testBit_and, testBit_fc]
  by_cases h32 : i < 32
  · by_cases h2 : 2 ≤ i <;> simp [h2, h32, Bool.and_comm]
  · have : x.testBit i = false :=
      Nat.testBit_lt_two_pow (lt_of_lt_of_le hx
        (Nat.pow_le_pow_right (by norm_num : 0 < 2) (not_lt.mp h32)))
    simp [this]

/-- C23: for every state with `2 ≤ SP ≤ 128` (and `PSR` a 32-bit value), if both the
interrupt-enable and interrupt-pending bits of `PSR` are set, then `check_interrupt` returns 0
and afterwards `SP` is decreased by 2, `memory[old SP - 1]` holds the old `PSR`,
`memory[old SP - 2]` holds the old `PC`, bits 0 and 1 of `PSR` are clear with all other bits
unchanged, and `PC` equals `memory[0]` as it is after the two stores (every other register
and memory word, `IR`, `counter` and the output being unchanged); if the two bits are not both
set, `check_interrupt` returns 0 with the whole machine state unchanged. -/
theorem C23_check_interrupt_entry (cp : COMPUTER) (h1 : 2 ≤ cp.SP) (h2 : cp.SP ≤ 128)
    (hpsr : cp.PSR < 4294967296) :
    ((cp.PSR &&& PSR_INT_EN ≠ 0 ∧ cp.PSR &&& PSR_INT_PEND ≠ 0) →
      ∃ e, check_interrupt cp = .next e
        ∧ e.SP = cp.SP - 2
        ∧ e.mem (cp.SP - 1).toNat = cp.PSR
        ∧ e.mem (cp.SP - 2).toNat = cp.PC
        ∧ (∀ i, e.PSR.testBit i = (decide (2 ≤ i) && cp.PSR.testBit i))
        ∧ e.PC = e.mem 0
        ∧ (∀ j, j ≠ 64 → e.R j = cp.R j)
        ∧ (∀ a, a ≠ (cp.SP - 1).toNat → a ≠ (cp.SP - 2).toNat → e.mem a = cp.mem a)
        ∧ e.IR = cp.IR ∧ e.counter = cp.counter ∧ e.out = cp.out)
    ∧ (¬ (cp.PSR &&& PSR_INT_EN ≠ 0 ∧ cp.PSR &&& PSR_INT_PEND ≠ 0) →
        check_interrupt cp = .next cp) := by
  constructor
  · rintro ⟨hen, hpend⟩
    refine ⟨_, check_interrupt_fire cp hen hpend h1 h2, ?_, ?_, ?_, ?_, rfl, ?_, ?_, rfl, rfl,
      rfl⟩
    · show setR cp.R 64 (cp.SP - 2) 64 = cp.SP - 2
      simp [setR]
    · show setM (setM cp.mem (cp.SP - 1).toNat cp.PSR) (cp.SP - 2).toNat cp.PC (cp.SP - 1).toNat
        = cp.PSR
      have hne : (cp.SP - 1).toNat ≠ (cp.SP - 2).toNat := by omega
      unfold setM
      rw [if_neg hne, if_pos rfl]
    · show setM (setM cp.mem (cp.SP - 1).toNat cp.PSR) (cp.SP - 2).toNat cp.PC (cp.SP - 2).toNat
        = cp.PC
      simp [setM]
    · intro i
      exact testBit_land_fc cp.PSR i hpsr
    · intro j hj
      show setR cp.R 64 (cp.SP - 2) j = cp.R j
      simp [setR, hj]
    · intro a ha1 ha2
      show setM (setM cp.mem (cp.SP - 1).toNat cp.PSR) (cp.SP - 2).toNat cp.PC a = cp.mem a
      unfold setM
      rw [if_neg ha2, if_neg ha1]
  · intro h
    unfold check_interrupt
    rw [if_neg h]

theorem C23_check_interrupt_entry_witness :
    (demo_computer.PSR &&& PSR_INT_EN ≠ 0 ∧ demo_computer.PSR &&& PSR_INT_PEND ≠ 0)
    ∧ (∃ e, check_interrupt demo_computer = .next e
        ∧ e.SP = demo_computer.SP - 2
        ∧ e.mem (demo_computer.SP - 1).toNat = demo_computer.PSR
        ∧ e.mem (demo_computer.SP - 2).toNat = demo_computer.PC
        ∧ (∀ i, e.PSR.testBit i = (decide (2 ≤ i) && demo_computer.PSR.testBit i))
        ∧ e.PC = e.mem 0
        ∧ (∀ j, j ≠ 64 → e.R j = demo_computer.R j)
        ∧ (∀ a, a ≠ (demo_computer.SP - 1).toNat → a ≠ (demo_computer.SP - 2).toNat →
            e.mem a = demo_computer.mem a)
        ∧ e.IR = demo_computer.IR ∧ e.counter = demo_computer.counter
        ∧ e.out = demo_computer.out)
    ∧ ¬ (timer_demo.PSR &&& PSR_INT_EN ≠ 0 ∧ timer_demo.PSR &&& PSR_INT_PEND ≠ 0)
    ∧ check_interrupt timer_demo = .next timer_demo :=
  ⟨by decide,
   (C23_check_interrupt_entry demo_computer (by decide) (by decide) (by decide)).1 (by decide),
   by decide,
   (C23_check_interrupt_entry timer_demo (by decide) (by decide) (by decide)).2 (by decide)⟩

theorem iret_after_entry (cp cp1 cp2 : COMPUTER) (s t : Nat) (imm : Int)
    (hen : cp.PSR &&& PSR_INT_EN ≠ 0) (hpend : cp.PSR &&& PSR_INT_PEND ≠ 0)
    (hsp1 : 2 ≤ cp.SP) (hsp2 : cp.SP ≤ 128)
    (hent : check_interrupt cp = .next cp1)
    (hsp : cp2.SP = cp1.SP)
    (hm2 : cp2.mem (cp1.SP + 1).toNat = cp1.mem (cp1.SP + 1).toNat) :
    cp1.PSR = cp.PSR &&& 0xfffffffc
    ∧ ∃ cp3, execute cp2 OP_IRET s t imm = .next cp3 ∧ cp3.PSR = cp.PSR &&& 0xfffffffd := by
  rw [check_interrupt_fire cp hen hpend hsp1 hsp2] at hent
  cases hent
  unfold COMPUTER.SP at *
  simp only [setR, if_true] at hsp hm2 ⊢
  have ha : (cp.R 64 - 2 + 1).toNat = (cp.R 64 - 1).toNat := by congr 1; omega
  have hne : (cp.R 64 - 1).toNat ≠ (cp.R 64 - 2).toNat := by omega
  rw [ha] at hm2
  simp only [setM, if_true, hne, if_false] at hm2
  have e1 : toI32 (cp2.R 64 + 1) = cp.R 64 - 1 := by rw [hsp]; unfold toI32; omega
  have e2 : toI32 (cp.R 64 - 1 + 1) = cp.R 64 := by unfold toI32; omega
  refine ⟨trivial, ?_⟩
  rw [execute_iret]
  simp only [setR, if_true, e1, e2, MAX_MEM_SIZE]
  rw [if_pos (by rw [hsp]; refine ⟨?_, ?_, ?_, ?_⟩ <;> push_cast <;> omega)]
  refine ⟨_, rfl, ?_⟩
  show cp2.mem (cp.R 64 - 1).toNat &&& 0xfffffffd = _
  rw [hm2]

theorem en_of_masked_fd (x : Nat) (h : x &&& PSR_INT_EN ≠ 0) :
    (x &&& 0xfffffffd) &&& PSR_INT_EN ≠ 0 := by
  rw [en_iff] at h ⊢
  rw [Nat.testBit_and, testBit_fd, h]
  rfl

theorem pend_of_masked_fd (x : Nat) : (x &&& 0xfffffffd) &&& PSR_INT_PEND = 0 := by
  by_contra hc
  have := (pend_iff _).1 hc
  rw [testBit_one_fd] at this
  cases this

/-- C22 counterexample: on a machine with both interrupt bits set and `SP = 128`,
`check_interrupt` takes the interrupt, and an `iret` executed in the state right after entry
restores `PSR = 1`: the interrupt-enable bit is one, not zero. -/
theorem C22_counterexample :
    ∃ cp1 cp3, check_interrupt demo_computer = .next cp1
      ∧ execute cp1 OP_IRET 0 0 0 = .next cp3
      ∧ cp3.PSR = 1 ∧ cp3.PSR &&& PSR_INT_EN ≠ 0 := by
  obtain ⟨-, cp3, h3, hp⟩ := iret_after_entry demo_computer demo_entered demo_entered 0 0 0
    (by decide) (by decide) (by decide) (by decide) rfl rfl rfl
  have hp1 : cp3.PSR = 1 := by rw [hp]; decide
  exact ⟨demo_entered, cp3, rfl, h3, hp1, by rw [hp1]; decide⟩

/-- C22 (amended): when `check_interrupt` takes an interrupt (enable and pending set,
`2 ≤ SP ≤ 128`), the enable bit is clear in the state it leaves, so interrupts are disabled
while the handler runs; when `iret` is later executed in a state whose `SP` is the post-entry
`SP` and whose `PSR` word on the stack is the one pushed, the `PSR` it restores is the `PSR`
at entry with the pending bit cleared: its interrupt-enable bit is one and its pending bit is
zero, so interrupts are enabled again after the return. -/
theorem C22_iret_enables_interrupts (cp cp1 cp2 : COMPUTER) (s t : Nat) (imm : Int)
    (hen : cp.PSR &&& PSR_INT_EN ≠ 0) (hpend : cp.PSR &&& PSR_INT_PEND ≠ 0)
    (hsp1 : 2 ≤ cp.SP) (hsp2 : cp.SP ≤ 128)
    (hent : check_interrupt cp = .next cp1)
    (hsp : cp2.SP = cp1.SP)
    (hm2 : cp2.mem (cp1.SP + 1).toNat = cp1.mem (cp1.SP + 1).toNat) :
    cp1.PSR &&& PSR_INT_EN = 0
    ∧ ∃ cp3, execute cp2 OP_IRET s t imm = .next cp3
      ∧ cp3.PSR = cp.PSR &&& 0xfffffffd
      ∧ cp3.PSR &&& PSR_INT_EN ≠ 0 ∧ cp3.PSR &&& PSR_INT_PEND = 0 := by
  obtain ⟨h1, cp3, h3, hp⟩ := iret_after_entry cp cp1 cp2 s t imm hen hpend hsp1 hsp2 hent hsp hm2
  refine ⟨?_, cp3, h3, hp, ?_, ?_⟩
  · rw [h1]
    by_contra hc
    exact masked_en_clear cp.PSR hc
  · rw [hp]; exact en_of_masked_fd _ hen
  · rw [hp]; exact pend_of_masked_fd _

theorem C22_iret_enables_interrupts_witness :
    demo_entered.PSR &&& PSR_INT_EN = 0
    ∧ ∃ cp3, execute demo_entered OP_IRET 0 0 0 = .next cp3
      ∧ cp3.PSR = demo_computer.PSR &&& 0xfffffffd
      ∧ cp3.PSR &&& PSR_INT_EN ≠ 0 ∧ cp3.PSR &&& PSR_INT_PEND = 0 :=
  C22_iret_enables_interrupts demo_computer demo_entered demo_entered 0 0 0
    (by decide) (by decide) (by decide) (by decide) rfl rfl rfl

/-! ## The pending bit at cycle boundaries -/

theorem pend_of_masked_fc (x : Nat) : (x &&& 0xfffffffc) &&& PSR_INT_PEND = 0 := by
  by_contra hc
  have := (pend_iff _).1 hc
  rw [Nat.testBit_and, testBit_fc] at this
  simp at this

theorem check_interrupt_not_both (e s : COMPUTER) (h : check_interrupt e = .next s) :
    ¬ (s.PSR &&& PSR_INT_EN ≠ 0 ∧ s.PSR &&& PSR_INT_PEND ≠ 0) := by
  unfold check_interrupt at h
  simp only at h
  split_ifs at h with h1 h2
  · cases h
    rintro ⟨hen, -⟩
    exact masked_en_clear e.PSR hen
  · cases h
    exact h1

theorem check_interrupt_pend (e s : COMPUTER) (h : check_interrupt e = .next s)
    (hp : e.PSR &&& PSR_INT_PEND = 0 ∨ e.PSR &&& PSR_INT_EN ≠ 0) :
    s.PSR &&& PSR_INT_PEND = 0 := by
  unfold check_interrupt at h
  simp only at h
  split_ifs at h with h1 h2
  · cases h
    exact pend_of_masked_fc e.PSR
  · cases h
    rcases hp with hp | hp
    · exact hp
    · by_contra hc
      exact h1 ⟨hp, hc⟩

theorem timer_tick_pend (e : COMPUTER) (hp : e.PSR &&& PSR_INT_PEND = 0) :
    (timer_tick e).PSR &&& PSR_INT_PEND = 0 ∨ (timer_tick e).PSR &&& PSR_INT_EN ≠ 0 := by
  unfold timer_tick
  simp only
  split_ifs with h
  · right
    show (e.PSR ||| PSR_INT_PEND) &&& PSR_INT_EN ≠ 0
    rw [en_iff, Nat.testBit_or, (en_iff _).1 h.1]
    rfl
  · left
    exact hp

theorem cpu_cycle_pend (cp cp' : COMPUTER) (h : cpu_cycle cp = .next cp')
    (hp : cp.PSR &&& PSR_INT_PEND = 0) : cp'.PSR &&& PSR_INT_PEND = 0 := by
  obtain ⟨e, he, hc⟩ := cpu_cycle_next_inv cp cp' h
  have hpe : e.PSR &&& PSR_INT_PEND = 0 := by
    rcases (fetch_execute_frame cp e he).2 with h1 | ⟨x, h1⟩
    · rw [h1]; exact hp
    · rw [h1]; exact pend_of_masked_fd x
  exact check_interrupt_pend _ _ hc (timer_tick_pend e hpe)

theorem cycles_pend (n : Nat) (cp cpn : COMPUTER) (h : cycles n cp = some cpn)
    (hp : cp.PSR &&& PSR_INT_PEND = 0) : cpn.PSR &&& PSR_INT_PEND = 0 := by
  induction n generalizing cp with
  | zero =>
    simp only [cycles, Option.some.injEq] at h
    subst h
    exact hp
  | succ k ih =>
    rw [cycles] at h
    cases hc : cpu_cycle cp with
    | next c1 =>
      rw [hc] at h
      exact ih c1 h (cpu_cycle_pend cp c1 hc hp)
    | stop w c1 => rw [hc] at h; cases h
    | undefined => rw [hc] at h; cases h

/-- C25: no pending interrupt survives a cycle. For every state on which `cpu_cycle`
returns 0, the resulting `PSR` does not have interrupt-enable and interrupt-pending both set,
and if the pending bit is clear before the cycle it is clear after it. The machine starts
with `PSR = 1`, so after any number of cycles that all return 0 the pending bit is clear; and
in a state whose enable bit is clear `check_interrupt` takes no interrupt: it returns 0 with
the state unchanged. -/
theorem C25_no_pending_interrupt_survives (cp cp1 before cpn e : COMPUTER) (image : List Nat)
    (start : Int) (n : Nat)
    (h : cpu_cycle cp = .next cp1)
    (hn : cycles n (start_state before image start) = some cpn)
    (he : e.PSR &&& PSR_INT_EN = 0) :
    ¬ (cp1.PSR &&& PSR_INT_EN ≠ 0 ∧ cp1.PSR &&& PSR_INT_PEND ≠ 0)
    ∧ (cp.PSR &&& PSR_INT_PEND = 0 → cp1.PSR &&& PSR_INT_PEND = 0)
    ∧ (start_state before image start).PSR = 1
    ∧ cpn.PSR &&& PSR_INT_PEND = 0
    ∧ check_interrupt e = .next e := by
  obtain ⟨e1, -, hc⟩ := cpu_cycle_next_inv cp cp1 h
  refine ⟨check_interrupt_not_both _ _ hc, cpu_cycle_pend cp cp1 h, rfl,
    cycles_pend n _ cpn hn (by show (1 : Nat) &&& PSR_INT_PEND = 0; decide), ?_⟩
  unfold check_interrupt
  rw [if_neg (fun hh => hh.1 he)]

theorem C25_no_pending_interrupt_survives_witness :
    ∃ cp1, cpu_cycle timer_demo = .next cp1
      ∧ cycles 0 (start_state demo_computer [] 0) = some (start_state demo_computer [] 0)
      ∧ demo_entered.PSR &&& PSR_INT_EN = 0
      ∧ ¬ (cp1.PSR &&& PSR_INT_EN ≠ 0 ∧ cp1.PSR &&& PSR_INT_PEND ≠ 0)
      ∧ (timer_demo.PSR &&& PSR_INT_PEND = 0 → cp1.PSR &&& PSR_INT_PEND = 0)
      ∧ (start_state demo_computer [] 0).PSR = 1
      ∧ (start_state demo_computer [] 0).PSR &&& PSR_INT_PEND = 0
      ∧ check_interrupt demo_entered = .next demo_entered := by
  have hs : cpu_cycle timer_demo = .next { timer_demo with counter := timer_demo.counter + 1 } :=
    cpu_cycle_quiet timer_demo timer_demo (timer_demo_spin 0) (by decide) (by decide)
  exact ⟨_, hs, rfl, by decide,
    C25_no_pending_interrupt_survives timer_demo _ demo_computer _ demo_entered [] 0 0 hs rfl
      (by decide)⟩

/-! ## When a cycle stops the run -/

theorem execute_stop_iff (cp : COMPUTER) (op s t : Nat) (imm : Int) :
    (∃ why e, execute cp op s t imm = .stop why e) ↔ (op = 0 ∨ op ∉ isa_opcodes) := by
  constructor
  · rintro ⟨why, e, h⟩
    unfold execute at h
    split at h
    all_goals first
      | exact Or.inl rfl
      | exact Step.noConfusion h
      | ((try dsimp only at h); split at h <;> first
          | exact Step.noConfusion h
          | (split at h <;> exact Step.noConfusion h))
      | (right
         intro hm
         simp only [isa_opcodes, List.mem_cons, List.mem_singleton, List.not_mem_nil,
           or_false] at hm
         rcases hm with hm | hm | hm | hm | hm | hm | hm | hm | hm | hm | hm | hm | hm | hm | hm
         all_goals (subst hm; simp_all [OP_HALT, OP_NOP, OP_ADDI, OP_MOVEREG, OP_MOVEI, OP_LW,
           OP_SW, OP_BLEZ, OP_LA, OP_PUSH, OP_POP, OP_ADD, OP_JMP, OP_IRET, OP_PUT]))
  · rintro (rfl | h)
    · exact ⟨_, _, rfl⟩
    · unfold execute
      split
      all_goals first
        | exact ⟨_, _, rfl⟩
        | (exfalso; apply h; decide)

theorem execute_IR (cp e : COMPUTER) (op s t : Nat) (imm : Int)
    (h : execute cp op s t imm = .next e) : e.IR = cp.IR := by
  unfold execute at h
  split at h
  all_goals first
    | (cases h <;> rfl)
    | ((try dsimp only at h); split at h <;> first
        | (cases h <;> rfl)
        | (split at h <;> cases h <;> rfl))

theorem timer_tick_IR (e : COMPUTER) : (timer_tick e).IR = e.IR := by
  unfold timer_tick
  simp only
  split_ifs <;> rfl

theorem check_interrupt_IR (e s : COMPUTER) (h : check_interrupt e = .next s) : s.IR = e.IR := by
  unfold check_interrupt at h
  simp only at h
  split_ifs at h <;> cases h <;> rfl

theorem check_interrupt_not_stop (e s : COMPUTER) (why : Exit) :
    check_interrupt e ≠ .stop why s := by
  unfold check_interrupt
  simp only
  split_ifs <;> intro h <;> cases h

theorem cpu_cycle_stop_iff (cp : COMPUTER) :
    (∃ why e, cpu_cycle cp = .stop why e) ↔
      (cp.PC ≥ 128 ∨ opcode_byte (cp.mem cp.PC) = 0x00
        ∨ opcode_byte (cp.mem cp.PC) ∉ isa_opcodes) := by
  have hx := execute_stop_iff { cp with IR := cp.mem cp.PC } (opcode_byte (cp.mem cp.PC))
    (decode (cp.mem cp.PC)).2.1 (decode (cp.mem cp.PC)).2.2.1 (decode (cp.mem cp.PC)).2.2.2
  unfold cpu_cycle
  rw [fetch_execute_eq]
  by_cases hpc : cp.PC ≥ MAX_MEM_SIZE
  · rw [if_pos hpc]
    exact ⟨fun _ => Or.inl hpc, fun _ => ⟨_, _, rfl⟩⟩
  · rw [if_neg hpc]
    show (∃ why e, (match execute { cp with IR := cp.mem cp.PC } (opcode_byte (cp.mem cp.PC))
        (decode (cp.mem cp.PC)).2.1 (decode (cp.mem cp.PC)).2.2.1 (decode (cp.mem cp.PC)).2.2.2
        with
      | .next cp2 => check_interrupt (timer_tick cp2)
      | r => r) = .stop why e) ↔ _
    cases hex : execute { cp with IR := cp.mem cp.PC } (opcode_byte (cp.mem cp.PC))
        (decode (cp.mem cp.PC)).2.1 (decode (cp.mem cp.PC)).2.2.1 (decode (cp.mem cp.PC)).2.2.2
      with
    | next e2 =>
      rw [hex] at hx
      constructor
      · rintro ⟨why, e, h⟩
        exact absurd h (check_interrupt_not_stop _ _ _)
      · rintro (h | h)
        · exact absurd h hpc
        · obtain ⟨why, e, h'⟩ := hx.2 h
          cases h'
    | stop w e2 =>
      rw [hex] at hx
      exact ⟨fun _ => Or.inr (hx.1 ⟨_, _, rfl⟩), fun _ => ⟨_, _, rfl⟩⟩
    | undefined =>
      rw [hex] at hx
      constructor
      · rintro ⟨why, e, h⟩
        cases h
      · rintro (h | h)
        · exact absurd h hpc
        · obtain ⟨why, e, h'⟩ := hx.2 h
          cases h'

theorem cpu_cycle_IR (cp e : COMPUTER) (h : cpu_cycle cp = .next e) : e.IR = cp.mem cp.PC := by
  obtain ⟨e1, h1, h2⟩ := cpu_cycle_next_inv cp e h
  rw [check_interrupt_IR _ _ h2, timer_tick_IR]
  rw [fetch_execute_eq] at h1
  split_ifs at h1
  exact execute_IR _ _ _ _ _ _ h1

theorem execute_in_range (cp : COMPUTER) (op s t : Nat) (imm : Int)
    (hop : op ∈ isa_opcodes) (h0 : op ≠ 0) (hr : exec_in_range cp op s t imm) :
    ∃ e, execute cp op s t imm = .next e := by
  simp only [isa_opcodes, List.mem_cons, List.mem_singleton, List.not_mem_nil, or_false] at hop
  rcases hop with h | h | h | h | h | h | h | h | h | h | h | h | h | h | h
  · exact absurd h h0
  all_goals subst h
  · exact ⟨_, rfl⟩
  · exact ⟨_, by simp only [execute]; rw [if_pos (show s ≤ 64 ∧ t ≤ 64 from hr)]⟩
  · exact ⟨_, by simp only [execute]; rw [if_pos (show s ≤ 64 ∧ t ≤ 64 from hr)]⟩
  · exact ⟨_, by simp only [execute]; rw [if_pos (show t ≤ 64 from hr)]⟩
  · exact ⟨_, by
      simp only [execute]
      rw [if_pos (show s ≤ 64 ∧ t ≤ 64 ∧ 0 ≤ cp.R s + imm ∧ cp.R s + imm < (MAX_MEM_SIZE : Nat)
        from hr)]⟩
  · exact ⟨_, by
      simp only [execute]
      rw [if_pos (show s ≤ 64 ∧ t ≤ 64 ∧ 0 ≤ cp.R s + imm ∧ cp.R s + imm < (MAX_MEM_SIZE : Nat)
        from hr)]⟩
  · have hs : s ≤ 64 := hr
    simp only [execute, hs, if_true]
    split_ifs <;> exact ⟨_, rfl⟩
  · exact ⟨_, by simp only [execute]; rw [if_pos (show t ≤ 64 from hr)]⟩
  · obtain ⟨hs, h1, h2⟩ : s ≤ 64 ∧ 1 ≤ cp.R 64 ∧ cp.R 64 ≤ 128 := hr
    have e1 : toI32 (cp.R 64 - 1) = cp.R 64 - 1 := by unfold toI32; omega
    show ∃ e, execute cp OP_PUSH s t imm = .next e
    rw [execute_push]
    simp only [setR, if_true, e1, MAX_MEM_SIZE]
    rw [if_pos ⟨hs, by omega, by push_cast; omega⟩]
    exact ⟨_, rfl⟩
  · show ∃ e, execute cp OP_POP s t imm = .next e
    rw [execute_pop]
    exact ⟨_, by
      rw [if_pos (show t ≤ 64 ∧ 0 ≤ cp.R 64 ∧ cp.R 64 < (MAX_MEM_SIZE : Nat) from hr)]⟩
  · exact ⟨_, by simp only [execute]; rw [if_pos (show s ≤ 64 ∧ t ≤ 64 from hr)]⟩
  · exact ⟨_, rfl⟩
  · obtain ⟨h1, h2⟩ : 0 ≤ cp.R 64 ∧ cp.R 64 + 1 < 128 := hr
    have e1 : toI32 (cp.R 64 + 1) = cp.R 64 + 1 := by unfold toI32; omega
    show ∃ e, execute cp OP_IRET s t imm = .next e
    rw [execute_iret]
    simp only [setR, if_true, e1, MAX_MEM_SIZE]
    rw [if_pos ⟨h1, by push_cast; omega, by omega, by push_cast; omega⟩]
    exact ⟨_, rfl⟩
  · exact ⟨_, by simp only [execute]; rw [if_pos (show s ≤ 64 from hr)]⟩

theorem check_interrupt_in_range (e : COMPUTER) (h : entry_in_range e) :
    ∃ s, check_interrupt e = .next s := by
  by_cases hb : e.PSR &&& PSR_INT_EN ≠ 0 ∧ e.PSR &&& PSR_INT_PEND ≠ 0
  · obtain ⟨h1, h2⟩ := h hb
    exact ⟨_, check_interrupt_fire e hb.1 hb.2 h1 h2⟩
  · exact ⟨e, by unfold check_interrupt; rw [if_neg hb]⟩

/-- C21: `cpu_cycle` stops the run (returns a negative value) if and only if `PC ≥ 128` at
fetch, or the opcode byte (byte 3) of the fetched word is `0x00` (`halt`), or that opcode
byte is not one of the 15 opcodes of the ISA table. Whenever it returns 0, `IR` equals
`memory[PC]` as fetched; and in every other state it does return 0, provided the accesses of
`execute` and of the interrupt entry stay inside the register file and the memory. -/
theorem C21_cycle_stops_iff (cp : COMPUTER) :
    ((∃ why e, cpu_cycle cp = .stop why e) ↔
      (cp.PC ≥ 128 ∨ opcode_byte (cp.mem cp.PC) = 0x00
        ∨ opcode_byte (cp.mem cp.PC) ∉ isa_opcodes))
    ∧ (∀ e, cpu_cycle cp = .next e → e.IR = cp.mem cp.PC)
    ∧ (¬ (cp.PC ≥ 128 ∨ opcode_byte (cp.mem cp.PC) = 0x00
          ∨ opcode_byte (cp.mem cp.PC) ∉ isa_opcodes) →
        exec_in_range cp (decode (cp.mem cp.PC)).1 (decode (cp.mem cp.PC)).2.1
          (decode (cp.mem cp.PC)).2.2.1 (decode (cp.mem cp.PC)).2.2.2 →
        (∀ e, fetch_execute cp = .next e → entry_in_range (timer_tick e)) →
        ∃ e, cpu_cycle cp = .next e ∧ e.IR = cp.mem cp.PC) := by
  refine ⟨cpu_cycle_stop_iff cp, cpu_cycle_IR cp, fun hn hr hi => ?_⟩
  have hpc : ¬ cp.PC ≥ MAX_MEM_SIZE := fun h => hn (Or.inl h)
  have h0 : opcode_byte (cp.mem cp.PC) ≠ 0 := fun h => hn (Or.inr (Or.inl h))
  have hop : opcode_byte (cp.mem cp.PC) ∈ isa_opcodes := by
    by_contra h
    exact hn (Or.inr (Or.inr h))
  obtain ⟨e1, he1⟩ := execute_in_range { cp with IR := cp.mem cp.PC }
    (opcode_byte (cp.mem cp.PC)) (decode (cp.mem cp.PC)).2.1 (decode (cp.mem cp.PC)).2.2.1
    (decode (cp.mem cp.PC)).2.2.2 hop h0 hr
  have hfe : fetch_execute cp = .next e1 := by
    rw [fetch_execute_eq, if_neg hpc]
    exact he1
  obtain ⟨e2, he2⟩ := check_interrupt_in_range (timer_tick e1) (hi e1 hfe)
  have hc : cpu_cycle cp = .next e2 := by
    rw [cpu_cycle_of_fetch_execute cp e1 hfe, he2]
  exact ⟨e2, hc, cpu_cycle_IR cp e2 hc⟩

theorem C21_cycle_stops_iff_witness :
    ¬ (timer_demo.PC ≥ 128 ∨ opcode_byte (timer_demo.mem timer_demo.PC) = 0x00
        ∨ opcode_byte (timer_demo.mem timer_demo.PC) ∉ isa_opcodes)
    ∧ exec_in_range timer_demo (decode (timer_demo.mem timer_demo.PC)).1
        (decode (timer_demo.mem timer_demo.PC)).2.1
        (decode (timer_demo.mem timer_demo.PC)).2.2.1
        (decode (timer_demo.mem timer_demo.PC)).2.2.2
    ∧ (∀ e, fetch_execute timer_demo = .next e → entry_in_range (timer_tick e))
    ∧ ∃ e, cpu_cycle timer_demo = .next e ∧ e.IR = timer_demo.mem timer_demo.PC := by
  have hr : exec_in_range timer_demo (decode (timer_demo.mem timer_demo.PC)).1
      (decode (timer_demo.mem timer_demo.PC)).2.1
      (decode (timer_demo.mem timer_demo.PC)).2.2.1
      (decode (timer_demo.mem timer_demo.PC)).2.2.2 := trivial
  have hi : ∀ e, fetch_execute timer_demo = .next e → entry_in_range (timer_tick e) := by
    intro e he
    have hs : fetch_execute timer_demo = .next timer_demo := timer_demo_spin 0
    rw [hs] at he
    cases he
    rintro ⟨-, hp⟩
    exact absurd (by decide) hp
  exact ⟨by decide, hr, hi, (C21_cycle_stops_iff timer_demo).2.2 (by decide) hr hi⟩

end ExpIsa
